import Mathlib

/-!
Shallow embedding of the graph-traversal and animation-trace engine of the
repository (main component file: the React `App` component).  City identifiers
are strings, edge weights are integers (the source uses JS numbers; every claim
of interest only needs exact ordered additive arithmetic on them).  JS records keyed by city
are modelled as functions `City → Option α` where `none` models a missing key
(JS `undefined`); the predecessor records additionally distinguish JS `null`
(`some none`) from a stored id (`some (some c)`).  JS `Set`s are modelled as
insertion-ordered duplicate-free lists (`pushUniq`).  Loops are modelled with
a fuel parameter; fuel exhaustion returns the state reached so far and is
proved unreachable where a claim depends on it.  Lookups of a missing
adjacency key (which throw in JS) are modelled as `[]`; theorems about whole
runs therefore carry the well-formedness hypothesis that link endpoints are
registered cities, which the mutation service maintains.
-/

namespace SAI

abbrev City := String

abbrev Weight := ℤ

/-- `GraphLink` mirrors the TS `GraphLink`/`Connections` record: endpoints,
weight (`distance`) and an optional `directed` flag (absent = undirected). -/
structure GraphLink where
  source : City
  target : City
  distance : Weight
  directed : Bool := false
deriving DecidableEq, Repr

/-- `PathResult` mirrors the TS `PathResult`; `totalDistance` is an
`Option Weight` because the source can store JS `undefined`/`Infinity` there
(Dijkstra with an absent end id). -/
structure PathResult where
  path : List City
  totalDistance : Option Weight
deriving DecidableEq, Repr

/-- `AnimationStep` mirrors the TS `AnimationStep` record, including the
optional wave fields. -/
structure AnimationStep where
  currentNode : City
  visitedEdge : Option (City × City)
  currentPath : List City
  isBacktrack : Bool
  waveNodes : Option (List City) := none
  waveEdges : Option (List (City × City)) := none
  nextWaveNodes : Option (List City) := none
  waveNumber : Option Nat := none
  isBackwardWave : Bool := false
deriving DecidableEq, Repr

/-- JS `Set.add`: append if absent (JS sets preserve insertion order). -/
def pushUniq (l : List City) (c : City) : List City :=
  if c ∈ l then l else l ++ [c]

/-- The entries a single link contributes to the adjacency list of city `c`
(`buildAdjacencyList` loop body, in push order). -/
def linkEntries (reverseTraversal : Bool) (l : GraphLink) (c : City) :
    List (City × Weight) :=
  if reverseTraversal then
    if l.directed then
      if c = l.target then [(l.source, l.distance)] else []
    else
      (if c = l.source then [(l.target, l.distance)] else []) ++
        (if c = l.target then [(l.source, l.distance)] else [])
  else
    (if c = l.source then [(l.target, l.distance)] else []) ++
      (if ¬l.directed ∧ c = l.target then [(l.source, l.distance)] else [])

/-- `buildAdjacencyList`, as the function from a city to its neighbor list.
A key absent from the JS record (a non-city) is modelled as `[]`. -/
def buildAdjacencyList (cities : List City) (links : List GraphLink)
    (reverseTraversal : Bool) (c : City) : List (City × Weight) :=
  if c ∈ cities then links.flatMap (fun l => linkEntries reverseTraversal l c) else []

/-- Every engine copies the neighbor list and reverses it when
`reverseTraversal` is set (Dijkstra does not). -/
def orderNbrs (reverseTraversal : Bool) (nbrs : List (City × Weight)) :
    List (City × Weight) :=
  if reverseTraversal then nbrs.reverse else nbrs

/-- JS record keyed by city holding `null` (`some none`) or an id. -/
abbrev PrevMap := City → Option (Option City)

/-- JS record keyed by city holding a finite number (`some (some q)`) or
`Infinity` (`some none`); an absent key is `none`. -/
abbrev DistMap := City → Option (Option Weight)

/-- Point update of a JS record. -/
def updRec {α : Type} (m : City → Option α) (k : City) (v : α) : City → Option α :=
  fun x => if x = k then some v else m x

/-- JS `<` on a finite-or-`Infinity` number (`none` = `Infinity`). -/
def wdLt : Option Weight → Option Weight → Bool
  | some a, some b => decide (a < b)
  | some _, none => true
  | none, _ => false

/-- Addition of a weight to a finite-or-`Infinity` number. -/
def wdAdd : Option Weight → Weight → Option Weight
  | some a, w => some (a + w)
  | none, _ => none

/-- Collapse a record lookup to a finite-or-`Infinity` number: a missing key
(JS `undefined`) is collapsed to the absorbing value, matching the JS `NaN`
propagation on every code path the engines reach. -/
def dval (x : Option (Option Weight)) : Option Weight := x.join

/-- `reconstructCurrentPath` / the predecessor-walk loops of Dijkstra, Wave
and the forward half of Bidirectional Wave: walk `previous` from `cur`,
prepending, stopping at a falsy (`null`/`undefined`/empty) predecessor. -/
def walkPrev (prev : PrevMap) : Nat → City → List City → List City
  | 0, _, acc => acc
  | fuel + 1, cur, acc =>
    if cur = "" then acc
    else
      match prev cur with
      | some (some nxt) =>
        if nxt = "" then cur :: acc else walkPrev prev fuel nxt (cur :: acc)
      | _ => cur :: acc

/-- The backward-half walk of Bidirectional Wave: walk `previous` from `cur`,
appending. -/
def walkFwd (prev : PrevMap) : Nat → City → List City
  | 0, _ => []
  | fuel + 1, cur =>
    if cur = "" then []
    else
      cur ::
        (match prev cur with
          | some (some nxt) => walkFwd prev fuel nxt
          | _ => [])

/-- Fuel bound used by every loop: strictly larger than the number of nodes a
run can ever touch (registered cities plus both endpoints of every link). -/
def searchFuel (cities : List City) (links : List GraphLink) : Nat :=
  cities.length + 2 * links.length + 2

/-! ## DFS engine (`performDFS`) -/

structure DfsSt where
  visited : List City
  steps : List AnimationStep
  distanceMap : City → Option Weight

/-- A pending activation of the recursive `dfs` closure: either the entry
into a node, or the `for (const neighbor of neighbors)` loop with its
remaining neighbors.  (The two mutually recursive pieces are packaged as one
fuel-structural function so that the kernel can evaluate runs.) -/
inductive DfsCall where
  | node (current : City) (currentPath : List City) (currentDistance : Weight)
  | loop (current : City) (cp : List City) (cd : Weight) (nbrs : List (City × Weight))

/-- The recursive `dfs` closure of `performDFS` (both the node entry and its
neighbor loop).  Returns the found full path (`currentPath ++ [current]` at
the target) and the final mutable state.  The fuel only bounds the call
depth and is an artifact of the embedding. -/
def dfsStep (adj : City → List (City × Weight)) (rev : Bool) (target : City) :
    Nat → DfsCall → DfsSt → Option (List City) × DfsSt
  | 0, _, st => (none, st)
  | fuel + 1, .node current currentPath currentDistance, st =>
    if current = target then (some (currentPath ++ [current]), st)
    else
      let st1 : DfsSt :=
        { st with
          visited := pushUniq st.visited current
          steps := st.steps ++
            [{ currentNode := current, visitedEdge := none,
               currentPath := currentPath, isBacktrack := false }] }
      match dfsStep adj rev target fuel
          (.loop current (currentPath ++ [current]) currentDistance
            (orderNbrs rev (adj current))) st1 with
      | (some p, st2) => (some p, st2)
      | (none, st2) =>
        (none,
          { st2 with
            steps := st2.steps ++
              [{ currentNode := current, visitedEdge := none,
                 currentPath := currentPath ++ [current], isBacktrack := true }] })
  | _ + 1, .loop _ _ _ [], st => (none, st)
  | fuel + 1, .loop current cp cd (nbr :: rest), st =>
    if nbr.1 ∈ st.visited then dfsStep adj rev target fuel (.loop current cp cd rest) st
    else
      let st1 : DfsSt :=
        { st with
          steps := st.steps ++
            [{ currentNode := current, visitedEdge := some (current, nbr.1),
               currentPath := cp, isBacktrack := false }] }
      let td := cd + nbr.2
      let st2 : DfsSt :=
        { st1 with distanceMap := fun c => if c = nbr.1 then some td else st1.distanceMap c }
      match dfsStep adj rev target fuel (.node nbr.1 cp td) st2 with
      | (some p, st3) => (some p, st3)
      | (none, st3) => dfsStep adj rev target fuel (.loop current cp cd rest) st3

/-- Fuel for the DFS embedding: bounds the call depth (one level per node on
the recursion stack plus one per neighbor-list position). -/
def dfsFuel (cities : List City) (links : List GraphLink) : Nat :=
  (cities.length + 2 * links.length + 2) * (2 * links.length + 2)

/-- `performDFS`.  Returns the stored `PathResult` (if any) and the stored
animation steps (`[]` when no path was found). -/
def performDFS (cities : List City) (links : List GraphLink) (rev : Bool)
    (startCity endCity : City) : Option PathResult × List AnimationStep :=
  if startCity = "" ∨ endCity = "" ∨ startCity = endCity then (none, [])
  else
    let adj := buildAdjacencyList cities links rev
    let st0 : DfsSt :=
      { visited := [], steps := [],
        distanceMap := fun c => if c ∈ cities then some 0 else none }
    match dfsStep adj rev endCity (dfsFuel cities links) (.node startCity [] 0) st0 with
    | (some p, st) => (some { path := p, totalDistance := st.distanceMap endCity }, st.steps)
    | (none, _) => (none, [])

/-! ## BFS engine (`performBFS`) -/

structure BfsEntry where
  node : City
  path : List City
  distance : Weight
deriving DecidableEq, Repr

structure BfsFold where
  visited : List City
  steps : List AnimationStep
  newEntries : List BfsEntry

/-- The neighbor loop of one BFS dequeue. -/
def bfsExpandGo (node : City) (currentPath : List City) (distance : Weight) :
    List (City × Weight) → BfsFold → BfsFold
  | [], acc => acc
  | nbr :: rest, acc =>
    if nbr.1 ∈ acc.visited then bfsExpandGo node currentPath distance rest acc
    else
      bfsExpandGo node currentPath distance rest
        { visited := pushUniq acc.visited nbr.1
          steps := acc.steps ++
            [{ currentNode := node, visitedEdge := some (node, nbr.1),
               currentPath := currentPath, isBacktrack := false },
             { currentNode := nbr.1, visitedEdge := none,
               currentPath := currentPath, isBacktrack := false }]
          newEntries := acc.newEntries ++
            [{ node := nbr.1, path := currentPath, distance := distance + nbr.2 }] }

/-- The neighbor loop of one BFS dequeue, from the current visited set and
trace. -/
def bfsExpand (node : City) (currentPath : List City) (distance : Weight)
    (nbrs : List (City × Weight)) (visited : List City)
    (steps : List AnimationStep) : BfsFold :=
  bfsExpandGo node currentPath distance nbrs
    { visited := visited, steps := steps, newEntries := [] }

/-- The `while (queue.length > 0)` loop of `performBFS`. -/
def bfsLoop (adj : City → List (City × Weight)) (rev : Bool) (endCity : City) :
    Nat → List BfsEntry → List City → List AnimationStep →
      Option PathResult × List AnimationStep
  | 0, _, _, steps => (none, steps)
  | _ + 1, [], _, steps => (none, steps)
  | fuel + 1, e :: rest, visited, steps =>
    let currentPath := e.path ++ [e.node]
    if e.node = endCity then
      (some { path := currentPath, totalDistance := some e.distance }, steps)
    else
      let f := bfsExpand e.node currentPath e.distance
        (orderNbrs rev (adj e.node)) visited steps
      bfsLoop adj rev endCity fuel (rest ++ f.newEntries) f.visited f.steps

/-- `performBFS`. -/
def performBFS (cities : List City) (links : List GraphLink) (rev : Bool)
    (startCity endCity : City) : Option PathResult × List AnimationStep :=
  if startCity = "" ∨ endCity = "" ∨ startCity = endCity then (none, [])
  else
    let adj := buildAdjacencyList cities links rev
    let steps0 : List AnimationStep :=
      [{ currentNode := startCity, visitedEdge := none, currentPath := [],
         isBacktrack := false }]
    match bfsLoop adj rev endCity (searchFuel cities links)
        [{ node := startCity, path := [], distance := 0 }] [startCity] steps0 with
    | (some r, steps) => (some r, steps)
    | (none, _) => (none, [])

/-! ## Dijkstra engine (`performDijkstra`) -/

/-- The linear scan for the unvisited city of minimum tentative distance
(`unvisited.forEach` with `minDistance = Infinity`). -/
def scanMinGo (dist : DistMap) : List City → Option City × Option Weight →
    Option City × Option Weight
  | [], acc => acc
  | c :: rest, acc =>
    scanMinGo dist rest
      (if wdLt (dval (dist c)) acc.2 then (some c, dval (dist c)) else acc)

def scanMin (dist : DistMap) (unvisited : List City) : Option City :=
  (scanMinGo dist unvisited ((none : Option City), (none : Option Weight))).1

/-- The relaxation loop over the neighbors of the settled city. -/
def dijkstraRelax (rfuel : Nat) (current : City) (unvisited : List City) :
    List (City × Weight) → DistMap × PrevMap × List AnimationStep →
      DistMap × PrevMap × List AnimationStep
  | [], s => s
  | nbr :: rest, s =>
    dijkstraRelax rfuel current unvisited rest
      (if nbr.1 ∈ unvisited then
        let d := s.1
        let p := s.2.1
        let st := s.2.2 ++
          [{ currentNode := current, visitedEdge := some (current, nbr.1),
             currentPath := walkPrev s.2.1 rfuel current [], isBacktrack := false }]
        let potentialDistance := wdAdd (dval (d current)) nbr.2
        if wdLt potentialDistance (dval (d nbr.1)) then
          let d2 := updRec d nbr.1 potentialDistance
          let p2 := updRec p nbr.1 (some current)
          (d2, p2, st ++
            [{ currentNode := nbr.1, visitedEdge := none,
               currentPath := walkPrev p2 rfuel nbr.1 [], isBacktrack := false }])
        else (d, p, st)
      else s)

/-- The `while (unvisited.size > 0)` loop of `performDijkstra`. -/
def dijkstraLoop (adj : City → List (City × Weight)) (endCity : City) (rfuel : Nat) :
    Nat → List City → DistMap → PrevMap → List AnimationStep →
      DistMap × PrevMap × List AnimationStep
  | 0, _, dist, prev, steps => (dist, prev, steps)
  | fuel + 1, unvisited, dist, prev, steps =>
    if unvisited.isEmpty then (dist, prev, steps)
    else
      match scanMin dist unvisited with
      | none => (dist, prev, steps)
      | some current =>
        if dval (dist current) = none then (dist, prev, steps)
        else if current = endCity then (dist, prev, steps)
        else
          let unvisited2 := unvisited.erase current
          let (dist2, prev2, steps2) :=
            dijkstraRelax rfuel current unvisited2 (adj current) (dist, prev, steps)
          dijkstraLoop adj endCity rfuel fuel unvisited2 dist2 prev2 steps2

/-- `performDijkstra`. -/
def performDijkstra (cities : List City) (links : List GraphLink) (rev : Bool)
    (startCity endCity : City) : Option PathResult × List AnimationStep :=
  if startCity = "" ∨ endCity = "" ∨ startCity = endCity then (none, [])
  else
    let adj := buildAdjacencyList cities links rev
    let dist0 : DistMap :=
      fun c => if c ∈ cities then some (if c = startCity then some 0 else none) else none
    let prev0 : PrevMap := fun c => if c ∈ cities then some none else none
    let steps0 : List AnimationStep :=
      [{ currentNode := startCity, visitedEdge := none, currentPath := [],
         isBacktrack := false }]
    let fuel := searchFuel cities links
    let (dist, prev, steps) :=
      dijkstraLoop adj endCity fuel fuel cities.dedup dist0 prev0 steps0
    if prev endCity ≠ some none ∨ startCity = endCity then
      (some { path := walkPrev prev fuel endCity [],
              totalDistance := dval (dist endCity) }, steps)
    else (none, [])

/-! ## Wave engine (`performWave`) -/

/-- Dequeue one full wave (`waveSize` dequeues with an early break at the
target); returns the wave, the remaining queue and the found flag. -/
def takeWave (endCity : City) : List City → List City × List City × Bool
  | [] => ([], [], false)
  | c :: rest =>
    if c = endCity then ([c], rest, true)
    else
      let (w, r, f) := takeWave endCity rest
      (c :: w, r, f)

structure WaveExp where
  visited : List City
  prev : PrevMap
  dist : DistMap
  waveEdges : List (City × City)
  nextWaveNodes : List City
  queue : List City

/-- Expansion of one wave member's neighbors. -/
def waveExpandCity (current : City) : List (City × Weight) → WaveExp → WaveExp
  | [], e => e
  | nbr :: rest, e =>
    if nbr.1 ∈ e.visited then waveExpandCity current rest e
    else
      waveExpandCity current rest
        { visited := pushUniq e.visited nbr.1
          prev := updRec e.prev nbr.1 (some current)
          dist := updRec e.dist nbr.1 (wdAdd (dval (e.dist current)) nbr.2)
          waveEdges := e.waveEdges ++ [(current, nbr.1)]
          nextWaveNodes := e.nextWaveNodes ++ [nbr.1]
          queue := e.queue ++ [nbr.1] }

/-- Expansion of a whole wave. -/
def waveExpand (adj : City → List (City × Weight)) (rev : Bool) :
    List City → WaveExp → WaveExp
  | [], e => e
  | current :: rest, e =>
    waveExpand adj rev rest (waveExpandCity current (orderNbrs rev (adj current)) e)

/-- The `while (queue.length > 0 && !foundPath)` loop of `performWave`.
Returns the final visited/prev/dist/steps state and the found flag. -/
def waveLoop (adj : City → List (City × Weight)) (rev : Bool) (endCity : City)
    (rfuel : Nat) :
    Nat → Nat → List City → List City → PrevMap → DistMap → List AnimationStep →
      (PrevMap × DistMap × List AnimationStep × Bool)
  | 0, _, _, _, prev, dist, steps => (prev, dist, steps, false)
  | fuel + 1, waveCounter, queue, visited, prev, dist, steps =>
    if queue.isEmpty then (prev, dist, steps, false)
    else
      let (currentWave, rest, foundPath) := takeWave endCity queue
      let e := waveExpand adj rev currentWave
        { visited := visited, prev := prev, dist := dist,
          waveEdges := [], nextWaveNodes := [], queue := rest }
      let pushStep := ¬e.waveEdges.isEmpty
      let steps2 :=
        if pushStep then
          steps ++
            [{ currentNode := currentWave.headD "",
               visitedEdge := e.waveEdges.head?,
               currentPath :=
                 match currentWave.head? with
                 | some c => walkPrev e.prev rfuel c []
                 | none => [],
               isBacktrack := false,
               waveNodes := some currentWave, waveEdges := some e.waveEdges,
               nextWaveNodes := some e.nextWaveNodes,
               waveNumber := some waveCounter }]
        else steps
      let waveCounter2 := if pushStep then waveCounter + 1 else waveCounter
      if foundPath then (e.prev, e.dist, steps2, true)
      else waveLoop adj rev endCity rfuel fuel waveCounter2 e.queue e.visited e.prev e.dist steps2

/-- `performWave`. -/
def performWave (cities : List City) (links : List GraphLink) (rev : Bool)
    (startCity endCity : City) : Option PathResult × List AnimationStep :=
  if startCity = "" ∨ endCity = "" ∨ startCity = endCity then (none, [])
  else
    let adj := buildAdjacencyList cities links rev
    let prev0 : PrevMap := fun c => if c ∈ cities then some none else none
    let dist0 : DistMap :=
      fun c => if c ∈ cities then some (if c = startCity then some 0 else none) else none
    let steps0 : List AnimationStep :=
      [{ currentNode := startCity, visitedEdge := none, currentPath := [],
         isBacktrack := false }]
    let fuel := searchFuel cities links
    let (prev, dist, steps, foundPath) :=
      waveLoop adj rev endCity fuel fuel 0 [startCity] [startCity] prev0 dist0 steps0
    if foundPath then
      (some { path := walkPrev prev fuel endCity [],
              totalDistance := dval (dist endCity) }, steps)
    else (none, [])

/-! ## Bidirectional Wave engine (`performBidirectionalWave`) -/

/-- The edge-weight recomputation over the final path (lookup against the
live edge set in either endpoint order, first match, missing pair skipped). -/
def recomputeDistance (links : List GraphLink) (path : List City) : Weight :=
  (path.zip path.tail).foldl
    (fun acc pr =>
      match links.find?
          (fun l => (l.source = pr.1 ∧ l.target = pr.2) ∨
            (l.source = pr.2 ∧ l.target = pr.1)) with
      | some l => acc + l.distance
      | none => acc)
    0

/-- Dequeue one full wave with the meeting check against the other side's
visited set. -/
def takeWaveMeet (otherVisited : List City) :
    List City → List City × List City × Option City
  | [] => ([], [], none)
  | c :: rest =>
    if c ∈ otherVisited then ([c], rest, some c)
    else
      let (w, r, m) := takeWaveMeet otherVisited rest
      (c :: w, r, m)

structure BiExp where
  visited : List City
  prev : PrevMap
  dist : DistMap
  waveEdges : List (City × City)
  nextWaveNodes : List City
  queue : List City
  meet : Option City

/-- Neighbor loop of one bidirectional wave member, with the immediate
meeting check on newly discovered nodes (`break` on meeting). -/
def biExpandNbrs (otherVisited : List City) (current : City) :
    List (City × Weight) → BiExp → BiExp
  | [], e => e
  | nbr :: rest, e =>
    if nbr.1 ∈ e.visited then biExpandNbrs otherVisited current rest e
    else
      let e2 : BiExp :=
        { visited := pushUniq e.visited nbr.1
          prev := updRec e.prev nbr.1 (some current)
          dist := updRec e.dist nbr.1 (wdAdd (dval (e.dist current)) nbr.2)
          waveEdges := e.waveEdges ++ [(current, nbr.1)]
          nextWaveNodes := e.nextWaveNodes ++ [nbr.1]
          queue := e.queue ++ [nbr.1]
          meet := e.meet }
      if nbr.1 ∈ otherVisited then { e2 with meet := some nbr.1 }
      else biExpandNbrs otherVisited current rest e2

/-- Wave loop of one bidirectional side (`break` once a meeting is found). -/
def biExpandWave (adj : City → List (City × Weight)) (rev : Bool)
    (otherVisited : List City) : List City → BiExp → BiExp
  | [], e => e
  | current :: rest, e =>
    let e2 := biExpandNbrs otherVisited current (orderNbrs rev (adj current)) e
    if e2.meet.isSome then e2
    else biExpandWave adj rev otherVisited rest e2

structure BiSt where
  visitedF : List City
  visitedB : List City
  prevF : PrevMap
  prevB : PrevMap
  distF : DistMap
  distB : DistMap
  steps : List AnimationStep

/-- The alternating `while` loop of `performBidirectionalWave`.  Returns the
final state and the meeting node, if any. -/
def biLoop (adj : City → List (City × Weight)) (rev : Bool) :
    Nat → Nat → Nat → List City → List City → BiSt → BiSt × Option City
  | 0, _, _, _, _, st => (st, none)
  | fuel + 1, fwdCtr, bwdCtr, queueF, queueB, st =>
    if queueF.isEmpty ∧ queueB.isEmpty then (st, none)
    else
      -- forward wave
      let fwd :
          (BiSt × Option City) ⊕ (BiSt × Nat × List City) :=
        if queueF.isEmpty then Sum.inr (st, fwdCtr, queueF)
        else
          let (currentWaveF, restF, meet0) := takeWaveMeet st.visitedB queueF
          match meet0 with
          | some m => Sum.inl (st, some m)
          | none =>
            let e := biExpandWave adj rev st.visitedB currentWaveF
              { visited := st.visitedF, prev := st.prevF, dist := st.distF,
                waveEdges := [], nextWaveNodes := [], queue := restF, meet := none }
            let st2 : BiSt :=
              { st with visitedF := e.visited, prevF := e.prev, distF := e.dist }
            let pushStep := ¬e.waveEdges.isEmpty
            let st3 : BiSt :=
              if pushStep then
                { st2 with
                  steps := st2.steps ++
                    [{ currentNode := "", visitedEdge := none, currentPath := [],
                       isBacktrack := false, waveNodes := some currentWaveF,
                       waveEdges := some e.waveEdges,
                       nextWaveNodes := some e.nextWaveNodes,
                       waveNumber := some fwdCtr }] }
              else st2
            let fwdCtr2 := if pushStep then fwdCtr + 1 else fwdCtr
            match e.meet with
            | some m => Sum.inl (st3, some m)
            | none => Sum.inr (st3, fwdCtr2, e.queue)
      match fwd with
      | Sum.inl out => out
      | Sum.inr (stA, fwdCtrA, queueF2) =>
        -- backward wave
        let bwd :
            (BiSt × Option City) ⊕ (BiSt × Nat × List City) :=
          if queueB.isEmpty then Sum.inr (stA, bwdCtr, queueB)
          else
            let (currentWaveB, restB, meet0) := takeWaveMeet stA.visitedF queueB
            match meet0 with
            | some m => Sum.inl (stA, some m)
            | none =>
              let e := biExpandWave adj rev stA.visitedF currentWaveB
                { visited := stA.visitedB, prev := stA.prevB, dist := stA.distB,
                  waveEdges := [], nextWaveNodes := [], queue := restB, meet := none }
              let st2 : BiSt :=
                { stA with visitedB := e.visited, prevB := e.prev, distB := e.dist }
              let pushStep := ¬e.waveEdges.isEmpty
              let st3 : BiSt :=
                if pushStep then
                  { st2 with
                    steps := st2.steps ++
                      [{ currentNode := "", visitedEdge := none, currentPath := [],
                         isBacktrack := false, waveNodes := some currentWaveB,
                         waveEdges := some e.waveEdges,
                         nextWaveNodes := some e.nextWaveNodes,
                         waveNumber := some bwdCtr,
                         isBackwardWave := true }] }
                else st2
              let bwdCtr2 := if pushStep then bwdCtr + 1 else bwdCtr
              match e.meet with
              | some m => Sum.inl (st3, some m)
              | none => Sum.inr (st3, bwdCtr2, e.queue)
        match bwd with
        | Sum.inl out => out
        | Sum.inr (stB, bwdCtrB, queueB2) =>
          biLoop adj rev fuel fwdCtrA bwdCtrB queueF2 queueB2 stB

/-- `performBidirectionalWave`. -/
def performBidirectionalWave (cities : List City) (links : List GraphLink)
    (rev : Bool) (startCity endCity : City) :
    Option PathResult × List AnimationStep :=
  if startCity = "" ∨ endCity = "" ∨ startCity = endCity then (none, [])
  else
    let adj := buildAdjacencyList cities links rev
    let prev0 : PrevMap := fun c => if c ∈ cities then some none else none
    let distF0 : DistMap :=
      fun c => if c ∈ cities then some (if c = startCity then some 0 else none) else none
    let distB0 : DistMap :=
      fun c => if c ∈ cities then some (if c = endCity then some 0 else none) else none
    let steps0 : List AnimationStep :=
      [{ currentNode := startCity, visitedEdge := none, currentPath := [startCity],
         isBacktrack := false, waveNodes := some [startCity], waveEdges := some [],
         nextWaveNodes := some [] },
       { currentNode := endCity, visitedEdge := none, currentPath := [endCity],
         isBacktrack := false, waveNodes := some [endCity], waveEdges := some [],
         nextWaveNodes := some [] }]
    let fuel := searchFuel cities links
    let st0 : BiSt :=
      { visitedF := [startCity], visitedB := [endCity], prevF := prev0,
        prevB := prev0, distF := distF0, distB := distB0, steps := steps0 }
    match biLoop adj rev fuel 0 0 [startCity] [endCity] st0 with
    | (st, some meetingNode) =>
      let forwardPath := walkPrev st.prevF fuel meetingNode []
      let backwardPath :=
        match st.prevB meetingNode with
        | some (some c) => walkFwd st.prevB fuel c
        | _ => []
      let fullPath := forwardPath ++ backwardPath
      let totalDistance := recomputeDistance links fullPath
      let steps := st.steps ++
        [{ currentNode := meetingNode, visitedEdge := none, currentPath := [],
           isBacktrack := false, waveNodes := some [meetingNode],
           waveEdges := some [], nextWaveNodes := some [] },
         { currentNode := "", visitedEdge := none, currentPath := fullPath,
           isBacktrack := false, waveNodes := some [], waveEdges := some [],
           nextWaveNodes := some [] }]
      (some { path := fullPath, totalDistance := some totalDistance }, steps)
    | (_, none) => (none, [])

/-! ## Strategy dispatch (`findPath` / `computePath`) -/

inductive Strategy
  | DFS
  | BFS
  | Dijkstra
  | Wave
  | BidirectionalWave
deriving DecidableEq, Repr

/-- `findPath`: dispatch on the selected algorithm. -/
def computePath (cities : List City) (links : List GraphLink)
    (strategy : Strategy) (rev : Bool) (startCity endCity : City) :
    Option PathResult × List AnimationStep :=
  match strategy with
  | .DFS => performDFS cities links rev startCity endCity
  | .BFS => performBFS cities links rev startCity endCity
  | .Dijkstra => performDijkstra cities links rev startCity endCity
  | .Wave => performWave cities links rev startCity endCity
  | .BidirectionalWave => performBidirectionalWave cities links rev startCity endCity

/-! ## Animation step application (the `useEffect` fold, visited-node part) -/

/-- The visited-node component of applying one animation step to the
cumulative highlight state: wave steps (both `waveNodes` and `waveEdges`
present — JS truthiness, arrays are truthy even when empty) add all wave
nodes; any other step adds `currentNode`. -/
def applyStepVisited (vis : List City) (s : AnimationStep) : List City :=
  if s.waveNodes.isSome ∧ s.waveEdges.isSome then
    (s.waveNodes.getD []).foldl pushUniq vis
  else pushUniq vis s.currentNode

/-- Replaying a full trace from the empty highlight state. -/
def foldVisited (steps : List AnimationStep) : List City :=
  steps.foldl applyStepVisited []

/-! ## Mutation service -/

/-- The component state touched by the mutation service. -/
structure AppState where
  cities : List City
  links : List GraphLink
  startCity : City
  endCity : City
  dfsPath : Option PathResult
  pathNodes : List City
  pathEdges : List String
  animationSteps : List AnimationStep
deriving DecidableEq

/-- `deleteNode`: filters the node and its incident edges out; clears the
computed path and reassigns the selection only when the deleted node was the
start or end selection. -/
def deleteNode (s : AppState) (nodeId : City) : AppState :=
  let cities2 := s.cities.filter (fun c => c ≠ nodeId)
  let links2 := s.links.filter (fun l => l.source ≠ nodeId ∧ l.target ≠ nodeId)
  let base := { s with cities := cities2, links := links2 }
  if s.startCity = nodeId ∨ s.endCity = nodeId then
    { base with
      dfsPath := none, pathNodes := [], pathEdges := [], animationSteps := []
      startCity := if s.startCity = nodeId then cities2.headD "" else s.startCity
      endCity := if s.endCity = nodeId then cities2.headD "" else s.endCity }
  else base

/-- The `edgeExists` predicate of `addNewEdge`: an edge connects the given
endpoints under the directionality rule of the edge being added. -/
def edgeMatchesPair (source target : City) (directed : Bool) (l : GraphLink) : Bool :=
  (l.source = source ∧ l.target = target) ∨
    (¬directed ∧ l.source = target ∧ l.target = source)

/-- `addNewEdge`: upsert on the directionality-sensitive endpoint pair. -/
def addNewEdge (links : List GraphLink) (source target : City)
    (distance : Weight) (directed : Bool) : List GraphLink :=
  if links.any (edgeMatchesPair source target directed) then
    links.map (fun l =>
      if edgeMatchesPair source target directed l then
        { l with distance := distance, directed := directed }
      else l)
  else links ++ [{ source := source, target := target, distance := distance,
                   directed := directed }]

/-- `confirmAddEdge`: rejects a non-numeric (`none`, JS `NaN`) or non-positive
weight, leaving the edge set unchanged; otherwise delegates to `addNewEdge`. -/
def confirmAddEdge (links : List GraphLink) (source target : City)
    (distance : Option Weight) (directed : Bool) : List GraphLink :=
  match distance with
  | none => links
  | some d => if d ≤ 0 then links else addNewEdge links source target d directed

/-! ## Specification-side notions used to state the claims -/

/-- The consecutive pairs of a path. -/
def pathPairs (p : List City) : List (City × City) := p.zip p.tail

/-- Spec notion: a live edge traversable from `u` to `v` (directed edges only
source-to-target, undirected either way). -/
def isDirValidEdge (links : List GraphLink) (u v : City) : Bool :=
  links.any (fun l =>
    (l.source = u ∧ l.target = v) ∨ (¬l.directed ∧ l.source = v ∧ l.target = u))

/-- Spec notion: a live edge connecting `u` and `v` in either endpoint
order, regardless of direction. -/
def isLiveEdge (links : List GraphLink) (u v : City) : Bool :=
  links.any (fun l =>
    (l.source = u ∧ l.target = v) ∨ (l.source = v ∧ l.target = u))

/-- Membership of an edge in an adjacency index. -/
def adjHas (adj : City → List (City × Weight)) (u v : City) : Prop :=
  ∃ w, (v, w) ∈ adj u

/-- A walk along the adjacency index, carrying its accumulated weight. -/
inductive AdjWalk (adj : City → List (City × Weight)) : List City → Weight → Prop
  | single (u : City) : AdjWalk adj [u] 0
  | cons {u v : City} {w : Weight} {rest : List City} {d : Weight} :
      (v, w) ∈ adj u → AdjWalk adj (v :: rest) d → AdjWalk adj (u :: v :: rest) (w + d)

/-! ## Concrete graphs used by the scenario checks and counterexamples -/

/-- The spec's concrete scenario graph: `A-B` 5, `B-C` 3, `A-C` 10, all
undirected. -/
def scenarioCities : List City := ["A", "B", "C"]

def scenarioLinks : List GraphLink :=
  [{ source := "A", target := "B", distance := 5 },
   { source := "B", target := "C", distance := 3 },
   { source := "A", target := "C", distance := 10 }]

/-- The app state of the scenario after computing the DFS path `[A,B,C]`. -/
def scenarioState : AppState :=
  { cities := scenarioCities, links := scenarioLinks,
    startCity := "A", endCity := "C",
    dfsPath := some { path := ["A", "B", "C"], totalDistance := some 8 },
    pathNodes := ["A", "B", "C"],
    pathEdges := ["A-B", "B-A", "B-C", "C-B"],
    animationSteps := [] }

/-- Directed graph on which Bidirectional Wave's backward half traverses the
directed edge `C→B` against its direction: `A→B`, `C→B`. -/
def cexDirCities : List City := ["A", "B", "C"]

def cexDirLinks : List GraphLink :=
  [{ source := "A", target := "B", distance := 1, directed := true },
   { source := "C", target := "B", distance := 1, directed := true }]

/-- Directed graph on which Bidirectional Wave reports a smaller total
distance than Dijkstra: `S→A` 1, `A→E` 50, `E→B` 1, `S→B` 1. -/
def cexDijCities : List City := ["S", "A", "E", "B"]

def cexDijLinks : List GraphLink :=
  [{ source := "S", target := "A", distance := 1, directed := true },
   { source := "A", target := "E", distance := 50, directed := true },
   { source := "E", target := "B", distance := 1, directed := true },
   { source := "S", target := "B", distance := 1, directed := true }]

/-- Two-node undirected path graph `A-B`. -/
def cexTwoCities : List City := ["A", "B"]

def cexTwoLinks : List GraphLink :=
  [{ source := "A", target := "B", distance := 1 }]

/-- Well-formedness maintained by the mutation service: node ids are
non-empty and every link endpoint is a registered city. -/
def GraphWF (cities : List City) (links : List GraphLink) : Prop :=
  "" ∉ cities ∧ ∀ l ∈ links, l.source ∈ cities ∧ l.target ∈ cities

/-- Invariant of a predecessor record grown by a search rooted at `start`:
`start` is mapped to `null`, and every recorded predecessor edge points back
along the adjacency index to an older node (`rk` strictly decreases), ending
at `start`. -/
def PrevOK (adj : City → List (City × Weight)) (start : City) (rk : City → Nat)
    (prev : PrevMap) : Prop :=
  prev start = some none ∧ start ≠ "" ∧
    ∀ v u, prev v = some (some u) →
      u ≠ "" ∧ v ≠ "" ∧ adjHas adj u v ∧
        (u = start ∨ ∃ u2, prev u = some (some u2)) ∧ rk u < rk v

/-- Invariant tying a distance record to a predecessor record: the start has
distance 0 and every recorded predecessor edge accounts exactly for its edge
weight. -/
def DistOK (adj : City → List (City × Weight)) (start : City) (prev : PrevMap)
    (d : DistMap) : Prop :=
  dval (d start) = some 0 ∧
    ∀ v u, prev v = some (some u) →
      ∃ w, (v, w) ∈ adj u ∧ dval (d v) = wdAdd (dval (d u)) w

/-- Rank of a city in a visited list (position of first occurrence; used as
the strictly increasing rank justifying predecessor walks). -/
def rkIn : List City → City → Nat
  | [], _ => 0
  | a :: rest, c => if c = a then 0 else rkIn rest c + 1

/-- A node the replay fold is guaranteed to mark visited: it is the
`currentNode` of a plain step, or a member of the `waveNodes` of a wave step
(with present `waveEdges`). -/
def covStep (steps : List AnimationStep) (u : City) : Prop :=
  ∃ s ∈ steps,
    (∃ wn, s.waveNodes = some wn ∧ s.waveEdges.isSome = true ∧ u ∈ wn) ∨
    (¬(s.waveNodes.isSome = true ∧ s.waveEdges.isSome = true) ∧ s.currentNode = u)

/-- Core soundness invariant shared by the Wave engine state: the predecessor
record is rank-valid against the visited list, distances account for
predecessor edges, recorded predecessors live in the visited set, and the
visited set is a duplicate-free subset of the registered cities plus the
start. -/
def WaveCore (adj : City → List (City × Weight)) (start : City)
    (cities : List City) (visited : List City) (prev : PrevMap)
    (dist : DistMap) : Prop :=
  PrevOK adj start (rkIn visited) prev ∧
  DistOK adj start prev dist ∧
  (∀ v u, prev v = some (some u) → v ∈ visited ∧ u ∈ visited) ∧
  visited.Nodup ∧
  (∀ x ∈ visited, x ∈ pushUniq cities start) ∧
  start ∈ visited

/-- Core soundness invariant of the Dijkstra state, relative to the ghost
list `S` of settled cities in settle order: the predecessor record is
rank-valid (settled cities ranked by settle position, unsettled above them),
distances account for predecessor edges and are non-negative, recorded
predecessors are settled, a finite distance implies a predecessor chain,
every recorded predecessor has a pushed visit step, and registered cities
always carry a non-`undefined` predecessor entry. -/
def DijCore (adj : City → List (City × Weight)) (start : City)
    (cities : List City) (S : List City) (dist : DistMap) (prev : PrevMap)
    (steps : List AnimationStep) : Prop :=
  PrevOK adj start (fun c => if c ∈ S then rkIn S c else S.length) prev ∧
  DistOK adj start prev dist ∧
  (∀ v u, prev v = some (some u) → u ∈ S) ∧
  (∀ u, dval (dist u) ≠ none → u = start ∨ ∃ u2, prev u = some (some u2)) ∧
  (∀ c q, dval (dist c) = some (q : Weight) → 0 ≤ q) ∧
  (∀ v u, prev v = some (some u) → covStep steps v) ∧
  (∀ c ∈ cities, prev c ≠ none) ∧
  covStep steps start

/-- `a <= b` on finite-or-`Infinity` numbers, as the negation of `wdLt`. -/
def wdLe (a b : Option Weight) : Prop := wdLt b a = false

/-- Minimality invariant of the Dijkstra loop relative to the unvisited set:
unvisited cities are registered (after deduplication) and duplicate-free,
every settled city's outgoing edges are relaxed, settled tentative distances
lie below all unvisited ones, and the start's tentative distance is at most
zero. -/
def DijMin (adj : City → List (City × Weight)) (start : City)
    (cities : List City) (unvisited : List City) (dist : DistMap) : Prop :=
  (∀ z ∈ unvisited, z ∈ cities.dedup) ∧
  unvisited.Nodup ∧
  (∀ y ∈ cities.dedup, y ∉ unvisited →
    ∀ p ∈ adj y, wdLe (dval (dist p.1)) (wdAdd (dval (dist y)) p.2)) ∧
  (∀ y ∈ cities.dedup, y ∉ unvisited →
    ∀ z ∈ unvisited, wdLe (dval (dist y)) (dval (dist z))) ∧
  wdLe (dval (dist start)) (some 0)

/-- Core soundness invariant of one side of the Bidirectional Wave engine:
the predecessor record is rank-valid against this side's visited list, its
entries lie in the visited set, every visited node is the side's origin or
carries a predecessor, and the visited set is a duplicate-free subset of the
registered cities plus the origin. -/
def BiCore (adj : City → List (City × Weight)) (start : City)
    (cities : List City) (visited : List City) (prev : PrevMap) : Prop :=
  PrevOK adj start (rkIn visited) prev ∧
  (∀ v u, prev v = some (some u) → v ∈ visited ∧ u ∈ visited) ∧
  (∀ x ∈ visited, x = start ∨ ∃ u, prev x = some (some u)) ∧
  visited.Nodup ∧
  (∀ x ∈ visited, x ∈ pushUniq cities start) ∧
  start ∈ visited

/-- Loop invariant of the bidirectional wave: both sides satisfy their core
invariant, queue members are visited on their side, the two visited sets are
disjoint, and every recorded predecessor (and both origins) is covered by a
pushed step. -/
def BiInv (adj : City → List (City × Weight)) (start endC : City)
    (cities : List City) (queueF queueB : List City) (st : BiSt) : Prop :=
  BiCore adj start cities st.visitedF st.prevF ∧
  BiCore adj endC cities st.visitedB st.prevB ∧
  (∀ c ∈ queueF, c ∈ st.visitedF) ∧
  (∀ c ∈ queueB, c ∈ st.visitedB) ∧
  (∀ x, x ∈ st.visitedF → x ∈ st.visitedB → False) ∧
  (∀ v u, st.prevF v = some (some u) → covStep st.steps u) ∧
  (∀ v u, st.prevB v = some (some u) → covStep st.steps u) ∧
  covStep st.steps start ∧ covStep st.steps endC

/-- What a meeting bidirectional run guarantees about the final state. -/
def BiOut (adj : City → List (City × Weight)) (start endC : City)
    (cities : List City) (st2 : BiSt) (m : City) : Prop :=
  BiCore adj start cities st2.visitedF st2.prevF ∧
  BiCore adj endC cities st2.visitedB st2.prevB ∧
  m ∈ st2.visitedF ∧ m ∈ st2.visitedB ∧
  (∀ x, x ∈ st2.visitedF → x ∈ st2.visitedB → x = m) ∧
  (∀ v u, st2.prevF v = some (some u) → covStep st2.steps u) ∧
  (∀ v u, st2.prevB v = some (some u) → covStep st2.steps u) ∧
  covStep st2.steps start ∧ covStep st2.steps endC

/-- Soundness invariant of the BFS queue: every entry carries a duplicate-free
adjacency chain from the start whose weight is the entry's distance, lying
inside the visited set, each of whose nodes already has a plain visit step in
the trace. -/
structure BfsInvS (adj : City → List (City × Weight)) (start : City)
    (queue : List BfsEntry) (visited : List City)
    (steps : List AnimationStep) : Prop where
  head : ∀ e ∈ queue, (e.path ++ [e.node]).head? = some start
  chain : ∀ e ∈ queue, ∀ pr ∈ pathPairs (e.path ++ [e.node]), adjHas adj pr.1 pr.2
  nodup : ∀ e ∈ queue, (e.path ++ [e.node]).Nodup
  subV : ∀ e ∈ queue, ∀ x ∈ e.path ++ [e.node], x ∈ visited
  walk : ∀ e ∈ queue, AdjWalk adj (e.path ++ [e.node]) e.distance
  stepped : ∀ e ∈ queue, ∀ x ∈ e.path ++ [e.node],
    ∃ s ∈ steps, s.waveNodes = none ∧ s.currentNode = x

/-- Precondition of an activation of the recursive `dfs` closure entering a
node: the call path plus the entered node form a duplicate-free adjacency
chain from the start of accumulated weight `currentDistance`, lying in the
visited set (the entered node and the target not yet visited), each path node
already carrying a plain visit step; if the entered node is the target its
distance was just recorded. -/
def DfsPreNode (adj : City → List (City × Weight)) (start target : City)
    (current : City) (cp : List City) (cd : Weight) (st : DfsSt) : Prop :=
  (∀ pr ∈ pathPairs (cp ++ [current]), adjHas adj pr.1 pr.2) ∧
  (cp ++ [current]).head? = some start ∧
  (cp ++ [current]).Nodup ∧
  (∀ x ∈ cp, x ∈ st.visited) ∧
  current ∉ st.visited ∧
  target ∉ st.visited ∧
  AdjWalk adj (cp ++ [current]) cd ∧
  (current = target → st.distanceMap target = some cd) ∧
  (∀ x ∈ cp, ∃ s ∈ st.steps, s.waveNodes = none ∧ s.currentNode = x)

/-- Precondition of an activation of the neighbor loop (the path already ends
in the looping node). -/
def DfsPreLoop (adj : City → List (City × Weight)) (start target : City)
    (current : City) (cp : List City) (cd : Weight)
    (nbrs : List (City × Weight)) (st : DfsSt) : Prop :=
  (∀ pr ∈ pathPairs cp, adjHas adj pr.1 pr.2) ∧
  cp.head? = some start ∧
  cp.Nodup ∧
  (∀ x ∈ cp, x ∈ st.visited) ∧
  cp.getLast? = some current ∧
  target ∉ st.visited ∧
  AdjWalk adj cp cd ∧
  (∀ p ∈ nbrs, p ∈ adj current) ∧
  (∀ x ∈ cp, ∃ s ∈ st.steps, s.waveNodes = none ∧ s.currentNode = x)

def DfsPre (adj : City → List (City × Weight)) (start target : City) :
    DfsCall → DfsSt → Prop
  | .node current cp cd, st => DfsPreNode adj start target current cp cd st
  | .loop current cp cd nbrs, st => DfsPreLoop adj start target current cp cd nbrs st

/-- What a successful DFS return guarantees about the found path and final
state. -/
def DfsSuccess (adj : City → List (City × Weight)) (start target : City)
    (p : List City) (st2 : DfsSt) : Prop :=
  p.head? = some start ∧ p.getLast? = some target ∧
  (∀ pr ∈ pathPairs p, adjHas adj pr.1 pr.2) ∧ p.Nodup ∧
  (∃ q, AdjWalk adj p q ∧ st2.distanceMap target = some q) ∧
  (∀ x ∈ p, x ≠ target → ∃ s ∈ st2.steps, s.waveNodes = none ∧ s.currentNode = x)

/-- Reachability from `s` in exactly `k` adjacency hops. -/
inductive ReachIn (adj : City → List (City × Weight)) (s : City) : City → Nat → Prop
  | refl : ReachIn adj s s 0
  | step {y z : City} {k : Nat} :
      ReachIn adj s y k → adjHas adj y z → ReachIn adj s z (k + 1)

/-- Level invariant of the BFS queue: depths (carried path lengths) are
sorted and span at most two consecutive levels; nodes of completed levels are
fully expanded; every node reachable within the current level is already
visited; entry depths never exceed the true hop distance beyond the current
level; the end node, once discovered, sits in the queue until dequeued. -/
structure BfsInvM (adj : City → List (City × Weight))
    (cities : List City) (start endC : City)
    (queue : List BfsEntry) (visited : List City) : Prop where
  sorted : List.Chain' (fun e1 e2 => e1.path.length ≤ e2.path.length) queue
  band : ∀ e ∈ queue, ∀ h ∈ queue.head?, e.path.length ≤ h.path.length + 1
  start_mem : start ∈ visited
  vsub : ∀ x ∈ visited, x = start ∨ x ∈ cities
  vnodup : visited.Nodup
  qnodes_sub : ∀ e ∈ queue, e.node ∈ visited
  qnodes_nodup : (queue.map BfsEntry.node).Nodup
  closed : ∀ z ∈ visited, (∀ e ∈ queue, e.node ≠ z) → ∀ p ∈ adj z, p.1 ∈ visited
  m2 : ∀ z k, ReachIn adj start z k → (∀ h ∈ queue.head?, k < h.path.length) →
    z ∈ visited ∧ ∀ e ∈ queue, e.node ≠ z
  m3 : ∀ z k, ReachIn adj start z k → (∀ h ∈ queue.head?, k ≤ h.path.length) →
    z ∈ visited
  m6 : ∀ e ∈ queue, ∀ h ∈ queue.head?, ∀ k, ReachIn adj start e.node k →
    e.path.length ≤ max k h.path.length
  endq : endC ∈ visited → ∃ e ∈ queue, e.node = endC

end SAI

namespace SAI

/-! # Basic lemmas -/

theorem mem_pushUniq {l : List City} {c x : City} :
    x ∈ pushUniq l c ↔ x ∈ l ∨ x = c := by
  unfold pushUniq
  split <;> rename_i h
  · constructor
    · exact Or.inl
    · rintro (hx | rfl) <;> [exact hx; exact h]
  · simp

theorem sub_pushUniq {l : List City} {c : City} : l ⊆ pushUniq l c := by
  intro x hx
  exact mem_pushUniq.2 (Or.inl hx)

theorem self_mem_pushUniq {l : List City} {c : City} : c ∈ pushUniq l c :=
  mem_pushUniq.2 (Or.inr rfl)

theorem nodup_pushUniq {l : List City} {c : City} (h : l.Nodup) :
    (pushUniq l c).Nodup := by
  unfold pushUniq
  split <;> rename_i hc
  · exact h
  · simpa [List.nodup_append] using ⟨h, fun hx => hc hx⟩

theorem pushUniq_length_le {l : List City} {c : City} :
    (pushUniq l c).length ≤ l.length + 1 := by
  unfold pushUniq
  split <;> simp

theorem pushUniq_prefix {l : List City} {c : City} : l <+: pushUniq l c := by
  unfold pushUniq
  split
  · exact List.prefix_refl l
  · exact ⟨[c], rfl⟩

theorem pushUniq_length_of_not_mem {l : List City} {c : City} (h : c ∉ l) :
    (pushUniq l c).length = l.length + 1 := by
  unfold pushUniq
  rw [if_neg h]
  simp

/-! ## Rank, coverage and wave-dequeue helper lemmas -/

theorem rkIn_mem_eq {x : City} :
    ∀ {l1 : List City} (l2 : List City), x ∈ l1 → rkIn (l1 ++ l2) x = rkIn l1 x := by
  intro l1
  induction l1 with
  | nil =>
    intro l2 h
    simp at h
  | cons a t ih =>
    intro l2 h
    rw [List.cons_append]
    unfold rkIn
    by_cases hxa : x = a
    · rw [if_pos hxa, if_pos hxa]
    · rw [if_neg hxa, if_neg hxa]
      rcases List.mem_cons.1 h with h1 | h1
      · exact absurd h1 hxa
      · rw [ih l2 h1]

theorem rkIn_append_self {c : City} :
    ∀ {l : List City}, c ∉ l → rkIn (l ++ [c]) c = l.length := by
  intro l
  induction l with
  | nil =>
    intro _
    simp [rkIn]
  | cons a t ih =>
    intro h
    rw [List.cons_append]
    unfold rkIn
    rw [if_neg (fun hh => h (by rw [hh]; exact List.mem_cons_self _ _)),
      ih (fun hh => h (List.mem_cons_of_mem _ hh))]
    simp

theorem rkIn_lt_length {x : City} :
    ∀ {l : List City}, x ∈ l → rkIn l x < l.length := by
  intro l
  induction l with
  | nil =>
    intro h
    simp at h
  | cons a t ih =>
    intro h
    unfold rkIn
    by_cases hxa : x = a
    · rw [if_pos hxa]
      simp
    · rw [if_neg hxa]
      rcases List.mem_cons.1 h with h1 | h1
      · exact absurd h1 hxa
      · have := ih h1
        simp only [List.length_cons]
        omega

theorem rkIn_pushUniq_mem {l : List City} {c x : City} (hx : x ∈ l) :
    rkIn (pushUniq l c) x = rkIn l x := by
  unfold pushUniq
  split
  · rfl
  · exact rkIn_mem_eq _ hx

theorem rkIn_pushUniq_new {l : List City} {c : City} (hc : c ∉ l) :
    rkIn (pushUniq l c) c = l.length := by
  unfold pushUniq
  rw [if_neg hc]
  exact rkIn_append_self hc

theorem covStep_mono {steps more : List AnimationStep} {u : City}
    (h : covStep steps u) : covStep (steps ++ more) u := by
  obtain ⟨s, hs, hc⟩ := h
  exact ⟨s, List.mem_append.2 (Or.inl hs), hc⟩

theorem takeWave_spec (endCity : City) :
    ∀ q : List City,
      (∀ c ∈ (takeWave endCity q).1, c ∈ q) ∧
      (∀ c ∈ (takeWave endCity q).2.1, c ∈ q) ∧
      ((takeWave endCity q).2.2 = true → endCity ∈ (takeWave endCity q).1) := by
  intro q
  induction q with
  | nil =>
    refine ⟨?_, ?_, ?_⟩
    · intro c hc
      simp [takeWave] at hc
    · intro c hc
      simp [takeWave] at hc
    · intro h
      simp [takeWave] at h
  | cons a rest ih =>
    rw [takeWave]
    by_cases ha : a = endCity
    · rw [if_pos ha]
      refine ⟨?_, ?_, ?_⟩
      · intro c hc
        simp only [List.mem_singleton] at hc
        exact hc ▸ List.mem_cons_self _ _
      · intro c hc
        exact List.mem_cons_of_mem _ hc
      · intro _
        simp [ha]
    · rw [if_neg ha]
      obtain ⟨i1, i2, i3⟩ := ih
      dsimp only
      refine ⟨?_, ?_, ?_⟩
      · intro c hc
        rcases List.mem_cons.1 hc with h1 | h1
        · exact h1 ▸ List.mem_cons_self _ _
        · exact List.mem_cons_of_mem _ (i1 c h1)
      · intro c hc
        exact List.mem_cons_of_mem _ (i2 c hc)
      · intro hf
        exact List.mem_cons_of_mem _ (i3 hf)

/-! ## Adjacency characterization -/

theorem mem_linkEntries {rev : Bool} {l : GraphLink} {c : City} {p : City × Weight}
    (h : p ∈ linkEntries rev l c) :
    ((c = l.source ∧ p.1 = l.target) ∨ (c = l.target ∧ p.1 = l.source)) ∧
      p.2 = l.distance := by
  unfold linkEntries at h
  split_ifs at h <;> simp_all

theorem mem_linkEntries_false {l : GraphLink} {c : City} {p : City × Weight}
    (h : p ∈ linkEntries false l c) :
    (c = l.source ∧ p.1 = l.target) ∨
      (¬l.directed ∧ c = l.target ∧ p.1 = l.source) := by
  unfold linkEntries at h
  simp only [Bool.false_eq_true, if_false] at h
  rcases List.mem_append.1 h with h1 | h1 <;> split_ifs at h1 <;> simp_all

theorem mem_buildAdjacencyList {cities : List City} {links : List GraphLink}
    {rev : Bool} {u : City} {p : City × Weight}
    (h : p ∈ buildAdjacencyList cities links rev u) :
    u ∈ cities ∧ ∃ l ∈ links, p ∈ linkEntries rev l u := by
  unfold buildAdjacencyList at h
  split at h
  · rename_i hu
    exact ⟨hu, List.mem_flatMap.1 h⟩
  · simp at h

/-- Any adjacency entry corresponds to a live edge (either endpoint order). -/
theorem adjHas_isLiveEdge {cities : List City} {links : List GraphLink}
    {rev : Bool} {u v : City}
    (h : adjHas (buildAdjacencyList cities links rev) u v) :
    isLiveEdge links u v = true := by
  obtain ⟨w, hw⟩ := h
  obtain ⟨-, l, hl, hme⟩ := mem_buildAdjacencyList hw
  obtain ⟨hc, -⟩ := mem_linkEntries hme
  unfold isLiveEdge
  rw [List.any_eq_true]
  refine ⟨l, hl, ?_⟩
  simp only [decide_eq_true_eq]
  rcases hc with ⟨h1, h2⟩ | ⟨h1, h2⟩
  · exact Or.inl ⟨h1.symm, h2.symm⟩
  · exact Or.inr ⟨h2.symm, h1.symm⟩

/-- With `reverseTraversal = false`, an adjacency entry is exactly a
directionally valid live edge. -/
theorem adjHas_isDirValidEdge {cities : List City} {links : List GraphLink}
    {u v : City}
    (h : adjHas (buildAdjacencyList cities links false) u v) :
    isDirValidEdge links u v = true := by
  obtain ⟨w, hw⟩ := h
  obtain ⟨-, l, hl, hme⟩ := mem_buildAdjacencyList hw
  unfold isDirValidEdge
  rw [List.any_eq_true]
  refine ⟨l, hl, ?_⟩
  simp only [decide_eq_true_eq]
  rcases mem_linkEntries_false hme with ⟨h1, h2⟩ | ⟨hd, h1, h2⟩
  · exact Or.inl ⟨h1.symm, h2.symm⟩
  · exact Or.inr ⟨hd, h2.symm, h1.symm⟩

/-- Converse: a directionally valid live edge out of a registered city is an
adjacency entry at `reverseTraversal = false`, and its head is registered. -/
theorem isDirValidEdge_adjHas {cities : List City} {links : List GraphLink}
    {u v : City} (wf : GraphWF cities links)
    (h : isDirValidEdge links u v = true) (hu : u ∈ cities) :
    adjHas (buildAdjacencyList cities links false) u v ∧ v ∈ cities := by
  unfold isDirValidEdge at h
  rw [List.any_eq_true] at h
  obtain ⟨l, hl, hc⟩ := h
  rw [decide_eq_true_eq] at hc
  have hmem : (v, l.distance) ∈ linkEntries false l u := by
    unfold linkEntries
    simp only [Bool.false_eq_true, if_false]
    rcases hc with ⟨h1, h2⟩ | ⟨hd, h1, h2⟩
    · refine List.mem_append.2 (Or.inl ?_)
      rw [if_pos h1.symm, h2]
      exact List.mem_cons_self _ _
    · refine List.mem_append.2 (Or.inr ?_)
      rw [if_pos (show ¬l.directed = true ∧ u = l.target from ⟨hd, h2.symm⟩), h1]
      exact List.mem_cons_self _ _
  refine ⟨⟨l.distance, ?_⟩, ?_⟩
  · unfold buildAdjacencyList
    rw [if_pos hu]
    exact List.mem_flatMap.2 ⟨l, hl, hmem⟩
  · rcases hc with ⟨-, h2⟩ | ⟨-, h1, -⟩
    · exact h2 ▸ (wf.2 l hl).2
    · exact h1 ▸ (wf.2 l hl).1

/-- A directionally valid chain starting at a registered city is an
adjacency chain at `reverseTraversal = false`. -/
theorem dirValid_chain_adjHas {cities : List City} {links : List GraphLink}
    (wf : GraphWF cities links) :
    ∀ (p : List City) (s : City), p.head? = some s → s ∈ cities →
      (∀ pr ∈ pathPairs p, isDirValidEdge links pr.1 pr.2 = true) →
      ∀ pr ∈ pathPairs p, adjHas (buildAdjacencyList cities links false) pr.1 pr.2 := by
  intro p
  induction p with
  | nil =>
    intro s hs
    cases hs
  | cons a rest ih =>
    intro s hs hsc hdv
    cases rest with
    | nil =>
      intro pr hpr
      simp [pathPairs] at hpr
    | cons b t =>
      injection hs with hs
      subst hs
      have hab : isDirValidEdge links a b = true :=
        hdv (a, b) (by simp [pathPairs])
      obtain ⟨hadj, hbc⟩ := isDirValidEdge_adjHas wf hab hsc
      intro pr hpr
      have hsplit : pr = (a, b) ∨ pr ∈ pathPairs (b :: t) := by
        simpa [pathPairs] using hpr
      rcases hsplit with h1 | h1
      · rw [h1]
        exact hadj
      · exact ih b rfl hbc
          (fun pr2 hpr2 => hdv pr2 (by simp [pathPairs]; exact Or.inr (by
            simpa [pathPairs] using hpr2))) pr h1

/-- Adjacency entries point at registered cities (well-formed graphs). -/
theorem adj_target_mem_cities {cities : List City} {links : List GraphLink}
    {rev : Bool} {u : City} {p : City × Weight}
    (wf : GraphWF cities links)
    (h : p ∈ buildAdjacencyList cities links rev u) : p.1 ∈ cities := by
  obtain ⟨-, l, hl, hme⟩ := mem_buildAdjacencyList h
  obtain ⟨hc, -⟩ := mem_linkEntries hme
  rcases hc with ⟨-, h2⟩ | ⟨-, h2⟩
  · exact h2 ▸ (wf.2 l hl).2
  · exact h2 ▸ (wf.2 l hl).1

/-- Adjacency entries point at non-empty city ids (well-formed graphs). -/
theorem adj_target_ne_empty {cities : List City} {links : List GraphLink}
    {rev : Bool} {u : City} {p : City × Weight}
    (wf : GraphWF cities links)
    (h : p ∈ buildAdjacencyList cities links rev u) : p.1 ≠ "" := by
  intro he
  exact wf.1 (he ▸ adj_target_mem_cities wf h)

/-- On a fully undirected edge set the adjacency index ignores the
reverse-traversal flag. -/
theorem buildAdjacencyList_undirected {cities : List City} {links : List GraphLink}
    (hund : ∀ l ∈ links, l.directed = false) (rev : Bool) :
    buildAdjacencyList cities links rev = buildAdjacencyList cities links false := by
  funext c
  unfold buildAdjacencyList
  split
  · refine List.flatMap_congr ?_
    intro l hl
    unfold linkEntries
    rcases rev with _ | _
    · rfl
    · simp [hund l hl]
  · rfl

theorem orderNbrs_mem {rev : Bool} {nbrs : List (City × Weight)} {p : City × Weight} :
    p ∈ orderNbrs rev nbrs ↔ p ∈ nbrs := by
  unfold orderNbrs
  split <;> simp

/-! ## Replay-fold lemmas -/

theorem mem_foldl_applyStepVisited {steps : List AnimationStep} {vis : List City}
    {x : City} (h : x ∈ vis) : x ∈ steps.foldl applyStepVisited vis := by
  induction steps generalizing vis with
  | nil => exact h
  | cons s rest ih =>
    refine ih ?_
    unfold applyStepVisited
    split
    · have base : ∀ (wn : List City) (v : List City), x ∈ v → x ∈ wn.foldl pushUniq v := by
        intro wn
        induction wn with
        | nil => intro v hv; exact hv
        | cons a tl ihw => intro v hv; exact ihw _ (sub_pushUniq hv)
      exact base _ _ h
    · exact sub_pushUniq h

theorem mem_foldl_pushUniq {x : City} :
    ∀ (l : List City) (v : List City), x ∈ l ∨ x ∈ v → x ∈ l.foldl pushUniq v := by
  intro l
  induction l with
  | nil =>
    rintro v (h | h)
    · simp at h
    · exact h
  | cons a tl ihw =>
    rintro v (h | h)
    · rcases List.mem_cons.1 h with rfl | h2
      · exact ihw _ (Or.inr self_mem_pushUniq)
      · exact ihw _ (Or.inl h2)
    · exact ihw _ (Or.inr (sub_pushUniq h))

theorem foldVisited_of_node_aux :
    ∀ (steps : List AnimationStep) (vis : List City) (s : AnimationStep),
      s ∈ steps → ¬(s.waveNodes.isSome ∧ s.waveEdges.isSome) →
      s.currentNode ∈ steps.foldl applyStepVisited vis := by
  intro steps
  induction steps with
  | nil =>
    intro vis s hs _
    simp at hs
  | cons t rest ih =>
    intro vis s hs hw
    rw [List.foldl_cons]
    rcases List.mem_cons.1 hs with rfl | hmem
    · apply mem_foldl_applyStepVisited
      unfold applyStepVisited
      rw [if_neg hw]
      exact self_mem_pushUniq
    · exact ih _ s hmem hw

theorem foldVisited_of_node {steps : List AnimationStep} {s : AnimationStep}
    (hs : s ∈ steps) (hw : ¬(s.waveNodes.isSome ∧ s.waveEdges.isSome)) :
    s.currentNode ∈ foldVisited steps :=
  foldVisited_of_node_aux steps [] s hs hw

theorem foldVisited_of_wave_aux {wn : List City} {x : City} :
    ∀ (steps : List AnimationStep) (vis : List City) (s : AnimationStep),
      s ∈ steps → s.waveNodes = some wn → s.waveEdges.isSome → x ∈ wn →
      x ∈ steps.foldl applyStepVisited vis := by
  intro steps
  induction steps with
  | nil =>
    intro vis s hs _ _ _
    simp at hs
  | cons t rest ih =>
    intro vis s hs hwn hwe hx
    rw [List.foldl_cons]
    rcases List.mem_cons.1 hs with rfl | hmem
    · apply mem_foldl_applyStepVisited
      unfold applyStepVisited
      rw [if_pos ⟨by simp [hwn], hwe⟩, hwn]
      simp only [Option.getD_some]
      exact mem_foldl_pushUniq _ _ (Or.inl hx)
    · exact ih _ s hmem hwn hwe hx

theorem foldVisited_of_wave {steps : List AnimationStep} {s : AnimationStep}
    {wn : List City} {x : City}
    (hs : s ∈ steps) (hwn : s.waveNodes = some wn) (hwe : s.waveEdges.isSome)
    (hx : x ∈ wn) : x ∈ foldVisited steps :=
  foldVisited_of_wave_aux steps [] s hs hwn hwe hx

theorem covStep_foldVisited {steps : List AnimationStep} {u : City}
    (h : covStep steps u) : u ∈ foldVisited steps := by
  obtain ⟨s, hs, hc⟩ := h
  rcases hc with ⟨wn, hwn, hwe, hu⟩ | ⟨hnw, hcn⟩
  · exact foldVisited_of_wave hs hwn hwe hu
  · exact hcn ▸ foldVisited_of_node hs hnw

/-! ## Predecessor-walk lemmas -/

theorem pathPairs_concat {l : List City} {a x : City} (h : l.getLast? = some x) :
    pathPairs (l ++ [a]) = pathPairs l ++ [(x, a)] := by
  induction l with
  | nil => simp at h
  | cons b tl ih =>
    cases tl with
    | nil =>
      simp only [List.getLast?_singleton, Option.some.injEq] at h
      subst h
      rfl
    | cons c tl2 =>
      have h2 : (c :: tl2).getLast? = some x := by
        rw [List.getLast?_cons_cons] at h
        exact h
      have := ih h2
      simp only [List.cons_append]
      unfold pathPairs at this ⊢
      simp only [List.cons_append, List.zip_cons_cons, List.tail_cons] at this ⊢
      rw [this]

theorem pathPairs_mem_concat {l : List City} {a x : City} {pr : City × City}
    (h : pr ∈ pathPairs (l ++ [a])) (hl : l.getLast? = some x) :
    pr ∈ pathPairs l ∨ pr = (x, a) := by
  rw [pathPairs_concat hl] at h
  rcases List.mem_append.1 h with h1 | h1
  · exact Or.inl h1
  · simp at h1
    exact Or.inr h1

/-- Walking a well-formed predecessor record from `v` (which is `start` or
has a recorded predecessor) yields a chain from `start` to `v` linked by the
record, strictly increasing in rank. -/
theorem walkPrev_spec {adj : City → List (City × Weight)} {prev : PrevMap}
    {start : City} {rk : City → Nat} (hok : PrevOK adj start rk prev) :
    ∀ (fuel : Nat) (v : City) (acc : List City),
      (v = start ∨ ∃ u, prev v = some (some u)) → v ≠ "" → rk v < fuel →
      ∃ p : List City,
        walkPrev prev fuel v acc = p ++ acc ∧
        p.head? = some start ∧
        p.getLast? = some v ∧
        (∀ pr ∈ pathPairs p, prev pr.2 = some (some pr.1)) ∧
        List.Chain' (fun a b => rk a < rk b) p ∧
        (∀ x ∈ p, x = start ∨ ∃ u, prev x = some (some u)) := by
  intro fuel
  induction fuel with
  | zero =>
    intro v acc _ _ h
    omega
  | succ f ih =>
    intro v acc hv hne hrk
    rw [walkPrev, if_neg hne]
    cases hpv : prev v with
    | none =>
      rcases hv with hst | ⟨u, hu⟩
      · refine ⟨[v], rfl, by simp [hst], rfl, ?_, by simp, ?_⟩
        · intro pr hpr
          simp [pathPairs] at hpr
        · intro x hx
          simp only [List.mem_singleton] at hx
          exact Or.inl (hx.trans hst)
      · rw [hpv] at hu
        cases hu
    | some o =>
      cases o with
      | none =>
        rcases hv with hst | ⟨u, hu⟩
        · refine ⟨[v], rfl, by simp [hst], rfl, ?_, by simp, ?_⟩
          · intro pr hpr
            simp [pathPairs] at hpr
          · intro x hx
            simp only [List.mem_singleton] at hx
            exact Or.inl (hx.trans hst)
        · rw [hpv] at hu
          cases hu
      | some u =>
        obtain ⟨hu_ne, hv_ne, hadj, hu_chain, hlt⟩ := hok.2.2 v u hpv
        dsimp only
        rw [if_neg hu_ne]
        obtain ⟨p', he, hhd, hlast, hpp, hchain, hmem⟩ :=
          ih u (v :: acc) hu_chain hu_ne (by omega)
        have hp'_ne : p' ≠ [] := by
          intro h0
          rw [h0] at hhd
          cases hhd
        refine ⟨p' ++ [v], ?_, ?_, ?_, ?_, ?_, ?_⟩
        · rw [he]
          simp
        · rw [List.head?_append_of_ne_nil _ hp'_ne]
          exact hhd
        · exact List.getLast?_concat _
        · intro pr hpr
          rcases pathPairs_mem_concat hpr hlast with h1 | rfl
          · exact hpp pr h1
          · exact hpv
        · rw [List.chain'_append]
          refine ⟨hchain, List.chain'_singleton _, ?_⟩
          intro a ha b hb
          rw [hlast] at ha
          cases ha
          simp at hb
          subst hb
          exact hlt
        · intro x hx
          rcases List.mem_append.1 hx with h1 | h1
          · exact hmem x h1
          · simp at h1
            subst h1
            exact Or.inr ⟨u, hpv⟩

/-- The chain produced by `walkPrev_spec` has no duplicate nodes. -/
theorem chain'_rk_nodup {rk : City → Nat} {p : List City}
    (h : List.Chain' (fun a b => rk a < rk b) p) : p.Nodup := by
  haveI : IsTrans City (fun a b => rk a < rk b) :=
    ⟨fun a b c h1 h2 => Nat.lt_trans h1 h2⟩
  have hp : List.Pairwise (fun a b => rk a < rk b) p :=
    List.chain'_iff_pairwise.1 h
  exact hp.imp fun hab => by
    intro heq
    subst heq
    omega

/-- Every non-final node of a path is the first component of one of its
consecutive pairs. -/
theorem pathPairs_mem_of_ne_last :
    ∀ {p : List City} {x z : City}, p.getLast? = some z → x ∈ p → x ≠ z →
      ∃ y, (x, y) ∈ pathPairs p := by
  intro p
  induction p with
  | nil =>
    intro x z h
    cases h
  | cons a rest ih =>
    intro x z hlast hx hxz
    cases rest with
    | nil =>
      simp only [List.getLast?_singleton, Option.some.injEq] at hlast
      simp only [List.mem_singleton] at hx
      exact absurd (hx.trans hlast) hxz
    | cons b t =>
      rcases List.mem_cons.1 hx with h1 | h1
      · exact ⟨b, h1 ▸ List.mem_cons_self _ _⟩
      · rw [List.getLast?_cons_cons] at hlast
        obtain ⟨y, hy⟩ := ih hlast h1 hxz
        exact ⟨y, List.mem_cons_of_mem _ hy⟩

/-- A strictly rank-decreasing chain is duplicate-free. -/
theorem chain'_rk_nodup_desc {rk : City → Nat} {p : List City}
    (h : List.Chain' (fun a b => rk b < rk a) p) : p.Nodup := by
  haveI : IsTrans City (fun a b => rk b < rk a) :=
    ⟨fun a b c h1 h2 => Nat.lt_trans h2 h1⟩
  have hp : List.Pairwise (fun a b => rk b < rk a) p :=
    List.chain'_iff_pairwise.1 h
  exact hp.imp fun hab => by
    intro heq
    subst heq
    omega

/-- In a strictly rank-decreasing chain every element ranks at most the
head. -/
theorem chain'_desc_head_max {rk : City → Nat} {p : List City}
    (h : List.Chain' (fun a b => rk b < rk a) p) :
    ∀ hd ∈ p.head?, ∀ x ∈ p, rk x ≤ rk hd := by
  haveI : IsTrans City (fun a b => rk b < rk a) :=
    ⟨fun a b c h1 h2 => Nat.lt_trans h2 h1⟩
  intro hd hhd x hx
  cases p with
  | nil => cases hhd
  | cons a t =>
    have hhd2 : a = hd := by simpa using hhd
    subst hhd2
    have hp := List.chain'_iff_pairwise.1 h
    rcases List.mem_cons.1 hx with h1 | h1
    · exact h1 ▸ Nat.le_refl _
    · exact Nat.le_of_lt (List.rel_of_pairwise_cons hp h1)

/-- Splitting the consecutive pairs of an append at the junction. -/
theorem pathPairs_append {l2 : List City} {b : City} (hb : l2.head? = some b) :
    ∀ {l1 : List City} {a : City}, l1.getLast? = some a →
      pathPairs (l1 ++ l2) = pathPairs l1 ++ (a, b) :: pathPairs l2 := by
  intro l1
  induction l1 with
  | nil =>
    intro a h
    cases h
  | cons x t ih =>
    intro a hlast
    cases t with
    | nil =>
      simp only [List.getLast?_singleton, Option.some.injEq] at hlast
      subst hlast
      cases l2 with
      | nil => cases hb
      | cons y t2 =>
        injection hb with hb
        subst hb
        rfl
    | cons y t3 =>
      rw [List.getLast?_cons_cons] at hlast
      have hstep := ih hlast
      show pathPairs (x :: ((y :: t3) ++ l2)) = _
      have h1 : pathPairs (x :: ((y :: t3) ++ l2)) =
          (x, y) :: pathPairs ((y :: t3) ++ l2) := rfl
      rw [h1, hstep]
      rfl

/-- The live-edge check ignores the endpoint order. -/
theorem isLiveEdge_symm {links : List GraphLink} {u v : City}
    (h : isLiveEdge links u v = true) : isLiveEdge links v u = true := by
  unfold isLiveEdge at h ⊢
  rw [List.any_eq_true] at h ⊢
  obtain ⟨l, hl, hc⟩ := h
  rw [decide_eq_true_eq] at hc
  refine ⟨l, hl, ?_⟩
  rw [decide_eq_true_eq]
  rcases hc with h1 | h1
  · exact Or.inr h1
  · exact Or.inl h1

/-- The meeting dequeue of the bidirectional wave: members come from the
queue, and a reported meeting node is a queue member of the other side's
visited set. -/
theorem takeWaveMeet_spec (otherVisited : List City) :
    ∀ q : List City,
      (∀ c ∈ (takeWaveMeet otherVisited q).1, c ∈ q) ∧
      (∀ c ∈ (takeWaveMeet otherVisited q).2.1, c ∈ q) ∧
      (∀ m, (takeWaveMeet otherVisited q).2.2 = some m →
        m ∈ q ∧ m ∈ otherVisited) := by
  intro q
  induction q with
  | nil =>
    refine ⟨?_, ?_, ?_⟩
    · intro c hc
      simp [takeWaveMeet] at hc
    · intro c hc
      simp [takeWaveMeet] at hc
    · intro m hm
      simp [takeWaveMeet] at hm
  | cons a rest ih =>
    rw [takeWaveMeet]
    by_cases ha : a ∈ otherVisited
    · rw [if_pos ha]
      refine ⟨?_, ?_, ?_⟩
      · intro c hc
        simp only [List.mem_singleton] at hc
        exact hc ▸ List.mem_cons_self _ _
      · intro c hc
        exact List.mem_cons_of_mem _ hc
      · intro m hm
        injection hm with hm
        subst hm
        exact ⟨List.mem_cons_self _ _, ha⟩
    · rw [if_neg ha]
      obtain ⟨i1, i2, i3⟩ := ih
      dsimp only
      refine ⟨?_, ?_, ?_⟩
      · intro c hc
        rcases List.mem_cons.1 hc with h1 | h1
        · exact h1 ▸ List.mem_cons_self _ _
        · exact List.mem_cons_of_mem _ (i1 c h1)
      · intro c hc
        exact List.mem_cons_of_mem _ (i2 c hc)
      · intro m hm
        obtain ⟨hq, ho⟩ := i3 m hm
        exact ⟨List.mem_cons_of_mem _ hq, ho⟩

/-- Every non-initial node of a path is the second component of one of its
consecutive pairs. -/
theorem pathPairs_mem_of_ne_head :
    ∀ {p : List City} {x hd : City}, p.head? = some hd → x ∈ p → x ≠ hd →
      ∃ y, (y, x) ∈ pathPairs p := by
  intro p
  induction p with
  | nil =>
    intro x hd h
    cases h
  | cons a rest ih =>
    intro x hd hhd hx hxh
    injection hhd with hhd
    subst hhd
    rcases List.mem_cons.1 hx with h1 | h1
    · exact absurd h1 hxh
    · cases rest with
      | nil => cases h1
      | cons b t =>
        by_cases hxb : x = b
        · exact ⟨a, hxb ▸ List.mem_cons_self _ _⟩
        · obtain ⟨y, hy⟩ := ih rfl h1 hxb
          exact ⟨y, List.mem_cons_of_mem _ hy⟩

/-- The chain produced by `walkPrev_spec` is an adjacency chain. -/
theorem prevChain_adj {adj : City → List (City × Weight)} {prev : PrevMap}
    {start : City} {rk : City → Nat} (hok : PrevOK adj start rk prev)
    {p : List City} (hpp : ∀ pr ∈ pathPairs p, prev pr.2 = some (some pr.1)) :
    ∀ pr ∈ pathPairs p, adjHas adj pr.1 pr.2 :=
  fun pr h => (hok.2.2 pr.2 pr.1 (hpp pr h)).2.2.1

/-- A prev-linked chain starting at a node of known distance accumulates
edge weights exactly (used to tie reported distances to real walks). -/
theorem prevChain_weight {adj : City → List (City × Weight)} {prev : PrevMap}
    {start : City} {d : DistMap} (hd : DistOK adj start prev d) :
    ∀ (p : List City) (a : City) (qa : Weight),
      p.head? = some a →
      (∀ pr ∈ pathPairs p, prev pr.2 = some (some pr.1)) →
      dval (d a) = some qa →
      ∃ q, AdjWalk adj p q ∧
        ∀ z, p.getLast? = some z → dval (d z) = some (qa + q) := by
  intro p
  induction p with
  | nil =>
    intro a qa h
    cases h
  | cons x tl ih =>
    intro a qa hhd hpp hqa
    simp only [List.head?_cons, Option.some.injEq] at hhd
    subst hhd
    cases tl with
    | nil =>
      refine ⟨0, AdjWalk.single x, ?_⟩
      intro z hz
      simp only [List.getLast?_singleton, Option.some.injEq] at hz
      subst hz
      rw [hqa]
      norm_num
    | cons y tl2 =>
      have hxy : prev y = some (some x) := by
        refine hpp (x, y) ?_
        unfold pathPairs
        simp
      obtain ⟨w, hw_mem, hw_d⟩ := hd.2 y x hxy
      have hdy : dval (d y) = some (qa + w) := by
        rw [hw_d, hqa]
        rfl
      obtain ⟨q, hwalk, hlast⟩ := ih y (qa + w) rfl
        (fun pr hpr => hpp pr (by
          unfold pathPairs at hpr ⊢
          simp only [List.zip_cons_cons, List.tail_cons] at hpr ⊢
          exact List.mem_cons_of_mem _ hpr)) hdy
      refine ⟨w + q, AdjWalk.cons hw_mem hwalk, ?_⟩
      intro z hz
      have : (y :: tl2).getLast? = some z := by
        rw [List.getLast?_cons_cons] at hz
        exact hz
      rw [hlast z this]
      ring_nf

/-- Walking a well-formed predecessor record forward (the backward half of
Bidirectional Wave) yields a chain from `v` to `start` linked by the record,
strictly decreasing in rank. -/
theorem walkFwd_spec {adj : City → List (City × Weight)} {prev : PrevMap}
    {start : City} {rk : City → Nat} (hok : PrevOK adj start rk prev) :
    ∀ (fuel : Nat) (v : City),
      (v = start ∨ ∃ u, prev v = some (some u)) → v ≠ "" → rk v < fuel →
      (walkFwd prev fuel v).head? = some v ∧
      (walkFwd prev fuel v).getLast? = some start ∧
      (∀ pr ∈ pathPairs (walkFwd prev fuel v), prev pr.1 = some (some pr.2)) ∧
      List.Chain' (fun a b => rk b < rk a) (walkFwd prev fuel v) ∧
      (∀ x ∈ walkFwd prev fuel v, x = start ∨ ∃ u, prev x = some (some u)) := by
  intro fuel
  induction fuel with
  | zero =>
    intro v _ _ h
    omega
  | succ f ih =>
    intro v hv hne hrk
    rw [walkFwd, if_neg hne]
    cases hpv : prev v with
    | none =>
      rcases hv with hst | ⟨u, hu⟩
      · refine ⟨rfl, by simp [hst], ?_, by simp, ?_⟩
        · intro pr hpr
          simp [pathPairs] at hpr
        · intro x hx
          simp only [List.mem_singleton] at hx
          exact Or.inl (hx.trans hst)
      · rw [hpv] at hu
        cases hu
    | some o =>
      cases o with
      | none =>
        rcases hv with hst | ⟨u, hu⟩
        · refine ⟨rfl, by simp [hst], ?_, by simp, ?_⟩
          · intro pr hpr
            simp [pathPairs] at hpr
          · intro x hx
            simp only [List.mem_singleton] at hx
            exact Or.inl (hx.trans hst)
        · rw [hpv] at hu
          cases hu
      | some u =>
        obtain ⟨hu_ne, hv_ne, hadj, hu_chain, hlt⟩ := hok.2.2 v u hpv
        obtain ⟨hhd, hlast, hpp, hchain, hmem⟩ := ih u hu_chain hu_ne (by omega)
        have hne_nil : walkFwd prev f u ≠ [] := by
          intro h0
          rw [h0] at hhd
          cases hhd
        dsimp only
        refine ⟨rfl, ?_, ?_, ?_, ?_⟩
        · cases hw : walkFwd prev f u with
          | nil => exact absurd hw hne_nil
          | cons b rest =>
            rw [List.getLast?_cons_cons]
            rw [hw] at hlast
            exact hlast
        · intro pr hpr
          unfold pathPairs at hpr
          cases hw : walkFwd prev f u with
          | nil => exact absurd hw hne_nil
          | cons b rest =>
            rw [hw] at hpr
            simp only [List.zip_cons_cons, List.tail_cons] at hpr
            rcases List.mem_cons.1 hpr with rfl | h2
            · have : b = u := by
                rw [hw] at hhd
                have h3 : u = b := by simpa using hhd.symm
                exact h3.symm
              subst this
              exact hpv
            · refine hpp pr ?_
              unfold pathPairs
              rw [hw]
              simp only [List.zip_cons_cons, List.tail_cons]
              exact h2
        · refine List.chain'_cons'.2 ⟨?_, hchain⟩
          intro b hb
          rw [hhd] at hb
          have hb2 : b = u := by
            have h3 : u = b := by simpa using hb
            exact h3.symm
          subst hb2
          exact hlt
        · intro x hx
          rcases List.mem_cons.1 hx with rfl | h1
          · exact Or.inr ⟨u, hpv⟩
          · exact hmem x h1

/-! ## Walk-extension lemma -/

theorem AdjWalk_concat {adj : City → List (City × Weight)} {p : List City}
    {d : Weight} (h : AdjWalk adj p d) :
    ∀ {u v : City} {w : Weight}, p.getLast? = some u → (v, w) ∈ adj u →
      AdjWalk adj (p ++ [v]) (d + w) := by
  induction h with
  | single x =>
    intro u v w hlast hmem
    simp only [List.getLast?_singleton, Option.some.injEq] at hlast
    subst hlast
    have h2 := AdjWalk.cons hmem (AdjWalk.single v)
    rw [zero_add]
    simpa using h2
  | cons hmem0 htail ih =>
    intro u v w hlast hmem
    rename_i x y w0 rest d0
    have hlast2 : (y :: rest).getLast? = some u := by
      rw [List.getLast?_cons_cons] at hlast
      exact hlast
    have h2 := AdjWalk.cons hmem0 (ih hlast2 hmem)
    rw [add_assoc]
    exact h2

/-! ## BFS expansion -/

theorem bfsExpandGo_spec (node : City) (cp : List City) (dist : Weight)
    (nbrs : List (City × Weight)) :
    ∀ acc : BfsFold,
      (∀ e ∈ acc.newEntries, e ∈ (bfsExpandGo node cp dist nbrs acc).newEntries) ∧
      (∀ x ∈ acc.visited, x ∈ (bfsExpandGo node cp dist nbrs acc).visited) ∧
      (∀ s ∈ acc.steps, s ∈ (bfsExpandGo node cp dist nbrs acc).steps) ∧
      (∀ e ∈ (bfsExpandGo node cp dist nbrs acc).newEntries,
        e ∈ acc.newEntries ∨
          (e.path = cp ∧ (∃ w, (e.node, w) ∈ nbrs ∧ e.distance = dist + w) ∧
            e.node ∉ acc.visited ∧
            e.node ∈ (bfsExpandGo node cp dist nbrs acc).visited ∧
            ∃ s ∈ (bfsExpandGo node cp dist nbrs acc).steps,
              s.waveNodes = none ∧ s.currentNode = e.node)) ∧
      (∀ x ∈ (bfsExpandGo node cp dist nbrs acc).visited,
        x ∈ acc.visited ∨
          ∃ e ∈ (bfsExpandGo node cp dist nbrs acc).newEntries, e.node = x) := by
  induction nbrs with
  | nil =>
    intro acc
    exact ⟨fun e he => he, fun x h => h, fun s h => h,
      fun e he => Or.inl he, fun x h => Or.inl h⟩
  | cons nbr rest ih =>
    intro acc
    rw [bfsExpandGo]
    by_cases hn : nbr.1 ∈ acc.visited
    · rw [if_pos hn]
      obtain ⟨i0, i1, i2, i3, i4⟩ := ih acc
      refine ⟨i0, i1, i2, ?_, i4⟩
      intro e he
      rcases i3 e he with h1 | ⟨hp, ⟨w, hw, hd⟩, hnv, hv, hst⟩
      · exact Or.inl h1
      · exact Or.inr ⟨hp, ⟨w, List.mem_cons_of_mem _ hw, hd⟩, hnv, hv, hst⟩
    · rw [if_neg hn]
      obtain ⟨i0, i1, i2, i3, i4⟩ := ih
        { visited := pushUniq acc.visited nbr.1
          steps := acc.steps ++
            [{ currentNode := node, visitedEdge := some (node, nbr.1),
               currentPath := cp, isBacktrack := false },
             { currentNode := nbr.1, visitedEdge := none,
               currentPath := cp, isBacktrack := false }]
          newEntries := acc.newEntries ++
            [{ node := nbr.1, path := cp, distance := dist + nbr.2 }] }
      refine ⟨?_, ?_, ?_, ?_, ?_⟩
      · intro e he
        exact i0 e (List.mem_append_left _ he)
      · intro x hx
        exact i1 x (sub_pushUniq hx)
      · intro s hs
        exact i2 s (List.mem_append_left _ hs)
      · intro e he
        rcases i3 e he with h1 | ⟨hp, ⟨w, hw, hd⟩, hnv, hv, hst⟩
        · rcases List.mem_append.1 h1 with h2 | h2
          · exact Or.inl h2
          · have he2 : e = { node := nbr.1, path := cp, distance := dist + nbr.2 } := by
              simpa using h2
            subst he2
            refine Or.inr ⟨rfl, ⟨nbr.2, List.mem_cons_self _ _, rfl⟩, hn, ?_, ?_⟩
            · exact i1 nbr.1 self_mem_pushUniq
            · refine ⟨{ currentNode := nbr.1, visitedEdge := none, currentPath := cp, isBacktrack := false }, ?_, rfl, rfl⟩
              exact i2 _ (List.mem_append_right _ (by simp))
        · refine Or.inr ⟨hp, ⟨w, List.mem_cons_of_mem _ hw, hd⟩, ?_, hv, hst⟩
          intro hmem
          exact hnv (sub_pushUniq hmem)
      · intro x hx
        rcases i4 x hx with h1 | h1
        · rcases mem_pushUniq.1 h1 with h2 | h2
          · exact Or.inl h2
          · subst h2
            exact Or.inr ⟨{ node := nbr.1, path := cp, distance := dist + nbr.2 },
              i0 _ (List.mem_append_right _ (by simp)), rfl⟩
        · exact Or.inr h1

theorem bfsExpandGo_extra (node : City) (cp : List City) (dist : Weight)
    (nbrs : List (City × Weight)) :
    ∀ acc : BfsFold,
      (∀ p ∈ nbrs, p.1 ∈ (bfsExpandGo node cp dist nbrs acc).visited) ∧
      ((acc.newEntries.map BfsEntry.node).Nodup →
        (∀ e ∈ acc.newEntries, e.node ∈ acc.visited) →
        ((bfsExpandGo node cp dist nbrs acc).newEntries.map BfsEntry.node).Nodup ∧
          ∀ e ∈ (bfsExpandGo node cp dist nbrs acc).newEntries,
            e.node ∈ (bfsExpandGo node cp dist nbrs acc).visited) ∧
      (acc.visited.Nodup → (bfsExpandGo node cp dist nbrs acc).visited.Nodup) ∧
      ((bfsExpandGo node cp dist nbrs acc).visited.length + acc.newEntries.length =
        acc.visited.length + (bfsExpandGo node cp dist nbrs acc).newEntries.length) := by
  induction nbrs with
  | nil =>
    intro acc
    exact ⟨fun p hp => absurd hp (List.not_mem_nil p), fun h1 h2 => ⟨h1, h2⟩,
      fun h => h, rfl⟩
  | cons nbr rest ih =>
    intro acc
    rw [bfsExpandGo]
    by_cases hn : nbr.1 ∈ acc.visited
    · rw [if_pos hn]
      obtain ⟨k1, k2, k3, k4⟩ := ih acc
      obtain ⟨j0, j1, j2, j3, j4⟩ := bfsExpandGo_spec node cp dist rest acc
      refine ⟨?_, k2, k3, k4⟩
      intro p hp
      rcases List.mem_cons.1 hp with rfl | h2
      · exact j1 _ hn
      · exact k1 p h2
    · rw [if_neg hn]
      obtain ⟨k1, k2, k3, k4⟩ := ih
        { visited := pushUniq acc.visited nbr.1
          steps := acc.steps ++
            [{ currentNode := node, visitedEdge := some (node, nbr.1),
               currentPath := cp, isBacktrack := false },
             { currentNode := nbr.1, visitedEdge := none,
               currentPath := cp, isBacktrack := false }]
          newEntries := acc.newEntries ++
            [{ node := nbr.1, path := cp, distance := dist + nbr.2 }] }
      obtain ⟨j0, j1, j2, j3, j4⟩ := bfsExpandGo_spec node cp dist rest
        { visited := pushUniq acc.visited nbr.1
          steps := acc.steps ++
            [{ currentNode := node, visitedEdge := some (node, nbr.1),
               currentPath := cp, isBacktrack := false },
             { currentNode := nbr.1, visitedEdge := none,
               currentPath := cp, isBacktrack := false }]
          newEntries := acc.newEntries ++
            [{ node := nbr.1, path := cp, distance := dist + nbr.2 }] }
      refine ⟨?_, ?_, ?_, ?_⟩
      · intro p hp
        rcases List.mem_cons.1 hp with rfl | h2
        · exact j1 _ self_mem_pushUniq
        · exact k1 p h2
      · intro h1 h2
        refine k2 ?_ ?_
        · rw [List.map_append]
          rw [List.nodup_append]
          refine ⟨h1, by simp, ?_⟩
          intro x hx hx2
          have hx3 : x = nbr.1 := by simpa using hx2
          subst hx3
          obtain ⟨e, he, hen⟩ := List.mem_map.1 hx
          exact hn (hen ▸ h2 e he)
        · intro e he
          rcases List.mem_append.1 he with h3 | h3
          · exact sub_pushUniq (h2 e h3)
          · have he2 : e = { node := nbr.1, path := cp, distance := dist + nbr.2 } := by
              simpa using h3
            subst he2
            exact self_mem_pushUniq
      · intro h
        exact k3 (nodup_pushUniq h)
      · have hlen : (pushUniq acc.visited nbr.1).length = acc.visited.length + 1 :=
          pushUniq_length_of_not_mem hn
        simp only [List.length_append, List.length_cons, List.length_nil] at k4 ⊢
        omega

theorem chain'_le_head {α : Type} {f : α → Nat} {l : List α}
    (h : List.Chain' (fun a b => f a ≤ f b) l) :
    ∀ hd ∈ l.head?, ∀ x ∈ l, f hd ≤ f x := by
  haveI : IsTrans α (fun a b => f a ≤ f b) := ⟨fun a b c h1 h2 => Nat.le_trans h1 h2⟩
  intro hd hhd x hx
  cases l with
  | nil => cases hhd
  | cons a t =>
    have hhd2 : a = hd := by simpa using hhd
    have hp : List.Pairwise (fun a b => f a ≤ f b) (a :: t) :=
      List.chain'_iff_pairwise.1 h
    rw [← hhd2]
    rcases List.mem_cons.1 hx with rfl | h2
    · exact Nat.le_refl _
    · exact (List.pairwise_cons.1 hp).1 x h2

theorem chain'_of_const {α : Type} {f : α → Nat} {c : Nat} :
    ∀ {l : List α}, (∀ x ∈ l, f x = c) → List.Chain' (fun a b => f a ≤ f b) l := by
  intro l
  induction l with
  | nil => intro _; simp
  | cons a t ih =>
    intro h
    cases t with
    | nil => simp
    | cons b t2 =>
      refine List.Chain'.cons ?_ (ih ?_)
      · rw [h a (by simp), h b (by simp)]
      · intro x hx
        exact h x (List.mem_cons_of_mem _ hx)

theorem reachIn_zero {adj : City → List (City × Weight)} {s z : City}
    (h : ReachIn adj s z 0) : z = s := by
  cases h
  rfl

theorem reachIn_succ {adj : City → List (City × Weight)} {s z : City} {k : Nat}
    (h : ReachIn adj s z (k + 1)) :
    ∃ y, ReachIn adj s y k ∧ adjHas adj y z := by
  cases h with
  | step hy hadj => exact ⟨_, hy, hadj⟩

/-- Any adjacency chain witnesses hop-count reachability. -/
theorem reachIn_of_chain {adj : City → List (City × Weight)} :
    ∀ {p : List City} {a z : City},
      p.head? = some a → (∀ pr ∈ pathPairs p, adjHas adj pr.1 pr.2) →
      p.getLast? = some z → ReachIn adj a z (p.length - 1) := by
  intro p
  induction p using List.reverseRecOn with
  | nil =>
    intro a z h
    cases h
  | append_singleton l x ih =>
    intro a z hhd hpp hlast
    rw [List.getLast?_concat] at hlast
    injection hlast with hlast
    subst hlast
    by_cases hl : l = []
    · subst hl
      simp only [List.nil_append, List.head?_cons, Option.some.injEq] at hhd
      subst hhd
      exact ReachIn.refl
    · have hhd2 : l.head? = some a := by
        rw [List.head?_append_of_ne_nil _ hl] at hhd
        exact hhd
      have hy := List.getLast?_eq_getLast_of_ne_nil hl
      have hppl : ∀ pr ∈ pathPairs l, adjHas adj pr.1 pr.2 := by
        intro pr hpr
        refine hpp pr ?_
        rw [pathPairs_concat hy]
        exact List.mem_append_left _ hpr
      have hadjx : adjHas adj (l.getLast hl) x := by
        refine hpp (l.getLast hl, x) ?_
        rw [pathPairs_concat hy]
        exact List.mem_append_right _ (by simp)
      have hre := ih hhd2 hppl hy
      have hstep := ReachIn.step hre hadjx
      have hlpos : 1 ≤ l.length := List.length_pos.2 hl
      have hlen : l.length - 1 + 1 = (l ++ [x]).length - 1 := by
        simp only [List.length_append, List.length_cons, List.length_nil]
        omega
      rw [← hlen]
      exact hstep

/-- One dequeue-and-expand step of the BFS loop preserves the level
invariant (the dequeued node is not the target). -/
theorem BfsInvM_step {adj : City → List (City × Weight)} {cities : List City}
    {start endC : City}
    (hadj : ∀ u (p : City × Weight), p ∈ adj u → p.1 ∈ cities) {rev : Bool}
    {e : BfsEntry} {rest : List BfsEntry} {visited : List City}
    {steps : List AnimationStep}
    (hinv : BfsInvM adj cities start endC (e :: rest) visited)
    (hend : e.node ≠ endC) :
    BfsInvM adj cities start endC
      (rest ++ (bfsExpandGo e.node (e.path ++ [e.node]) e.distance
        (orderNbrs rev (adj e.node))
        { visited := visited, steps := steps, newEntries := [] }).newEntries)
      (bfsExpandGo e.node (e.path ++ [e.node]) e.distance
        (orderNbrs rev (adj e.node))
        { visited := visited, steps := steps, newEntries := [] }).visited ∧
    (bfsExpandGo e.node (e.path ++ [e.node]) e.distance
        (orderNbrs rev (adj e.node))
        { visited := visited, steps := steps, newEntries := [] }).visited.length =
      visited.length +
        (bfsExpandGo e.node (e.path ++ [e.node]) e.distance
          (orderNbrs rev (adj e.node))
          { visited := visited, steps := steps, newEntries := [] }).newEntries.length := by
  obtain ⟨j0, j1, j2, j3, j4⟩ := bfsExpandGo_spec e.node (e.path ++ [e.node])
    e.distance (orderNbrs rev (adj e.node))
    { visited := visited, steps := steps, newEntries := [] }
  obtain ⟨k1, k2, k3, k4⟩ := bfsExpandGo_extra e.node (e.path ++ [e.node])
    e.distance (orderNbrs rev (adj e.node))
    { visited := visited, steps := steps, newEntries := [] }
  set F := bfsExpandGo e.node (e.path ++ [e.node]) e.distance
    (orderNbrs rev (adj e.node))
    { visited := visited, steps := steps, newEntries := [] } with hF
  obtain ⟨k2a, k2b⟩ := k2 (by simp) (by simp)
  have hfresh : ∀ e2 ∈ F.newEntries, e2.path = e.path ++ [e.node] ∧
      (∃ w, (e2.node, w) ∈ adj e.node) ∧ e2.node ∉ visited ∧ e2.node ∈ F.visited := by
    intro e2 he2
    rcases j3 e2 he2 with h1 | ⟨hp, ⟨w, hw, _⟩, hnv, hv, _⟩
    · cases h1
    · exact ⟨hp, ⟨w, orderNbrs_mem.1 hw⟩, hnv, hv⟩
  have hdepth : ∀ e2 ∈ F.newEntries, e2.path.length = e.path.length + 1 := by
    intro e2 he2
    rw [(hfresh e2 he2).1]
    simp
  have hub : ∀ x ∈ e :: rest, x.path.length ≤ e.path.length + 1 := by
    intro x hx
    exact hinv.band x hx e rfl
  have hlb : ∀ x ∈ e :: rest, e.path.length ≤ x.path.length :=
    fun x hx => chain'_le_head hinv.sorted e rfl x hx
  have hubq : ∀ x ∈ rest ++ F.newEntries, x.path.length ≤ e.path.length + 1 := by
    intro x hx
    rcases List.mem_append.1 hx with h1 | h1
    · exact hub x (List.mem_cons_of_mem _ h1)
    · rw [hdepth x h1]
  have hlbq : ∀ x ∈ rest ++ F.newEntries, e.path.length ≤ x.path.length := by
    intro x hx
    rcases List.mem_append.1 hx with h1 | h1
    · exact hlb x (List.mem_cons_of_mem _ h1)
    · rw [hdepth x h1]
      omega
  have hsorted' : List.Chain' (fun e1 e2 => e1.path.length ≤ e2.path.length)
      (rest ++ F.newEntries) := by
    rw [List.chain'_append]
    refine ⟨hinv.sorted.tail, chain'_of_const (c := e.path.length + 1) hdepth, ?_⟩
    intro x hx y hy
    have hxm : x ∈ rest := List.mem_of_mem_getLast? hx
    have hym : y ∈ F.newEntries := List.mem_of_mem_head? hy
    rw [hdepth y hym]
    exact hub x (List.mem_cons_of_mem _ hxm)
  have hclosede : ∀ p ∈ adj e.node, p.1 ∈ F.visited := by
    intro p hp
    exact k1 p (orderNbrs_mem.2 hp)
  have hclosed' : ∀ z ∈ F.visited, (∀ e2 ∈ rest ++ F.newEntries, e2.node ≠ z) →
      ∀ p ∈ adj z, p.1 ∈ F.visited := by
    intro z hz hno p hp
    rcases j4 z hz with h1 | ⟨e2, he2, he2n⟩
    · by_cases hze : z = e.node
      · subst hze
        exact hclosede p hp
      · by_cases hzr : ∀ e2 ∈ e :: rest, e2.node ≠ z
        · exact j1 _ (hinv.closed z h1 hzr p hp)
        · push_neg at hzr
          obtain ⟨e2, he2, he2n⟩ := hzr
          rcases List.mem_cons.1 he2 with rfl | h2
          · exact absurd he2n.symm hze
          · exact absurd he2n (hno e2 (List.mem_append_left _ h2))
    · exact absurd he2n (hno e2 (List.mem_append_right _ he2))
  refine ⟨⟨hsorted', ?_, ?_, ?_, ?_, ?_, ?_, hclosed', ?_, ?_, ?_, ?_⟩, by
    have h4 := k4
    simpa using h4⟩
  · intro e2 he2 h hh
    have h1 := hubq e2 he2
    have h2 := hlbq h (List.mem_of_mem_head? hh)
    omega
  · exact j1 _ hinv.start_mem
  · intro x hx
    rcases j4 x hx with h1 | ⟨e2, he2, he2n⟩
    · exact hinv.vsub x h1
    · obtain ⟨-, ⟨w, hw⟩, -, -⟩ := hfresh e2 he2
      exact Or.inr (he2n ▸ hadj e.node (e2.node, w) hw)
  · exact k3 hinv.vnodup
  · intro e2 he2
    rcases List.mem_append.1 he2 with h1 | h1
    · exact j1 _ (hinv.qnodes_sub e2 (List.mem_cons_of_mem _ h1))
    · exact k2b e2 h1
  · rw [List.map_append, List.nodup_append]
    refine ⟨(List.nodup_cons.1 (by simpa using hinv.qnodes_nodup)).2, k2a, ?_⟩
    intro x hx hx2
    obtain ⟨e2, he2, he2n⟩ := List.mem_map.1 hx
    obtain ⟨e3, he3, he3n⟩ := List.mem_map.1 hx2
    have hxv : x ∈ visited :=
      he2n ▸ hinv.qnodes_sub e2 (List.mem_cons_of_mem _ he2)
    exact (hfresh e3 he3).2.2.1 (he3n ▸ hxv)
  · intro z k hreach hcond
    by_cases hq : rest ++ F.newEntries = []
    · have hclosedAll : ∀ z2 k2, ReachIn adj start z2 k2 → z2 ∈ F.visited := by
        intro z2 k2 h
        induction h with
        | refl => exact j1 _ hinv.start_mem
        | step hy hadj2 ihr =>
          obtain ⟨w, hw⟩ := hadj2
          exact hclosed' _ ihr (by rw [hq]; intro e2 he2; cases he2) (_, w) hw
      refine ⟨hclosedAll z k hreach, ?_⟩
      rw [hq]
      intro e2 he2
      cases he2
    · obtain ⟨h0, hh0⟩ : ∃ h0, (rest ++ F.newEntries).head? = some h0 := by
        cases hqq : rest ++ F.newEntries with
        | nil => exact absurd hqq hq
        | cons a t => exact ⟨a, rfl⟩
      have hkh := hcond h0 hh0
      have hh0m : h0 ∈ rest ++ F.newEntries := List.mem_of_mem_head? hh0
      have hkd : k ≤ e.path.length := by
        have h1 := hubq h0 hh0m
        omega
      have hzv : z ∈ visited := hinv.m3 z k hreach (by
        intro h hh
        have he3 : e = h := by simpa using hh
        subst he3
        exact hkd)
      refine ⟨j1 _ hzv, ?_⟩
      intro e2 he2 he2n
      rcases List.mem_append.1 he2 with h1 | h1
      · have hd2 : e2.path.length ≤ max k e.path.length :=
          hinv.m6 e2 (List.mem_cons_of_mem _ h1) e rfl k (he2n ▸ hreach)
        have hge : h0.path.length ≤ e2.path.length :=
          chain'_le_head hsorted' h0 hh0 e2 (List.mem_append_left _ h1)
        have hklt : k < e.path.length := by
          have hmax : max k e.path.length ≤ e.path.length := by omega
          omega
        have h5 := (hinv.m2 z k hreach (by
          intro h hh
          have he3 : e = h := by simpa using hh
          subst he3
          exact hklt)).2 e2 (List.mem_cons_of_mem _ h1)
        exact h5 he2n
      · exact (hfresh e2 h1).2.2.1 (he2n ▸ hzv)
  · intro z k hreach hcond
    by_cases hq : rest ++ F.newEntries = []
    · have hclosedAll : ∀ z2 k2, ReachIn adj start z2 k2 → z2 ∈ F.visited := by
        intro z2 k2 h
        induction h with
        | refl => exact j1 _ hinv.start_mem
        | step hy hadj2 ihr =>
          obtain ⟨w, hw⟩ := hadj2
          exact hclosed' _ ihr (by rw [hq]; intro e2 he2; cases he2) (_, w) hw
      exact hclosedAll z k hreach
    · obtain ⟨h0, hh0⟩ : ∃ h0, (rest ++ F.newEntries).head? = some h0 := by
        cases hqq : rest ++ F.newEntries with
        | nil => exact absurd hqq hq
        | cons a t => exact ⟨a, rfl⟩
      have hkh := hcond h0 hh0
      have hh0m : h0 ∈ rest ++ F.newEntries := List.mem_of_mem_head? hh0
      by_cases hkd2 : k ≤ e.path.length
      · exact j1 _ (hinv.m3 z k hreach (by
          intro h hh
          have he3 : e = h := by simpa using hh
          subst he3
          exact hkd2))
      · have hkub : k ≤ e.path.length + 1 := by
          have h1 := hubq h0 hh0m
          omega
        have hkeq : k = e.path.length + 1 := by omega
        subst hkeq
        obtain ⟨y, hy, hyz⟩ := reachIn_succ hreach
        have hyv : y ∈ visited := hinv.m3 y _ hy (by
          intro h hh
          have he3 : e = h := by simpa using hh
          subst he3
          exact Nat.le_refl _)
        by_cases hyq : ∀ e2 ∈ e :: rest, e2.node ≠ y
        · obtain ⟨w, hw⟩ := hyz
          exact j1 _ (hinv.closed y hyv hyq (_, w) hw)
        · push_neg at hyq
          obtain ⟨e2, he2, he2n⟩ := hyq
          rcases List.mem_cons.1 he2 with rfl | h2
          · obtain ⟨w, hw⟩ := hyz
            rw [← he2n] at hw
            exact hclosede (z, w) hw
          · have hd2 : e2.path.length ≤ max (e.path.length) (e.path.length) :=
              hinv.m6 e2 (List.mem_cons_of_mem _ h2) e rfl _ (he2n ▸ hy)
            have hge : h0.path.length ≤ e2.path.length :=
              chain'_le_head hsorted' h0 hh0 e2 (List.mem_append_left _ h2)
            omega
  · intro e2 he2 h hh k hreach
    have hdh : e.path.length ≤ h.path.length := hlbq h (List.mem_of_mem_head? hh)
    rcases List.mem_append.1 he2 with h1 | h1
    · have h2 := hinv.m6 e2 (List.mem_cons_of_mem _ h1) e rfl k hreach
      have h3 : max k e.path.length ≤ max k h.path.length := by
        omega
      omega
    · rw [hdepth e2 h1]
      by_cases hk : k ≤ e.path.length
      · have h2 := hinv.m3 e2.node k hreach (by
          intro h3 hh3
          have he3 : e = h3 := by simpa using hh3
          subst he3
          exact hk)
        exact absurd h2 (hfresh e2 h1).2.2.1
      · have h2 : e.path.length + 1 ≤ k := by omega
        have h4 : k ≤ max k h.path.length := Nat.le_max_left _ _
        omega
  · intro hv
    rcases j4 endC hv with h1 | ⟨e2, he2, he2n⟩
    · obtain ⟨e2, he2, he2n⟩ := hinv.endq h1
      rcases List.mem_cons.1 he2 with rfl | h2
      · exact absurd he2n hend
      · exact ⟨e2, List.mem_append_left _ h2, he2n⟩
    · exact ⟨e2, List.mem_append_right _ he2, he2n⟩

/-- Minimality and completeness of the BFS loop under the level invariant:
a returned path has at most `k + 1` nodes for any `k`-hop route to the end,
and with sufficient fuel a failed search means the end is unreachable. -/
theorem bfsLoop_minimal {adj : City → List (City × Weight)} {rev : Bool}
    {cities : List City} {start endC : City}
    (hadj : ∀ u (p : City × Weight), p ∈ adj u → p.1 ∈ cities) :
    ∀ (fuel : Nat) (queue : List BfsEntry) (visited : List City)
      (steps : List AnimationStep),
      BfsInvM adj cities start endC queue visited →
      (pushUniq cities start).length + 1 + queue.length ≤ fuel + visited.length →
      (∀ r tr, bfsLoop adj rev endC fuel queue visited steps = (some r, tr) →
        ∀ k, ReachIn adj start endC k → r.path.length ≤ k + 1) ∧
      (∀ tr, bfsLoop adj rev endC fuel queue visited steps = (none, tr) →
        ∀ k, ¬ReachIn adj start endC k) := by
  intro fuel
  induction fuel with
  | zero =>
    intro queue visited steps hinv hfuel
    exfalso
    have hsub : visited ⊆ pushUniq cities start := by
      intro x hx
      rcases hinv.vsub x hx with rfl | h
      · exact self_mem_pushUniq
      · exact sub_pushUniq h
    have hlen : visited.length ≤ (pushUniq cities start).length :=
      (hinv.vnodup.subperm hsub).length_le
    omega
  | succ f ih =>
    intro queue visited steps hinv hfuel
    cases queue with
    | nil =>
      constructor
      · intro r tr h
        rw [bfsLoop] at h
        cases h
      · intro tr h k hreach
        have hv := hinv.m3 endC k hreach (by
          intro h2 hh2
          simp at hh2)
        obtain ⟨e, he, _⟩ := hinv.endq hv
        cases he
    | cons e rest =>
      by_cases hend : e.node = endC
      · constructor
        · intro r tr h k hreach
          rw [bfsLoop] at h
          dsimp only at h
          rw [if_pos hend] at h
          injection h with h1 h2
          injection h1 with h1
          subst h1
          by_cases hk : k < e.path.length
          · have h5 := (hinv.m2 endC k hreach (by
              intro h3 hh3
              have he3 : e = h3 := by simpa using hh3
              subst he3
              exact hk)).2 e (List.mem_cons_self _ _)
            exact absurd hend h5
          · simp only [List.length_append, List.length_cons, List.length_nil]
            omega
        · intro tr h
          rw [bfsLoop] at h
          dsimp only at h
          rw [if_pos hend] at h
          cases h
      · obtain ⟨hinv2, hlen2⟩ :=
          @BfsInvM_step adj cities start endC hadj rev e rest visited steps hinv hend
        have hmeas : (pushUniq cities start).length + 1 +
            (rest ++ (bfsExpandGo e.node (e.path ++ [e.node]) e.distance
              (orderNbrs rev (adj e.node))
              { visited := visited, steps := steps,
                newEntries := [] }).newEntries).length ≤
            f + (bfsExpandGo e.node (e.path ++ [e.node]) e.distance
              (orderNbrs rev (adj e.node))
              { visited := visited, steps := steps,
                newEntries := [] }).visited.length := by
          rw [List.length_append, hlen2]
          simp only [List.length_cons] at hfuel
          omega
        have hrec := ih (rest ++ (bfsExpandGo e.node (e.path ++ [e.node]) e.distance
            (orderNbrs rev (adj e.node))
            { visited := visited, steps := steps, newEntries := [] }).newEntries)
          (bfsExpandGo e.node (e.path ++ [e.node]) e.distance
            (orderNbrs rev (adj e.node))
            { visited := visited, steps := steps, newEntries := [] }).visited
          (bfsExpandGo e.node (e.path ++ [e.node]) e.distance
            (orderNbrs rev (adj e.node))
            { visited := visited, steps := steps, newEntries := [] }).steps
          hinv2 hmeas
        constructor
        · intro r tr h k hreach
          rw [bfsLoop] at h
          dsimp only at h
          rw [if_neg hend] at h
          unfold bfsExpand at h
          exact hrec.1 r tr h k hreach
        · intro tr h
          rw [bfsLoop] at h
          dsimp only at h
          rw [if_neg hend] at h
          unfold bfsExpand at h
          exact hrec.2 tr h

theorem bfsLoop_sound {adj : City → List (City × Weight)} {rev : Bool}
    {start endC : City} :
    ∀ (fuel : Nat) (queue : List BfsEntry) (visited : List City)
      (steps : List AnimationStep),
      BfsInvS adj start queue visited steps →
      ∀ r tr, bfsLoop adj rev endC fuel queue visited steps = (some r, tr) →
        r.path.head? = some start ∧ r.path.getLast? = some endC ∧
        (∀ pr ∈ pathPairs r.path, adjHas adj pr.1 pr.2) ∧
        r.path.Nodup ∧
        (∃ q, r.totalDistance = some q ∧ AdjWalk adj r.path q) ∧
        (∀ x ∈ r.path, ∃ s ∈ tr, s.waveNodes = none ∧ s.currentNode = x) := by
  intro fuel
  induction fuel with
  | zero =>
    intro queue visited steps _ r tr h
    rw [bfsLoop] at h
    cases h
  | succ f ih =>
    intro queue visited steps hinv r tr h
    cases queue with
    | nil =>
      rw [bfsLoop] at h
      cases h
    | cons e rest =>
      rw [bfsLoop] at h
      dsimp only at h
      by_cases hend : e.node = endC
      · rw [if_pos hend] at h
        injection h with h1 h2
        injection h1 with h1
        subst h2
        subst h1
        have hmem : e ∈ e :: rest := List.mem_cons_self _ _
        refine ⟨hinv.head e hmem, ?_, hinv.chain e hmem, hinv.nodup e hmem, ?_, ?_⟩
        · rw [List.getLast?_concat, hend]
        · exact ⟨e.distance, rfl, hinv.walk e hmem⟩
        · exact hinv.stepped e hmem
      · rw [if_neg hend] at h
        obtain ⟨j0, j1, j2, j3, j4⟩ :=
          bfsExpandGo_spec e.node (e.path ++ [e.node]) e.distance
            (orderNbrs rev (adj e.node))
            { visited := visited, steps := steps, newEntries := [] }
        have hmemE : e ∈ e :: rest := List.mem_cons_self _ _
        have hchainE : ∀ pr ∈ pathPairs (e.path ++ [e.node]), adjHas adj pr.1 pr.2 :=
          hinv.chain e hmemE
        have hheadE := hinv.head e hmemE
        have hsubE := hinv.subV e hmemE
        have hwalkE := hinv.walk e hmemE
        have hnodupE := hinv.nodup e hmemE
        have hsteppedE := hinv.stepped e hmemE
        have hne_nil : e.path ++ [e.node] ≠ [] := by simp
        refine ih (rest ++ (bfsExpand e.node (e.path ++ [e.node]) e.distance
            (orderNbrs rev (adj e.node)) visited steps).newEntries)
          _ _ ⟨?_, ?_, ?_, ?_, ?_, ?_⟩ r tr h
        · intro e2 he2
          rcases List.mem_append.1 he2 with h1 | h1
          · exact hinv.head e2 (List.mem_cons_of_mem _ h1)
          · rcases j3 e2 h1 with h2 | ⟨hp, ⟨w, hw, hd⟩, hnv, hv, hst⟩
            · cases h2
            · rw [hp, List.head?_append_of_ne_nil _ hne_nil]
              exact hheadE
        · intro e2 he2
          rcases List.mem_append.1 he2 with h1 | h1
          · exact hinv.chain e2 (List.mem_cons_of_mem _ h1)
          · rcases j3 e2 h1 with h2 | ⟨hp, ⟨w, hw, hd⟩, hnv, hv, hst⟩
            · cases h2
            · rw [hp]
              intro pr hpr
              rcases pathPairs_mem_concat hpr (List.getLast?_concat _) with h3 | h3
              · exact hchainE pr h3
              · subst h3
                exact ⟨w, orderNbrs_mem.1 hw⟩
        · intro e2 he2
          rcases List.mem_append.1 he2 with h1 | h1
          · exact hinv.nodup e2 (List.mem_cons_of_mem _ h1)
          · rcases j3 e2 h1 with h2 | ⟨hp, ⟨w, hw, hd⟩, hnv, hv, hst⟩
            · cases h2
            · rw [hp]
              rw [List.nodup_append]
              refine ⟨hnodupE, List.nodup_singleton _, ?_⟩
              intro x hx hx2
              have heq : x = e2.node := by simpa using hx2
              exact hnv (heq ▸ hsubE x hx)
        · intro e2 he2 x hx
          rcases List.mem_append.1 he2 with h1 | h1
          · exact j1 x (hinv.subV e2 (List.mem_cons_of_mem _ h1) x hx)
          · rcases j3 e2 h1 with h2 | ⟨hp, ⟨w, hw, hd⟩, hnv, hv, hst⟩
            · cases h2
            · rw [hp] at hx
              rcases List.mem_append.1 hx with h3 | h3
              · exact j1 x (hsubE x h3)
              · simp only [List.mem_singleton] at h3
                subst h3
                exact hv
        · intro e2 he2
          rcases List.mem_append.1 he2 with h1 | h1
          · exact hinv.walk e2 (List.mem_cons_of_mem _ h1)
          · rcases j3 e2 h1 with h2 | ⟨hp, ⟨w, hw, hd⟩, hnv, hv, hst⟩
            · cases h2
            · rw [hp, hd]
              exact AdjWalk_concat hwalkE (List.getLast?_concat _) (orderNbrs_mem.1 hw)
        · intro e2 he2 x hx
          rcases List.mem_append.1 he2 with h1 | h1
          · obtain ⟨s, hs, hsw, hsc⟩ := hinv.stepped e2 (List.mem_cons_of_mem _ h1) x hx
            exact ⟨s, j2 s hs, hsw, hsc⟩
          · rcases j3 e2 h1 with h2 | ⟨hp, ⟨w, hw, hd⟩, hnv, hv, hst⟩
            · cases h2
            · rw [hp] at hx
              rcases List.mem_append.1 hx with h3 | h3
              · obtain ⟨s, hs, hsw, hsc⟩ := hsteppedE x h3
                exact ⟨s, j2 s hs, hsw, hsc⟩
              · simp only [List.mem_singleton] at h3
                subst h3
                exact hst

/-! ## BFS engine-level lemmas -/

theorem performBFS_sound {cities : List City} {links : List GraphLink}
    {rev : Bool} {startCity endCity : City} {r : PathResult}
    {tr : List AnimationStep}
    (h : performBFS cities links rev startCity endCity = (some r, tr)) :
    r.path.head? = some startCity ∧ r.path.getLast? = some endCity ∧
    (∀ pr ∈ pathPairs r.path,
      adjHas (buildAdjacencyList cities links rev) pr.1 pr.2) ∧
    r.path.Nodup ∧
    (∃ q, r.totalDistance = some q ∧
      AdjWalk (buildAdjacencyList cities links rev) r.path q) ∧
    (∀ x ∈ r.path, ∃ s ∈ tr, s.waveNodes = none ∧ s.currentNode = x) := by
  unfold performBFS at h
  split at h
  · exact absurd (congrArg Prod.fst h) (by simp)
  · dsimp only at h
    rcases hb : bfsLoop (buildAdjacencyList cities links rev) rev endCity
        (searchFuel cities links)
        [{ node := startCity, path := [], distance := 0 }] [startCity]
        [{ currentNode := startCity, visitedEdge := none, currentPath := [],
           isBacktrack := false }] with ⟨res, steps⟩
    rw [hb] at h
    cases res with
    | none => exact absurd (congrArg Prod.fst h) (by simp)
    | some r2 =>
      simp only at h
      injection h with h1 h2
      injection h1 with h1
      subst h1
      subst h2
      refine bfsLoop_sound _ _ _ _ ?_ _ _ hb
      refine ⟨?_, ?_, ?_, ?_, ?_, ?_⟩
      · intro e he
        have he2 : e = { node := startCity, path := [], distance := 0 } := by
          simpa using he
        subst he2
        rfl
      · intro e he pr hpr
        have he2 : e = { node := startCity, path := [], distance := 0 } := by
          simpa using he
        subst he2
        simp [pathPairs] at hpr
      · intro e he
        have he2 : e = { node := startCity, path := [], distance := 0 } := by
          simpa using he
        subst he2
        simp
      · intro e he x hx
        have he2 : e = { node := startCity, path := [], distance := 0 } := by
          simpa using he
        subst he2
        simpa using hx
      · intro e he
        have he2 : e = { node := startCity, path := [], distance := 0 } := by
          simpa using he
        subst he2
        exact AdjWalk.single startCity
      · intro e he x hx
        have he2 : e = { node := startCity, path := [], distance := 0 } := by
          simpa using he
        subst he2
        have hx2 : x = startCity := by simpa using hx
        subst hx2
        exact ⟨_, List.mem_singleton_self _, rfl, rfl⟩

theorem performBFS_minimal {cities : List City} {links : List GraphLink}
    {rev : Bool} {startCity endCity : City}
    (wf : GraphWF cities links) :
    (∀ r tr, performBFS cities links rev startCity endCity = (some r, tr) →
      ∀ k, ReachIn (buildAdjacencyList cities links rev) startCity endCity k →
        r.path.length ≤ k + 1) ∧
    (∀ tr, performBFS cities links rev startCity endCity = (none, tr) →
      startCity ≠ "" → endCity ≠ "" → startCity ≠ endCity →
      ∀ k, ¬ReachIn (buildAdjacencyList cities links rev) startCity endCity k) := by
  have hadj : ∀ u (p : City × Weight),
      p ∈ buildAdjacencyList cities links rev u → p.1 ∈ cities :=
    fun u p hp => adj_target_mem_cities wf hp
  by_cases hguard : startCity = "" ∨ endCity = "" ∨ startCity = endCity
  · constructor
    · intro r tr h
      unfold performBFS at h
      rw [if_pos hguard] at h
      exact absurd (congrArg Prod.fst h) (by simp)
    · intro tr h h1 h2 h3 k hreach
      rcases hguard with h4 | h4 | h4
      · exact h1 h4
      · exact h2 h4
      · exact h3 h4
  · have hinv0 : BfsInvM (buildAdjacencyList cities links rev) cities startCity
        endCity [{ node := startCity, path := [], distance := 0 }] [startCity] := by
      refine ⟨?_, ?_, ?_, ?_, ?_, ?_, ?_, ?_, ?_, ?_, ?_, ?_⟩
      · simp
      · intro e he hd hhd
        have he2 : e = { node := startCity, path := [], distance := 0 } := by
          simpa using he
        subst he2
        simp
      · simp
      · intro x hx
        exact Or.inl (by simpa using hx)
      · simp
      · intro e he
        have he2 : e = { node := startCity, path := [], distance := 0 } := by
          simpa using he
        subst he2
        simp
      · simp
      · intro z hz hno p hp
        have hz2 : z = startCity := by simpa using hz
        subst hz2
        exact absurd rfl (hno _ (List.mem_singleton_self _))
      · intro z k hreach hcond
        have h4 := hcond { node := startCity, path := [], distance := 0 } rfl
        simp at h4
      · intro z k hreach hcond
        have h4 := hcond { node := startCity, path := [], distance := 0 } rfl
        simp only [List.length_nil, Nat.le_zero] at h4
        subst h4
        have := reachIn_zero hreach
        subst this
        simp
      · intro e he hd hhd k hreach
        have he2 : e = { node := startCity, path := [], distance := 0 } := by
          simpa using he
        subst he2
        simp
      · intro hv
        have hv2 : endCity = startCity := by simpa using hv
        exact ⟨{ node := startCity, path := [], distance := 0 },
          List.mem_singleton_self _, hv2.symm⟩
    have hmeas : (pushUniq cities startCity).length + 1 +
        ([{ node := startCity, path := [], distance := 0 }] :
          List BfsEntry).length ≤ searchFuel cities links + ([startCity] : List City).length := by
      have := pushUniq_length_le (l := cities) (c := startCity)
      unfold searchFuel
      simp only [List.length_singleton]
      omega
    obtain ⟨hmin, hcompl⟩ := @bfsLoop_minimal (buildAdjacencyList cities links rev)
      rev cities startCity endCity hadj (searchFuel cities links)
      [{ node := startCity, path := [], distance := 0 }] [startCity]
      [{ currentNode := startCity, visitedEdge := none, currentPath := [],
         isBacktrack := false }] hinv0 hmeas
    constructor
    · intro r tr h k hreach
      unfold performBFS at h
      rw [if_neg hguard] at h
      dsimp only at h
      rcases hb : bfsLoop (buildAdjacencyList cities links rev) rev endCity
          (searchFuel cities links)
          [{ node := startCity, path := [], distance := 0 }] [startCity]
          [{ currentNode := startCity, visitedEdge := none, currentPath := [],
             isBacktrack := false }] with ⟨res, steps⟩
      rw [hb] at h
      cases res with
      | none => exact absurd (congrArg Prod.fst h) (by simp)
      | some r2 =>
        simp only at h
        injection h with h1 h2
        injection h1 with h1
        subst h1
        exact hmin r2 steps hb k hreach
    · intro tr h h1 h2 h3 k hreach
      unfold performBFS at h
      rw [if_neg hguard] at h
      dsimp only at h
      rcases hb : bfsLoop (buildAdjacencyList cities links rev) rev endCity
          (searchFuel cities links)
          [{ node := startCity, path := [], distance := 0 }] [startCity]
          [{ currentNode := startCity, visitedEdge := none, currentPath := [],
             isBacktrack := false }] with ⟨res, steps⟩
      rw [hb] at h
      cases res with
      | none => exact hcompl steps hb k hreach
      | some r2 => exact absurd (congrArg Prod.fst h) (by simp)

/-- One wave member's neighbor expansion preserves the Wave core invariant;
its effect on the predecessor record is monotone, new predecessor entries
point at the expanded member and force a non-empty wave edge list, and the
queue invariant is preserved. -/
theorem waveExpandCity_sound {adj : City → List (City × Weight)} {start : City}
    {cities : List City}
    (hT : ∀ (u : City) (p : City × Weight), p ∈ adj u → p.1 ∈ cities ∧ p.1 ≠ "")
    (hne : "" ∉ cities) (hs0 : start ≠ "") (current : City) :
    ∀ (nbrs : List (City × Weight)) (e : WaveExp),
      WaveCore adj start cities e.visited e.prev e.dist →
      (∀ p ∈ nbrs, p ∈ adj current) →
      current ∈ e.visited →
      (current = start ∨ ∃ u, e.prev current = some (some u)) →
      (∀ c ∈ e.queue, (c = start ∨ ∃ u, e.prev c = some (some u)) ∧ c ∈ e.visited) →
      WaveCore adj start cities (waveExpandCity current nbrs e).visited
        (waveExpandCity current nbrs e).prev (waveExpandCity current nbrs e).dist ∧
      (∀ v u, e.prev v = some (some u) →
        (waveExpandCity current nbrs e).prev v = some (some u)) ∧
      (∀ x ∈ e.visited, x ∈ (waveExpandCity current nbrs e).visited) ∧
      (∀ v u, (waveExpandCity current nbrs e).prev v = some (some u) →
        e.prev v = some (some u) ∨
          (u = current ∧ (waveExpandCity current nbrs e).waveEdges ≠ [])) ∧
      (e.waveEdges ≠ [] → (waveExpandCity current nbrs e).waveEdges ≠ []) ∧
      (∀ c ∈ (waveExpandCity current nbrs e).queue,
        (c = start ∨ ∃ u, (waveExpandCity current nbrs e).prev c = some (some u)) ∧
          c ∈ (waveExpandCity current nbrs e).visited) := by
  intro nbrs
  induction nbrs with
  | nil =>
    intro e hcore _ _ _ hq
    rw [waveExpandCity]
    exact ⟨hcore, fun v u h => h, fun x h => h, fun v u h => Or.inl h, fun h => h, hq⟩
  | cons nbr rest ih =>
    intro e hcore hnb hcv hcp hq
    obtain ⟨hPrev, hDist, hDom, hNodup, hSub, hStV⟩ := hcore
    rw [waveExpandCity]
    by_cases hv : nbr.1 ∈ e.visited
    · rw [if_pos hv]
      exact ih e ⟨hPrev, hDist, hDom, hNodup, hSub, hStV⟩
        (fun p hp => hnb p (List.mem_cons_of_mem _ hp)) hcv hcp hq
    · rw [if_neg hv]
      have hnbc : nbr.1 ∈ cities ∧ nbr.1 ≠ "" :=
        hT current nbr (hnb nbr (List.mem_cons_self _ _))
      have hcur_ne : current ≠ "" := by
        intro hc
        rcases mem_pushUniq.1 (hSub current hcv) with h1 | h1
        · exact hne (hc ▸ h1)
        · exact hs0 (hc ▸ h1).symm
      have hsn : start ≠ nbr.1 := fun hh => hv (hh ▸ hStV)
      have hcn : current ≠ nbr.1 := fun hh => hv (hh ▸ hcv)
      have hprev2 : ∀ v, v ≠ nbr.1 →
          updRec e.prev nbr.1 (some current) v = e.prev v := by
        intro v hvn
        unfold updRec
        rw [if_neg hvn]
      have hdist2 : ∀ v, v ≠ nbr.1 →
          updRec e.dist nbr.1 (wdAdd (dval (e.dist current)) nbr.2) v = e.dist v := by
        intro v hvn
        unfold updRec
        rw [if_neg hvn]
      have hupd_prev_self :
          updRec e.prev nbr.1 (some current) nbr.1 = some (some current) := by
        unfold updRec
        rw [if_pos rfl]
      have hupd_dist_self :
          updRec e.dist nbr.1 (wdAdd (dval (e.dist current)) nbr.2) nbr.1 =
            some (wdAdd (dval (e.dist current)) nbr.2) := by
        unfold updRec
        rw [if_pos rfl]
      have hcore2 : WaveCore adj start cities (pushUniq e.visited nbr.1)
          (updRec e.prev nbr.1 (some current))
          (updRec e.dist nbr.1 (wdAdd (dval (e.dist current)) nbr.2)) := by
        refine ⟨⟨?_, hPrev.2.1, ?_⟩, ⟨?_, ?_⟩, ?_, nodup_pushUniq hNodup, ?_,
          sub_pushUniq hStV⟩
        · rw [hprev2 start hsn]
          exact hPrev.1
        · intro v u hpv
          by_cases hvn : v = nbr.1
          · rw [hvn] at hpv
            unfold updRec at hpv
            rw [if_pos rfl] at hpv
            injection hpv with hpv
            injection hpv with hpv
            subst hpv
            refine ⟨hcur_ne, hvn ▸ hnbc.2, ⟨nbr.2, hvn ▸ hnb nbr (List.mem_cons_self _ _)⟩,
              ?_, ?_⟩
            · rcases hcp with h1 | ⟨u2, hu2⟩
              · exact Or.inl h1
              · exact Or.inr ⟨u2, by rw [hprev2 current hcn]; exact hu2⟩
            · rw [rkIn_pushUniq_mem hcv, hvn, rkIn_pushUniq_new hv]
              exact rkIn_lt_length hcv
          · rw [hprev2 v hvn] at hpv
            obtain ⟨hu_ne, hv_ne, hadj, hchain, hrk⟩ := hPrev.2.2 v u hpv
            obtain ⟨hvV, huV⟩ := hDom v u hpv
            have hun : u ≠ nbr.1 := fun hh => hv (hh ▸ huV)
            refine ⟨hu_ne, hv_ne, hadj, ?_, ?_⟩
            · rcases hchain with h1 | ⟨u2, hu2⟩
              · exact Or.inl h1
              · exact Or.inr ⟨u2, by rw [hprev2 u hun]; exact hu2⟩
            · rw [rkIn_pushUniq_mem hvV, rkIn_pushUniq_mem huV]
              exact hrk
        · rw [hdist2 start hsn]
          exact hDist.1
        · intro v u hpv
          by_cases hvn : v = nbr.1
          · rw [hvn] at hpv
            unfold updRec at hpv
            rw [if_pos rfl] at hpv
            injection hpv with hpv
            injection hpv with hpv
            subst hpv
            refine ⟨nbr.2, hvn ▸ hnb nbr (List.mem_cons_self _ _), ?_⟩
            rw [hvn, hupd_dist_self, hdist2 current hcn]
            rfl
          · rw [hprev2 v hvn] at hpv
            obtain ⟨w, hw, heq⟩ := hDist.2 v u hpv
            obtain ⟨hvV, huV⟩ := hDom v u hpv
            have hun : u ≠ nbr.1 := fun hh => hv (hh ▸ huV)
            exact ⟨w, hw, by rw [hdist2 v hvn, hdist2 u hun]; exact heq⟩
        · intro v u hpv
          by_cases hvn : v = nbr.1
          · rw [hvn] at hpv
            unfold updRec at hpv
            rw [if_pos rfl] at hpv
            injection hpv with hpv
            injection hpv with hpv
            subst hpv
            exact ⟨hvn ▸ self_mem_pushUniq, sub_pushUniq hcv⟩
          · rw [hprev2 v hvn] at hpv
            obtain ⟨hvV, huV⟩ := hDom v u hpv
            exact ⟨sub_pushUniq hvV, sub_pushUniq huV⟩
        · intro x hx
          rcases mem_pushUniq.1 hx with h1 | h1
          · exact hSub x h1
          · exact h1 ▸ mem_pushUniq.2 (Or.inl hnbc.1)
      obtain ⟨core3, mono23, vis23, class23, edges23, queue3⟩ :=
        ih { visited := pushUniq e.visited nbr.1,
             prev := updRec e.prev nbr.1 (some current),
             dist := updRec e.dist nbr.1 (wdAdd (dval (e.dist current)) nbr.2),
             waveEdges := e.waveEdges ++ [(current, nbr.1)],
             nextWaveNodes := e.nextWaveNodes ++ [nbr.1],
             queue := e.queue ++ [nbr.1] }
          hcore2 (fun p hp => hnb p (List.mem_cons_of_mem _ hp))
          (sub_pushUniq hcv)
          (by
            rcases hcp with h1 | ⟨u2, hu2⟩
            · exact Or.inl h1
            · exact Or.inr ⟨u2,
                show updRec e.prev nbr.1 (some current) current = some (some u2) by
                  rw [hprev2 current hcn]; exact hu2⟩)
          (by
            intro c hc
            rcases List.mem_append.1 hc with h1 | h1
            · obtain ⟨hst, hcvis⟩ := hq c h1
              have hcvn : c ≠ nbr.1 := fun hh => hv (hh ▸ hcvis)
              refine ⟨?_, sub_pushUniq hcvis⟩
              rcases hst with h2 | ⟨u2, hu2⟩
              · exact Or.inl h2
              · exact Or.inr ⟨u2,
                  show updRec e.prev nbr.1 (some current) c = some (some u2) by
                    rw [hprev2 c hcvn]; exact hu2⟩
            · simp only [List.mem_singleton] at h1
              subst h1
              exact ⟨Or.inr ⟨current, hupd_prev_self⟩, self_mem_pushUniq⟩)
      refine ⟨core3, ?_, ?_, ?_, ?_, queue3⟩
      · intro v u hpv
        obtain ⟨hvV, -⟩ := hDom v u hpv
        have hvn : v ≠ nbr.1 := fun hh => hv (hh ▸ hvV)
        exact mono23 v u
          (show updRec e.prev nbr.1 (some current) v = some (some u) by
            rw [hprev2 v hvn]; exact hpv)
      · intro x hx
        exact vis23 x (sub_pushUniq hx)
      · intro v u hfinal
        rcases class23 v u hfinal with h1 | h1
        · have h2 : updRec e.prev nbr.1 (some current) v = some (some u) := h1
          by_cases hvn : v = nbr.1
          · rw [hvn] at h2
            unfold updRec at h2
            rw [if_pos rfl] at h2
            injection h2 with h2
            injection h2 with h2
            refine Or.inr ⟨h2.symm, edges23 (by simp)⟩
          · rw [hprev2 v hvn] at h2
            exact Or.inl h2
        · exact Or.inr h1
      · intro hnonempty
        exact edges23 (by simp)

/-- Expansion of a whole wave: invariant preservation and classification of
the new predecessor entries (they point into the expanded wave and force a
pushed wave step). -/
theorem waveExpand_sound {adj : City → List (City × Weight)} {start : City}
    {cities : List City}
    (hT : ∀ (u : City) (p : City × Weight), p ∈ adj u → p.1 ∈ cities ∧ p.1 ≠ "")
    (hne : "" ∉ cities) (hs0 : start ≠ "") {rev : Bool} :
    ∀ (wave : List City) (e : WaveExp),
      WaveCore adj start cities e.visited e.prev e.dist →
      (∀ c ∈ wave, c ∈ e.visited ∧ (c = start ∨ ∃ u, e.prev c = some (some u))) →
      (∀ c ∈ e.queue, (c = start ∨ ∃ u, e.prev c = some (some u)) ∧ c ∈ e.visited) →
      WaveCore adj start cities (waveExpand adj rev wave e).visited
        (waveExpand adj rev wave e).prev (waveExpand adj rev wave e).dist ∧
      (∀ v u, e.prev v = some (some u) →
        (waveExpand adj rev wave e).prev v = some (some u)) ∧
      (∀ x ∈ e.visited, x ∈ (waveExpand adj rev wave e).visited) ∧
      (∀ v u, (waveExpand adj rev wave e).prev v = some (some u) →
        e.prev v = some (some u) ∨
          (u ∈ wave ∧ (waveExpand adj rev wave e).waveEdges ≠ [])) ∧
      (e.waveEdges ≠ [] → (waveExpand adj rev wave e).waveEdges ≠ []) ∧
      (∀ c ∈ (waveExpand adj rev wave e).queue,
        (c = start ∨ ∃ u, (waveExpand adj rev wave e).prev c = some (some u)) ∧
          c ∈ (waveExpand adj rev wave e).visited) := by
  intro wave
  induction wave with
  | nil =>
    intro e hcore _ hq
    rw [waveExpand]
    exact ⟨hcore, fun v u h => h, fun x h => h, fun v u h => Or.inl h, fun h => h, hq⟩
  | cons current restW ih =>
    intro e hcore hw hq
    rw [waveExpand]
    obtain ⟨hcV, hcS⟩ := hw current (List.mem_cons_self _ _)
    obtain ⟨core1, mono1, vis1, class1, edges1, queue1⟩ :=
      waveExpandCity_sound hT hne hs0 current (orderNbrs rev (adj current)) e hcore
        (fun p hp => orderNbrs_mem.1 hp) hcV hcS hq
    obtain ⟨core2, mono2, vis2, class2, edges2, queue2⟩ :=
      ih (waveExpandCity current (orderNbrs rev (adj current)) e) core1
        (by
          intro c hc
          obtain ⟨h1, h2⟩ := hw c (List.mem_cons_of_mem _ hc)
          refine ⟨vis1 c h1, ?_⟩
          rcases h2 with h3 | ⟨u2, hu2⟩
          · exact Or.inl h3
          · exact Or.inr ⟨u2, mono1 c u2 hu2⟩)
        queue1
    refine ⟨core2, ?_, ?_, ?_, ?_, queue2⟩
    · intro v u h
      exact mono2 v u (mono1 v u h)
    · intro x hx
      exact vis2 x (vis1 x hx)
    · intro v u hfinal
      rcases class2 v u hfinal with h1 | ⟨h1, h2⟩
      · rcases class1 v u h1 with h3 | ⟨h3, h4⟩
        · exact Or.inl h3
        · exact Or.inr ⟨h3 ▸ List.mem_cons_self _ _, edges2 h4⟩
      · exact Or.inr ⟨List.mem_cons_of_mem _ h1, h2⟩
    · intro hnonempty
      exact edges2 (edges1 hnonempty)

/-- Soundness induction of the Wave loop: a run that reports `foundPath`
leaves a rank-valid predecessor record reaching the end city, with every
recorded predecessor covered by a pushed wave step. -/
theorem waveLoop_sound {adj : City → List (City × Weight)} {start : City}
    {cities : List City}
    (hT : ∀ (u : City) (p : City × Weight), p ∈ adj u → p.1 ∈ cities ∧ p.1 ≠ "")
    (hne : "" ∉ cities) (hs0 : start ≠ "") {rev : Bool} {endCity : City}
    {rfuel : Nat} :
    ∀ (fuel wc : Nat) (queue visited : List City) (prev : PrevMap)
      (dist : DistMap) (steps : List AnimationStep),
      WaveCore adj start cities visited prev dist →
      (∀ c ∈ queue, (c = start ∨ ∃ u, prev c = some (some u)) ∧ c ∈ visited) →
      (∀ v u, prev v = some (some u) → covStep steps u) →
      covStep steps start →
      ∀ prev2 dist2 steps2,
        waveLoop adj rev endCity rfuel fuel wc queue visited prev dist steps =
          (prev2, dist2, steps2, true) →
        ∃ visited2,
          WaveCore adj start cities visited2 prev2 dist2 ∧
          (endCity = start ∨ ∃ u, prev2 endCity = some (some u)) ∧
          (∀ v u, prev2 v = some (some u) → covStep steps2 u) ∧
          covStep steps2 start := by
  intro fuel
  induction fuel with
  | zero =>
    intro wc queue visited prev dist steps _ _ _ _ prev2 dist2 steps2 h
    rw [waveLoop] at h
    cases h
  | succ f ih =>
    intro wc queue visited prev dist steps hcore hq hcov hcovs prev2 dist2 steps2 h
    cases queue with
    | nil =>
      rw [waveLoop] at h
      rw [if_pos (show (([] : List City).isEmpty = true) from rfl)] at h
      cases h
    | cons qh qt =>
      rw [waveLoop] at h
      rw [if_neg (show ¬((qh :: qt).isEmpty = true) by simp)] at h
      rcases htw : takeWave endCity (qh :: qt) with ⟨cw, restq, found⟩
      rw [htw] at h
      dsimp only at h
      obtain ⟨tw1, tw2, tw3⟩ := takeWave_spec endCity (qh :: qt)
      simp only [htw] at tw1 tw2 tw3
      obtain ⟨coreE, monoE, visE, classE, edgesE, queueE⟩ :=
        waveExpand_sound hT hne hs0 cw
          { visited := visited, prev := prev, dist := dist,
            waveEdges := [], nextWaveNodes := [], queue := restq }
          hcore
          (fun c hc => ⟨(hq c (tw1 c hc)).2, (hq c (tw1 c hc)).1⟩)
          (fun c hc => hq c (tw2 c hc))
      cases found with
      | true =>
        rw [if_pos rfl] at h
        injection h with h1 h'
        injection h' with h2 h''
        injection h'' with h3 h4
        subst h1
        subst h2
        subst h3
        refine ⟨_, coreE, ?_, ?_, ?_⟩
        · obtain ⟨hstat, -⟩ := hq endCity (tw1 endCity (tw3 rfl))
          rcases hstat with h5 | ⟨u, hu⟩
          · exact Or.inl h5
          · exact Or.inr ⟨u, monoE _ _ hu⟩
        · intro v u hpv
          rcases classE v u hpv with h5 | ⟨hu_cw, hedg⟩
          · have := hcov v u h5
            split
            · exact covStep_mono this
            · exact this
          · have hC : ¬(waveExpand adj rev cw
                { visited := visited, prev := prev, dist := dist,
                  waveEdges := [], nextWaveNodes := [],
                  queue := restq }).waveEdges.isEmpty = true := by
              cases hE2 : (waveExpand adj rev cw
                  { visited := visited, prev := prev, dist := dist,
                    waveEdges := [], nextWaveNodes := [],
                    queue := restq }).waveEdges with
              | nil => exact absurd hE2 hedg
              | cons a t => simp [hE2]
            rw [if_pos hC]
            refine ⟨_, List.mem_append.2 (Or.inr (List.mem_cons_self _ _)),
              Or.inl ⟨cw, rfl, rfl, hu_cw⟩⟩
        · split
          · exact covStep_mono hcovs
          · exact hcovs
      | false =>
        rw [if_neg (by simp)] at h
        refine ih _ _ _ _ _ _ coreE queueE ?_ ?_ prev2 dist2 steps2 h
        · intro v u hpv
          rcases classE v u hpv with h5 | ⟨hu_cw, hedg⟩
          · have := hcov v u h5
            split
            · exact covStep_mono this
            · exact this
          · have hC : ¬(waveExpand adj rev cw
                { visited := visited, prev := prev, dist := dist,
                  waveEdges := [], nextWaveNodes := [],
                  queue := restq }).waveEdges.isEmpty = true := by
              cases hE2 : (waveExpand adj rev cw
                  { visited := visited, prev := prev, dist := dist,
                    waveEdges := [], nextWaveNodes := [],
                    queue := restq }).waveEdges with
              | nil => exact absurd hE2 hedg
              | cons a t => simp [hE2]
            rw [if_pos hC]
            refine ⟨_, List.mem_append.2 (Or.inr (List.mem_cons_self _ _)),
              Or.inl ⟨cw, rfl, rfl, hu_cw⟩⟩
        · split
          · exact covStep_mono hcovs
          · exact hcovs

/-- The scan result is one of the scanned cities (or the seed accumulator). -/
theorem scanMinGo_mem (dist : DistMap) :
    ∀ (l : List City) (acc : Option City × Option Weight),
      (scanMinGo dist l acc).1 = acc.1 ∨
        ∃ c ∈ l, (scanMinGo dist l acc).1 = some c := by
  intro l
  induction l with
  | nil =>
    intro acc
    exact Or.inl rfl
  | cons c0 rest ih =>
    intro acc
    rw [scanMinGo]
    by_cases hlt : wdLt (dval (dist c0)) acc.2 = true
    · rw [if_pos hlt]
      rcases ih (some c0, dval (dist c0)) with h1 | ⟨c, hc, hc2⟩
      · exact Or.inr ⟨c0, List.mem_cons_self _ _, h1⟩
      · exact Or.inr ⟨c, List.mem_cons_of_mem _ hc, hc2⟩
    · rw [if_neg hlt]
      rcases ih acc with h1 | ⟨c, hc, hc2⟩
      · exact Or.inl h1
      · exact Or.inr ⟨c, List.mem_cons_of_mem _ hc, hc2⟩

theorem scanMin_mem {dist : DistMap} {unvisited : List City} {c : City}
    (h : scanMin dist unvisited = some c) : c ∈ unvisited := by
  unfold scanMin at h
  rcases scanMinGo_mem dist unvisited (none, none) with h1 | ⟨c2, hc2, hc3⟩
  · rw [h] at h1
    cases h1
  · rw [h] at hc3
    injection hc3 with hc3
    exact hc3 ▸ hc2

/-- `wdLt` is irreflexive. -/
theorem wdLt_irrefl (a : Option Weight) : wdLt a a = false := by
  cases a <;> simp [wdLt]

/-- `wdLe` is reflexive. -/
theorem wdLe_refl (a : Option Weight) : wdLe a a := wdLt_irrefl a

/-- `wdLe` is transitive. -/
theorem wdLe_trans {a b c : Option Weight} (h1 : wdLe a b) (h2 : wdLe b c) :
    wdLe a c := by
  unfold wdLe at h1 h2 ⊢
  cases a with
  | none =>
    cases b with
    | none =>
      cases c with
      | none => rfl
      | some z => exact h2
    | some y => exact Bool.noConfusion h1
  | some x =>
    cases c with
    | none => rfl
    | some z =>
      cases b with
      | none => exact Bool.noConfusion h2
      | some y =>
        simp only [wdLt, decide_eq_false_iff_not, not_lt] at h1 h2 ⊢
        linarith

/-- Strict comparison implies the non-strict one. -/
theorem wdLe_of_wdLt {a b : Option Weight} (h : wdLt a b = true) : wdLe a b := by
  unfold wdLe
  cases a with
  | none => exact Bool.noConfusion h
  | some x =>
    cases b with
    | none => rfl
    | some y =>
      simp only [wdLt, decide_eq_true_eq] at h
      simp only [wdLt, decide_eq_false_iff_not, not_lt]
      linarith

/-- A strictly smaller value is finite. -/
theorem wdLt_ne_none {a b : Option Weight} (h : wdLt a b = true) : a ≠ none := by
  cases a with
  | none => exact Bool.noConfusion h
  | some x => exact fun hh => Option.noConfusion hh

/-- Nothing finite lies below a value that is below `Infinity`. -/
theorem wdLt_none_eq_none {a : Option Weight} (h : wdLt a none = false) :
    a = none := by
  cases a with
  | none => rfl
  | some x => exact Bool.noConfusion h

/-- `Infinity` is never at most a finite value. -/
theorem not_wdLe_none_some {w : Weight} : ¬wdLe (none : Option Weight) (some w) :=
  fun h => Bool.noConfusion h

/-- Adding a non-negative weight cannot decrease a value. -/
theorem wdLe_wdAdd (a : Option Weight) {w : Weight} (hw : 0 ≤ w) :
    wdLe a (wdAdd a w) := by
  cases a with
  | none => rfl
  | some x =>
    unfold wdLe wdAdd
    simp only [wdLt, decide_eq_false_iff_not, not_lt]
    linarith

/-- `wdAdd` is monotone in its first argument. -/
theorem wdLe_wdAdd_mono {a b : Option Weight} (w : Weight) (h : wdLe a b) :
    wdLe (wdAdd a w) (wdAdd b w) := by
  unfold wdLe at h ⊢
  cases a with
  | none =>
    cases b with
    | none => rfl
    | some y => exact Bool.noConfusion h
  | some x =>
    cases b with
    | none => rfl
    | some y =>
      simp only [wdAdd, wdLt, decide_eq_false_iff_not, not_lt] at h ⊢
      linarith

/-- `wdAdd` is associative over plain addition. -/
theorem wdAdd_wdAdd (a : Option Weight) (w1 w2 : Weight) :
    wdAdd (wdAdd a w1) w2 = wdAdd a (w1 + w2) := by
  cases a with
  | none => rfl
  | some x =>
    show some (x + w1 + w2) = some (x + (w1 + w2))
    rw [add_assoc]

/-- Weakening a finite upper bound. -/
theorem wdLe_some_of_le {a : Option Weight} {w1 w2 : Weight}
    (h : wdLe a (some w1)) (hw : w1 ≤ w2) : wdLe a (some w2) := by
  refine wdLe_trans h ?_
  unfold wdLe
  simp only [wdLt, decide_eq_false_iff_not, not_lt]
  linarith

/-- A finite `wdLe` bound gives the plain inequality. -/
theorem wdLe_some_some {q w : Weight} (h : wdLe (some q) (some w)) : q ≤ w := by
  unfold wdLe at h
  simp only [wdLt, decide_eq_false_iff_not, not_lt] at h
  exact h

/-- Full specification of the linear minimum scan: the final candidate value
is at most the accumulator and at most every scanned tentative distance, and
the result either is the untouched accumulator or names a scanned city of
finite tentative distance. -/
theorem scanMinGo_spec (dist : DistMap) :
    ∀ (l : List City) (acc : Option City × Option Weight),
      (∀ z ∈ l, wdLt (dval (dist z)) (scanMinGo dist l acc).2 = false) ∧
      wdLt acc.2 (scanMinGo dist l acc).2 = false ∧
      (scanMinGo dist l acc = acc ∨
        ∃ c ∈ l, (scanMinGo dist l acc).1 = some c ∧
          (scanMinGo dist l acc).2 = dval (dist c) ∧ dval (dist c) ≠ none) := by
  intro l
  induction l with
  | nil =>
    intro acc
    rw [scanMinGo]
    exact ⟨by simp, wdLt_irrefl _, Or.inl rfl⟩
  | cons c rest ih =>
    intro acc
    rw [scanMinGo]
    by_cases hc : wdLt (dval (dist c)) acc.2 = true
    · rw [if_pos hc]
      obtain ⟨a1, a2, a3⟩ := ih (some c, dval (dist c))
      refine ⟨?_, ?_, ?_⟩
      · intro z hz
        rcases List.mem_cons.1 hz with h | h
        · rw [h]
          exact a2
        · exact a1 z h
      · exact wdLe_trans a2 (wdLe_of_wdLt hc)
      · rcases a3 with h | ⟨c2, hc2, h1, h2, h3⟩
        · refine Or.inr ⟨c, List.mem_cons_self _ _, ?_, ?_, wdLt_ne_none hc⟩
          · rw [h]
          · rw [h]
        · exact Or.inr ⟨c2, List.mem_cons_of_mem _ hc2, h1, h2, h3⟩
    · rw [if_neg hc]
      obtain ⟨a1, a2, a3⟩ := ih acc
      have hcf : wdLt (dval (dist c)) acc.2 = false := by
        cases hcc : wdLt (dval (dist c)) acc.2
        · rfl
        · exact absurd hcc hc
      refine ⟨?_, a2, ?_⟩
      · intro z hz
        rcases List.mem_cons.1 hz with h | h
        · rw [h]
          exact wdLe_trans a2 hcf
        · exact a1 z h
      · rcases a3 with h | ⟨c2, hc2, h1, h2, h3⟩
        · exact Or.inl h
        · exact Or.inr ⟨c2, List.mem_cons_of_mem _ hc2, h1, h2, h3⟩

/-- A successful minimum scan returns an unvisited city of finite tentative
distance that is minimal among all unvisited tentative distances. -/
theorem scanMin_spec {dist : DistMap} {unvisited : List City} {current : City}
    (h : scanMin dist unvisited = some current) :
    current ∈ unvisited ∧ dval (dist current) ≠ none ∧
      ∀ z ∈ unvisited, wdLe (dval (dist current)) (dval (dist z)) := by
  obtain ⟨a1, -, a3⟩ :=
    scanMinGo_spec dist unvisited ((none : Option City), (none : Option Weight))
  rcases a3 with heq | ⟨c, hcm, h1, h2, h3⟩
  · rw [scanMin, heq] at h
    cases h
  · rw [scanMin, h1] at h
    injection h with h
    subst h
    refine ⟨hcm, h3, ?_⟩
    intro z hz
    unfold wdLe
    rw [← h2]
    exact a1 z hz

/-- A failed minimum scan means every unvisited tentative distance is
`Infinity` or missing. -/
theorem scanMin_none {dist : DistMap} {unvisited : List City}
    (h : scanMin dist unvisited = none) :
    ∀ z ∈ unvisited, dval (dist z) = none := by
  obtain ⟨a1, -, a3⟩ :=
    scanMinGo_spec dist unvisited ((none : Option City), (none : Option Weight))
  rcases a3 with heq | ⟨c, hcm, h1, h2, h3⟩
  · intro z hz
    have := a1 z hz
    rw [heq] at this
    exact wdLt_none_eq_none this
  · rw [scanMin, h1] at h
    cases h

/-- The relaxation loop of one settled Dijkstra city preserves the core
invariant and leaves every city outside the unvisited set untouched. -/
theorem dijkstraRelax_sound {adj : City → List (City × Weight)} {start : City}
    {cities : List City}
    (hT : ∀ (u : City) (p : City × Weight), p ∈ adj u → p.1 ∈ cities ∧ p.1 ≠ "")
    (hw_nn : ∀ (u : City) (p : City × Weight), p ∈ adj u → 0 ≤ p.2)
    {rfuel : Nat} {current : City} {S unvisited2 : List City}
    (hcurS : current ∈ S) (hSun : ∀ c ∈ S, c ∉ unvisited2) (hcne : current ≠ "") :
    ∀ (nbrs : List (City × Weight)) (dist : DistMap) (prev : PrevMap)
      (steps : List AnimationStep),
      (∀ p ∈ nbrs, p ∈ adj current) →
      DijCore adj start cities S dist prev steps →
      dval (dist current) ≠ none →
      DijCore adj start cities S
        (dijkstraRelax rfuel current unvisited2 nbrs (dist, prev, steps)).1
        (dijkstraRelax rfuel current unvisited2 nbrs (dist, prev, steps)).2.1
        (dijkstraRelax rfuel current unvisited2 nbrs (dist, prev, steps)).2.2 ∧
      (∀ c, c ∉ unvisited2 →
        (dijkstraRelax rfuel current unvisited2 nbrs (dist, prev, steps)).1 c = dist c ∧
        (dijkstraRelax rfuel current unvisited2 nbrs (dist, prev, steps)).2.1 c =
          prev c) := by
  intro nbrs
  induction nbrs with
  | nil =>
    intro dist prev steps _ hcore _
    rw [dijkstraRelax]
    exact ⟨hcore, fun c _ => ⟨rfl, rfl⟩⟩
  | cons nbr rest ih =>
    intro dist prev steps hnb hcore hcd
    rw [dijkstraRelax]
    by_cases hu : nbr.1 ∈ unvisited2
    · rw [if_pos hu]
      dsimp only
      have hnbA : nbr ∈ adj current := hnb nbr (List.mem_cons_self _ _)
      have hn1c : nbr.1 ∈ cities ∧ nbr.1 ≠ "" := hT current nbr hnbA
      have hnnw : (0 : Weight) ≤ nbr.2 := hw_nn current nbr hnbA
      have hn1S : nbr.1 ∉ S := fun hh => hSun nbr.1 hh hu
      have hcun : current ∉ unvisited2 := hSun current hcurS
      have hcn1 : current ≠ nbr.1 := fun hh => hcun (hh ▸ hu)
      obtain ⟨hPrev, hDist, hPS, hDP, hNN, hCov, hCit, hCovS⟩ := hcore
      obtain ⟨q, hq⟩ : ∃ q, dval (dist current) = some q := by
        cases hdc : dval (dist current) with
        | none => exact absurd hdc hcd
        | some q => exact ⟨q, rfl⟩
      have hq0 : (0 : Weight) ≤ q := hNN current q hq
      have hpot : wdAdd (dval (dist current)) nbr.2 = some (q + nbr.2) := by
        rw [hq]
        rfl
      by_cases himp :
          wdLt (wdAdd (dval (dist current)) nbr.2) (dval (dist nbr.1)) = true
      · rw [if_pos himp]
        have hnst : nbr.1 ≠ start := by
          intro hh
          rw [hh, hDist.1, hpot] at himp
          have himp3 : q + nbr.2 < 0 := by
            simpa [wdLt] using himp
          linarith
        have hprev_at : ∀ v, v ≠ nbr.1 →
            updRec prev nbr.1 (some current) v = prev v := by
          intro v hv
          unfold updRec
          rw [if_neg hv]
        have hprev_self :
            updRec prev nbr.1 (some current) nbr.1 = some (some current) := by
          unfold updRec
          rw [if_pos rfl]
        have hdist_at : ∀ v, v ≠ nbr.1 →
            updRec dist nbr.1 (wdAdd (dval (dist current)) nbr.2) v = dist v := by
          intro v hv
          unfold updRec
          rw [if_neg hv]
        have hdist_self :
            updRec dist nbr.1 (wdAdd (dval (dist current)) nbr.2) nbr.1 =
              some (wdAdd (dval (dist current)) nbr.2) := by
          unfold updRec
          rw [if_pos rfl]
        have hcore2 : DijCore adj start cities S
            (updRec dist nbr.1 (wdAdd (dval (dist current)) nbr.2))
            (updRec prev nbr.1 (some current))
            ((steps ++
              [{ currentNode := current, visitedEdge := some (current, nbr.1),
                 currentPath := walkPrev prev rfuel current [],
                 isBacktrack := false }]) ++
              [{ currentNode := nbr.1, visitedEdge := none,
                 currentPath := walkPrev (updRec prev nbr.1 (some current)) rfuel
                   nbr.1 [],
                 isBacktrack := false }]) := by
          refine ⟨⟨?_, hPrev.2.1, ?_⟩, ⟨?_, ?_⟩, ?_, ?_, ?_, ?_, ?_,
            covStep_mono (covStep_mono hCovS)⟩
          · rw [hprev_at start (fun hh => hnst hh.symm)]
            exact hPrev.1
          · intro v u hpv
            by_cases hvn : v = nbr.1
            · rw [hvn, hprev_self] at hpv
              injection hpv with hpv
              injection hpv with hpv
              subst hpv
              refine ⟨hcne, by rw [hvn]; exact hn1c.2,
                ⟨nbr.2, by rw [hvn]; exact hnbA⟩, ?_, ?_⟩
              · rcases hDP current hcd with h1 | ⟨u2, hu2⟩
                · exact Or.inl h1
                · exact Or.inr ⟨u2, by rw [hprev_at current hcn1]; exact hu2⟩
              · dsimp only
                rw [hvn, if_pos hcurS, if_neg hn1S]
                exact rkIn_lt_length hcurS
            · rw [hprev_at v hvn] at hpv
              obtain ⟨h1, h2, h3, h4, h5⟩ := hPrev.2.2 v u hpv
              have huS : u ∈ S := hPS v u hpv
              have hun : u ≠ nbr.1 := fun hh => hn1S (hh ▸ huS)
              refine ⟨h1, h2, h3, ?_, h5⟩
              rcases h4 with h6 | ⟨u2, hu2⟩
              · exact Or.inl h6
              · exact Or.inr ⟨u2, by rw [hprev_at u hun]; exact hu2⟩
          · rw [hdist_at start (fun hh => hnst hh.symm)]
            exact hDist.1
          · intro v u hpv
            by_cases hvn : v = nbr.1
            · rw [hvn, hprev_self] at hpv
              injection hpv with hpv
              injection hpv with hpv
              subst hpv
              refine ⟨nbr.2, by rw [hvn]; exact hnbA, ?_⟩
              rw [hvn, hdist_self, hdist_at current hcn1]
              rfl
            · rw [hprev_at v hvn] at hpv
              obtain ⟨w, hw1, hw2⟩ := hDist.2 v u hpv
              have huS : u ∈ S := hPS v u hpv
              have hun : u ≠ nbr.1 := fun hh => hn1S (hh ▸ huS)
              exact ⟨w, hw1, by rw [hdist_at v hvn, hdist_at u hun]; exact hw2⟩
          · intro v u hpv
            by_cases hvn : v = nbr.1
            · rw [hvn, hprev_self] at hpv
              injection hpv with hpv
              injection hpv with hpv
              subst hpv
              exact hcurS
            · rw [hprev_at v hvn] at hpv
              exact hPS v u hpv
          · intro u hdu
            by_cases hun : u = nbr.1
            · exact Or.inr ⟨current, by rw [hun, hprev_self]⟩
            · rw [hdist_at u hun] at hdu
              rcases hDP u hdu with h1 | ⟨u2, hu2⟩
              · exact Or.inl h1
              · exact Or.inr ⟨u2, by rw [hprev_at u hun]; exact hu2⟩
          · intro c q2 hq2
            by_cases hcn : c = nbr.1
            · rw [hcn, hdist_self, hpot] at hq2
              injection hq2 with hq2
              linarith
            · rw [hdist_at c hcn] at hq2
              exact hNN c q2 hq2
          · intro v u hpv
            by_cases hvn : v = nbr.1
            · refine ⟨_, List.mem_append.2 (Or.inr (List.mem_cons_self _ _)),
                Or.inr ⟨by simp, hvn.symm⟩⟩
            · rw [hprev_at v hvn] at hpv
              exact covStep_mono (covStep_mono (hCov v u hpv))
          · intro c hc
            by_cases hcn : c = nbr.1
            · rw [hcn, hprev_self]
              intro hh
              cases hh
            · rw [hprev_at c hcn]
              exact hCit c hc
        obtain ⟨hcore3, hpres3⟩ := ih _ _ _
          (fun p hp => hnb p (List.mem_cons_of_mem _ hp)) hcore2
          (by rw [hdist_at current hcn1]; exact hcd)
        refine ⟨hcore3, ?_⟩
        intro c hc
        have hcnn : c ≠ nbr.1 := fun hh => hc (hh ▸ hu)
        obtain ⟨hp1, hp2⟩ := hpres3 c hc
        exact ⟨by rw [hp1, hdist_at c hcnn], by rw [hp2, hprev_at c hcnn]⟩
      · rw [if_neg himp]
        exact ih _ _ _
          (fun p hp => hnb p (List.mem_cons_of_mem _ hp))
          ⟨hPrev, hDist, hPS, hDP, hNN,
            fun v u hpv => covStep_mono (hCov v u hpv), hCit, covStep_mono hCovS⟩
          hcd
    · rw [if_neg hu]
      exact ih _ _ _ (fun p hp => hnb p (List.mem_cons_of_mem _ hp)) hcore hcd

/-- Minimality facts about one relaxation pass: cities outside the unvisited
set keep their distance, every distance can only decrease, a changed
distance is at least the settled city's distance, and every relaxed
unvisited neighbor ends up at most one edge above the settled city. -/
theorem dijkstraRelax_min {rfuel : Nat} {current : City} {unvisited2 : List City}
    (hcur : current ∉ unvisited2) :
    ∀ (nbrs : List (City × Weight)) (dist : DistMap) (prev : PrevMap)
      (steps : List AnimationStep),
      (∀ p ∈ nbrs, 0 ≤ p.2) →
      (∀ z, z ∉ unvisited2 →
        (dijkstraRelax rfuel current unvisited2 nbrs (dist, prev, steps)).1 z =
          dist z) ∧
      (∀ z, wdLe
        (dval ((dijkstraRelax rfuel current unvisited2 nbrs (dist, prev, steps)).1 z))
        (dval (dist z))) ∧
      (∀ z, dval ((dijkstraRelax rfuel current unvisited2 nbrs
            (dist, prev, steps)).1 z) = dval (dist z) ∨
        wdLe (dval (dist current))
          (dval ((dijkstraRelax rfuel current unvisited2 nbrs
            (dist, prev, steps)).1 z))) ∧
      (∀ p ∈ nbrs, p.1 ∈ unvisited2 →
        wdLe (dval ((dijkstraRelax rfuel current unvisited2 nbrs
            (dist, prev, steps)).1 p.1))
          (wdAdd (dval (dist current)) p.2)) := by
  intro nbrs
  induction nbrs with
  | nil =>
    intro dist prev steps hnn
    rw [dijkstraRelax]
    refine ⟨fun z _ => rfl, fun z => wdLe_refl _, fun z => Or.inl rfl, ?_⟩
    intro p hp
    cases hp
  | cons nbr rest ih =>
    intro dist prev steps hnn
    rw [dijkstraRelax]
    have hnn0 : (0 : Weight) ≤ nbr.2 := hnn nbr (List.mem_cons_self _ _)
    have hnnr : ∀ p ∈ rest, (0 : Weight) ≤ p.2 :=
      fun p hp => hnn p (List.mem_cons_of_mem _ hp)
    by_cases hu : nbr.1 ∈ unvisited2
    · rw [if_pos hu]
      dsimp only
      have hcn1 : current ≠ nbr.1 := fun hh => hcur (hh ▸ hu)
      by_cases himp :
          wdLt (wdAdd (dval (dist current)) nbr.2) (dval (dist nbr.1)) = true
      · rw [if_pos himp]
        have hdist_at : ∀ v, v ≠ nbr.1 →
            updRec dist nbr.1 (wdAdd (dval (dist current)) nbr.2) v = dist v := by
          intro v hv
          unfold updRec
          rw [if_neg hv]
        have hdist_self :
            updRec dist nbr.1 (wdAdd (dval (dist current)) nbr.2) nbr.1 =
              some (wdAdd (dval (dist current)) nbr.2) := by
          unfold updRec
          rw [if_pos rfl]
        have hdist_cur :
            updRec dist nbr.1 (wdAdd (dval (dist current)) nbr.2) current =
              dist current := hdist_at current hcn1
        obtain ⟨i1, i2, i3, i4⟩ := ih
          (updRec dist nbr.1 (wdAdd (dval (dist current)) nbr.2))
          (updRec prev nbr.1 (some current))
          ((steps ++
            [{ currentNode := current, visitedEdge := some (current, nbr.1),
               currentPath := walkPrev prev rfuel current [],
               isBacktrack := false }]) ++
            [{ currentNode := nbr.1, visitedEdge := none,
               currentPath := walkPrev (updRec prev nbr.1 (some current)) rfuel
                 nbr.1 [],
               isBacktrack := false }]) hnnr
        refine ⟨?_, ?_, ?_, ?_⟩
        · intro z hz
          rw [i1 z hz, hdist_at z (fun hh => hz (hh ▸ hu))]
        · intro z
          refine wdLe_trans (i2 z) ?_
          by_cases hzn : z = nbr.1
          · rw [hzn, hdist_self]
            exact wdLe_of_wdLt himp
          · rw [hdist_at z hzn]
            exact wdLe_refl _
        · intro z
          rcases i3 z with h | h
          · by_cases hzn : z = nbr.1
            · refine Or.inr ?_
              rw [h, hzn, hdist_self]
              exact wdLe_wdAdd _ hnn0
            · refine Or.inl ?_
              rw [h, hdist_at z hzn]
          · refine Or.inr ?_
            rw [hdist_cur] at h
            exact h
        · intro p hp hpu
          rcases List.mem_cons.1 hp with h | h
          · subst h
            refine wdLe_trans (i2 p.1) ?_
            rw [hdist_self]
            exact wdLe_refl _
          · have := i4 p h hpu
            rw [hdist_cur] at this
            exact this
      · have himpf :
            wdLt (wdAdd (dval (dist current)) nbr.2) (dval (dist nbr.1)) =
              false := by
          cases hcc : wdLt (wdAdd (dval (dist current)) nbr.2) (dval (dist nbr.1))
          · rfl
          · exact absurd hcc himp
        rw [if_neg himp]
        obtain ⟨i1, i2, i3, i4⟩ := ih dist prev
          (steps ++
            [{ currentNode := current, visitedEdge := some (current, nbr.1),
               currentPath := walkPrev prev rfuel current [],
               isBacktrack := false }]) hnnr
        refine ⟨i1, i2, i3, ?_⟩
        · intro p hp hpu
          rcases List.mem_cons.1 hp with h | h
          · subst h
            exact wdLe_trans (i2 p.1) himpf
          · exact i4 p h hpu
    · rw [if_neg hu]
      obtain ⟨i1, i2, i3, i4⟩ := ih dist prev steps hnnr
      refine ⟨i1, i2, i3, ?_⟩
      intro p hp hpu
      rcases List.mem_cons.1 hp with h | h
      · exact absurd hpu (h ▸ hu)
      · exact i4 p h hpu

/-- On non-negative edge weights, every adjacency walk has non-negative
total weight. -/
theorem adjWalk_nonneg {adj : City → List (City × Weight)}
    (hwnn : ∀ (u : City) (q : City × Weight), q ∈ adj u → 0 ≤ q.2) :
    ∀ {p : List City} {w : Weight}, AdjWalk adj p w → 0 ≤ w := by
  intro p w h
  induction h with
  | single u => exact le_refl 0
  | cons huv h2 ih =>
    have := hwnn _ _ huv
    linarith

/-- Every node of an adjacency walk starting at a registered city is a
registered (deduplicated) city. -/
theorem adjWalk_mem_dedup {adj : City → List (City × Weight)} {cities : List City}
    (hT : ∀ (u : City) (q : City × Weight), q ∈ adj u → q.1 ∈ cities) :
    ∀ {p : List City} {w : Weight}, AdjWalk adj p w →
      ∀ {hd : City}, p.head? = some hd → hd ∈ cities →
      ∀ x ∈ p, x ∈ cities.dedup := by
  intro p w h
  induction h with
  | single u =>
    intro hd hh hhc x hx
    injection hh with hh
    have hx2 := List.mem_singleton.1 hx
    rw [hx2, hh]
    exact List.mem_dedup.2 hhc
  | @cons u v w0 rest d huv h2 ih =>
    intro hd hh hhc x hx
    injection hh with hh
    rcases List.mem_cons.1 hx with h | h
    · rw [h, hh]
      exact List.mem_dedup.2 hhc
    · exact ih rfl (hT u (v, w0) huv) x h

/-- Cut argument along an adjacency walk: starting from a node whose
tentative distance is bounded by `B`, either the walk meets an unvisited
node whose tentative distance is at most `B` plus the walk weight, or its
final node's tentative distance obeys that bound. -/
theorem adjWalk_cut {adj : City → List (City × Weight)}
    {cities unvisited : List City} {dist : DistMap}
    (hM2 : ∀ y ∈ cities.dedup, y ∉ unvisited →
      ∀ p ∈ adj y, wdLe (dval (dist p.1)) (wdAdd (dval (dist y)) p.2))
    (hwnn : ∀ (u : City) (q : City × Weight), q ∈ adj u → 0 ≤ q.2) :
    ∀ {p : List City} {w : Weight}, AdjWalk adj p w →
      ∀ {hd : City} {B : Weight}, p.head? = some hd →
      (∀ x ∈ p, x ∈ cities.dedup) →
      wdLe (dval (dist hd)) (some B) →
      (∃ z ∈ p, z ∈ unvisited ∧ wdLe (dval (dist z)) (some (B + w))) ∨
      (∀ last, p.getLast? = some last →
        wdLe (dval (dist last)) (some (B + w))) := by
  intro p w hwalk
  induction hwalk with
  | single u =>
    intro hd B hh hmem hB
    injection hh with hh
    subst hh
    refine Or.inr ?_
    intro last hl
    rw [List.getLast?_singleton] at hl
    injection hl with hl
    rw [← hl]
    exact wdLe_some_of_le hB (by linarith)
  | @cons u v w0 rest d huv hw2 ih =>
    intro hd B hh hmem hB
    injection hh with hh
    subst hh
    have hd0 : (0 : Weight) ≤ d := adjWalk_nonneg hwnn hw2
    have hw00 : (0 : Weight) ≤ w0 := hwnn u (v, w0) huv
    by_cases hu : u ∈ unvisited
    · exact Or.inl ⟨u, List.mem_cons_self _ _, hu,
        wdLe_some_of_le hB (by linarith)⟩
    · have humem : u ∈ cities.dedup := hmem u (List.mem_cons_self _ _)
      have hv : wdLe (dval (dist v)) (some (B + w0)) := by
        have h1 := hM2 u humem hu (v, w0) huv
        have h2 : wdLe (wdAdd (dval (dist u)) w0) (wdAdd (some B) w0) :=
          wdLe_wdAdd_mono w0 hB
        exact wdLe_trans h1 h2
      have heq : B + w0 + d = B + (w0 + d) := by ring
      rcases ih rfl (fun x hx => hmem x (List.mem_cons_of_mem _ hx)) hv with
        ⟨z, hz1, hz2, hz3⟩ | hr
      · refine Or.inl ⟨z, List.mem_cons_of_mem _ hz1, hz2, ?_⟩
        rw [← heq]
        exact hz3
      · refine Or.inr ?_
        intro last hl
        rw [List.getLast?_cons_cons] at hl
        rw [← heq]
        exact hr last hl

/-- Settling the city returned by the minimum scan and relaxing its
neighbors preserves the Dijkstra minimality invariant. -/
theorem dijkstraStep_min {adj : City → List (City × Weight)} {cities : List City}
    {start current : City} {unvisited : List City} {dist : DistMap}
    {prev : PrevMap} {steps : List AnimationStep} {rfuel : Nat}
    (hTd : ∀ (u : City) (q : City × Weight), q ∈ adj u → q.1 ∈ cities.dedup)
    (hwnn : ∀ (u : City) (q : City × Weight), q ∈ adj u → 0 ≤ q.2)
    (hmin : DijMin adj start cities unvisited dist)
    (hscan : scanMin dist unvisited = some current) :
    DijMin adj start cities (unvisited.erase current)
      (dijkstraRelax rfuel current (unvisited.erase current) (adj current)
        (dist, prev, steps)).1 := by
  obtain ⟨hcm, hcd, hcmin⟩ := scanMin_spec hscan
  obtain ⟨M1, M5, M2, M3, M4⟩ := hmin
  have hcur2 : current ∉ unvisited.erase current := by
    intro hh
    exact ((M5.mem_erase_iff).1 hh).1 rfl
  obtain ⟨R1, R2, R3, R4⟩ :=
    dijkstraRelax_min hcur2 (adj current) dist prev steps
      (fun q hq => hwnn current q hq)
  have hRcur : (dijkstraRelax rfuel current (unvisited.erase current)
      (adj current) (dist, prev, steps)).1 current = dist current :=
    R1 current hcur2
  refine ⟨?_, M5.erase current, ?_, ?_, ?_⟩
  · intro z hz
    exact M1 z (List.mem_of_mem_erase hz)
  · intro y hy hyne p hp
    by_cases hyu : y ∈ unvisited
    · have hyc : y = current := by
        by_contra hne
        exact hyne ((M5.mem_erase_iff).2 ⟨hne, hyu⟩)
      subst hyc
      rw [hRcur]
      by_cases hpu : p.1 ∈ unvisited.erase y
      · exact R4 p hp hpu
      · rw [R1 p.1 hpu]
        by_cases hpc : p.1 = y
        · rw [hpc]
          exact wdLe_wdAdd _ (hwnn y p hp)
        · have hpnu : p.1 ∉ unvisited := by
            intro hh
            exact hpu ((M5.mem_erase_iff).2 ⟨hpc, hh⟩)
          have h1 : wdLe (dval (dist p.1)) (dval (dist y)) :=
            M3 p.1 (hTd y p hp) hpnu y hcm
          exact wdLe_trans h1 (wdLe_wdAdd _ (hwnn y p hp))
    · have hy2 : (dijkstraRelax rfuel current (unvisited.erase current)
          (adj current) (dist, prev, steps)).1 y = dist y :=
        R1 y (fun hh => hyu (List.mem_of_mem_erase hh))
      rw [hy2]
      exact wdLe_trans (R2 p.1) (M2 y hy hyu p hp)
  · intro y hy hyne z hz
    have hzu : z ∈ unvisited := List.mem_of_mem_erase hz
    by_cases hyu : y ∈ unvisited
    · have hyc : y = current := by
        by_contra hne
        exact hyne ((M5.mem_erase_iff).2 ⟨hne, hyu⟩)
      subst hyc
      rw [hRcur]
      rcases R3 z with h | h
      · rw [h]
        exact hcmin z hzu
      · exact h
    · have hy2 : (dijkstraRelax rfuel current (unvisited.erase current)
          (adj current) (dist, prev, steps)).1 y = dist y :=
        R1 y (fun hh => hyu (List.mem_of_mem_erase hh))
      rw [hy2]
      rcases R3 z with h | h
      · rw [h]
        exact M3 y hy hyu z hzu
      · exact wdLe_trans (M3 y hy hyu current hcm) h
  · exact wdLe_trans (R2 start) M4

/-- Minimality induction of the Dijkstra main loop: with enough fuel, the
final tentative distance of the end city (whatever exit is taken) is at
most the weight of every adjacency walk from the start to the end over
registered cities. -/
theorem dijkstraLoop_min {adj : City → List (City × Weight)} {cities : List City}
    {start endC : City} {rfuel : Nat}
    (hTd : ∀ (u : City) (q : City × Weight), q ∈ adj u → q.1 ∈ cities.dedup)
    (hwnn : ∀ (u : City) (q : City × Weight), q ∈ adj u → 0 ≤ q.2) :
    ∀ (fuel : Nat) (unvisited : List City) (dist : DistMap) (prev : PrevMap)
      (steps : List AnimationStep),
      unvisited.length < fuel →
      DijMin adj start cities unvisited dist →
      ∀ (p : List City) (w : Weight), AdjWalk adj p w →
        p.head? = some start → p.getLast? = some endC →
        (∀ x ∈ p, x ∈ cities.dedup) →
        wdLe
          (dval ((dijkstraLoop adj endC rfuel fuel unvisited dist prev
            steps).1 endC)) (some w) := by
  intro fuel
  induction fuel with
  | zero =>
    intro unvisited dist prev steps hfuel
    exact absurd hfuel (by omega)
  | succ fuel ih =>
    intro unvisited dist prev steps hfuel hmin p w hwalk hh hl hpmem
    rw [dijkstraLoop]
    cases unvisited with
    | nil =>
      rw [if_pos (show (([] : List City).isEmpty = true) from rfl)]
      obtain ⟨M1, M5, M2, M3, M4⟩ := hmin
      rcases adjWalk_cut M2 hwnn hwalk hh hpmem M4 with ⟨z, hz1, hz2, hz3⟩ | hr
      · cases hz2
      · have := hr endC hl
        rw [zero_add] at this
        exact this
    | cons a t =>
      rw [if_neg (show ¬(((a :: t) : List City).isEmpty = true) by simp)]
      cases hsm : scanMin dist (a :: t) with
      | none =>
        obtain ⟨M1, M5, M2, M3, M4⟩ := hmin
        rcases adjWalk_cut M2 hwnn hwalk hh hpmem M4 with ⟨z, hz1, hz2, hz3⟩ | hr
        · rw [scanMin_none hsm z hz2] at hz3
          exact absurd hz3 not_wdLe_none_some
        · have := hr endC hl
          rw [zero_add] at this
          exact this
      | some current =>
        dsimp only
        obtain ⟨hcm, hcd, hcmin⟩ := scanMin_spec hsm
        rw [if_neg hcd]
        by_cases hce : current = endC
        · rw [if_pos hce]
          obtain ⟨M1, M5, M2, M3, M4⟩ := hmin
          rcases adjWalk_cut M2 hwnn hwalk hh hpmem M4 with ⟨z, hz1, hz2, hz3⟩ | hr
          · have h2 := wdLe_trans (hcmin z hz2) hz3
            rw [zero_add] at h2
            rw [hce] at h2
            exact h2
          · have := hr endC hl
            rw [zero_add] at this
            exact this
        · rw [if_neg hce]
          rcases hrel : dijkstraRelax rfuel current ((a :: t).erase current)
              (adj current) (dist, prev, steps) with ⟨dist2, prevpair⟩
          rcases prevpair with ⟨prev2, steps2⟩
          have hmin2 := @dijkstraStep_min adj cities start current (a :: t)
            dist prev steps rfuel hTd hwnn hmin hsm
          rw [hrel] at hmin2
          dsimp only at hmin2
          have hlen : ((a :: t).erase current).length < fuel := by
            rw [List.length_erase_of_mem hcm]
            simp only [List.length_cons] at hfuel ⊢
            omega
          exact ih ((a :: t).erase current) dist2 prev2 steps2 hlen hmin2 p w
            hwalk hh hl hpmem

/-- Soundness induction of the Dijkstra main loop: the core invariant holds
of the final state for some extended settle order within the registered
cities. -/
theorem dijkstraLoop_sound {adj : City → List (City × Weight)} {start : City}
    {cities : List City}
    (hT : ∀ (u : City) (p : City × Weight), p ∈ adj u → p.1 ∈ cities ∧ p.1 ≠ "")
    (hw_nn : ∀ (u : City) (p : City × Weight), p ∈ adj u → 0 ≤ p.2)
    (hne : "" ∉ cities) {endCity : City} {rfuel : Nat} :
    ∀ (fuel : Nat) (S unvisited : List City) (dist : DistMap) (prev : PrevMap)
      (steps : List AnimationStep),
      DijCore adj start cities S dist prev steps →
      (∀ c ∈ S, c ∉ unvisited) →
      (∀ c ∈ unvisited, c ∈ cities) →
      unvisited.Nodup →
      (∀ c ∈ S, c ∈ cities) →
      S.Nodup →
      ∃ S2, DijCore adj start cities S2
          (dijkstraLoop adj endCity rfuel fuel unvisited dist prev steps).1
          (dijkstraLoop adj endCity rfuel fuel unvisited dist prev steps).2.1
          (dijkstraLoop adj endCity rfuel fuel unvisited dist prev steps).2.2 ∧
        (∀ c ∈ S2, c ∈ cities) ∧ S2.Nodup := by
  intro fuel
  induction fuel with
  | zero =>
    intro S unvisited dist prev steps hcore _ _ _ hSc hSn
    rw [dijkstraLoop]
    exact ⟨S, hcore, hSc, hSn⟩
  | succ f ih =>
    intro S unvisited dist prev steps hcore hSun hUc hUn hSc hSn
    rw [dijkstraLoop]
    cases unvisited with
    | nil =>
      rw [if_pos (show (([] : List City).isEmpty = true) from rfl)]
      exact ⟨S, hcore, hSc, hSn⟩
    | cons a t =>
      rw [if_neg (show ¬(((a :: t) : List City).isEmpty = true) by simp)]
      cases hsm : scanMin dist (a :: t) with
      | none =>
        exact ⟨S, hcore, hSc, hSn⟩
      | some current =>
        dsimp only
        by_cases hdc : dval (dist current) = none
        · rw [if_pos hdc]
          exact ⟨S, hcore, hSc, hSn⟩
        · rw [if_neg hdc]
          by_cases hce : current = endCity
          · rw [if_pos hce]
            exact ⟨S, hcore, hSc, hSn⟩
          · rw [if_neg hce]
            have hcmem : current ∈ a :: t := scanMin_mem hsm
            have hccit : current ∈ cities := hUc current hcmem
            have hcS : current ∉ S := fun hh => hSun current hh hcmem
            have hcne : current ≠ "" := fun hh => hne (hh ▸ hccit)
            obtain ⟨hPrev, hDist, hPS, hDP, hNN, hCov, hCit, hCovS⟩ := hcore
            have hcore1 : DijCore adj start cities (S ++ [current]) dist prev
                steps := by
              refine ⟨⟨hPrev.1, hPrev.2.1, ?_⟩, hDist, ?_, hDP, hNN, hCov, hCit,
                hCovS⟩
              · intro v u hpv
                obtain ⟨h1, h2, h3, h4, h5⟩ := hPrev.2.2 v u hpv
                have huS : u ∈ S := hPS v u hpv
                have huS2 : u ∈ S ++ [current] := List.mem_append.2 (Or.inl huS)
                refine ⟨h1, h2, h3, h4, ?_⟩
                dsimp only
                rw [if_pos huS2, rkIn_mem_eq [current] huS]
                dsimp only at h5
                rw [if_pos huS] at h5
                by_cases hvS : v ∈ S
                · rw [if_pos (List.mem_append.2 (Or.inl hvS)),
                    rkIn_mem_eq [current] hvS]
                  rw [if_pos hvS] at h5
                  exact h5
                · rw [if_neg hvS] at h5
                  by_cases hvc : v = current
                  · rw [if_pos (List.mem_append.2 (Or.inr (by
                      rw [hvc]; exact List.mem_singleton_self _)))]
                    rw [hvc, rkIn_append_self hcS]
                    exact h5
                  · rw [if_neg (by
                      intro hh
                      rcases List.mem_append.1 hh with h6 | h6
                      · exact hvS h6
                      · simp only [List.mem_singleton] at h6
                        exact hvc h6)]
                    simp only [List.length_append, List.length_singleton]
                    omega
              · intro v u hpv
                exact List.mem_append.2 (Or.inl (hPS v u hpv))
            have hcurS1 : current ∈ S ++ [current] :=
              List.mem_append.2 (Or.inr (List.mem_singleton_self _))
            have hSun1 : ∀ c ∈ S ++ [current], c ∉ (a :: t).erase current := by
              intro c hc hcer
              rcases List.mem_append.1 hc with h1 | h1
              · exact hSun c h1 (List.mem_of_mem_erase hcer)
              · simp only [List.mem_singleton] at h1
                subst h1
                exact absurd ((hUn.mem_erase_iff).1 hcer).1 (by simp)
            rcases hrel : dijkstraRelax rfuel current ((a :: t).erase current)
                (adj current) (dist, prev, steps) with ⟨dist2, prevpair⟩
            rcases prevpair with ⟨prev2, steps2⟩
            obtain ⟨hcore2, hpres2⟩ :=
              dijkstraRelax_sound hT hw_nn hcurS1 hSun1 hcne (adj current)
                dist prev steps (fun p hp => hp) hcore1 hdc
            rw [hrel] at hcore2 hpres2
            dsimp only at hcore2 hpres2
            exact ih (S ++ [current]) ((a :: t).erase current) dist2 prev2 steps2
              hcore2 hSun1
              (fun c hc => hUc c (List.mem_of_mem_erase hc))
              (hUn.erase current)
              (by
                intro c hc
                rcases List.mem_append.1 hc with h1 | h1
                · exact hSc c h1
                · simp only [List.mem_singleton] at h1
                  exact h1 ▸ hccit)
              (by
                rw [List.nodup_append]
                refine ⟨hSn, List.nodup_singleton _, ?_⟩
                intro x hx hx2
                simp only [List.mem_singleton] at hx2
                exact hcS (hx2 ▸ hx))

/-- Engine-level Dijkstra soundness (registered endpoints, non-negative
weights): a successful `performDijkstra` returns a duplicate-free adjacency
path from the start to the end whose reported total distance is the
accumulated walk weight, and every path node is marked visited by replaying
the trace. -/
theorem performDijkstra_sound {cities : List City} {links : List GraphLink}
    {rev : Bool} {startCity endCity : City} {r : PathResult}
    {tr : List AnimationStep}
    (wf : GraphWF cities links) (hnn : ∀ l ∈ links, 0 ≤ l.distance)
    (hs : startCity ∈ cities) (hec : endCity ∈ cities)
    (h : performDijkstra cities links rev startCity endCity = (some r, tr)) :
    r.path.head? = some startCity ∧ r.path.getLast? = some endCity ∧
    (∀ pr ∈ pathPairs r.path,
      adjHas (buildAdjacencyList cities links rev) pr.1 pr.2) ∧
    r.path.Nodup ∧
    (∃ q, r.totalDistance = some q ∧
      AdjWalk (buildAdjacencyList cities links rev) r.path q) ∧
    (∀ x ∈ r.path, x ∈ foldVisited tr) := by
  rw [performDijkstra] at h
  by_cases hg : startCity = "" ∨ endCity = "" ∨ startCity = endCity
  · rw [if_pos hg] at h
    cases h
  · rw [if_neg hg] at h
    dsimp only at h
    have hs0 : startCity ≠ "" := fun hh => hg (Or.inl hh)
    have he0 : endCity ≠ "" := fun hh => hg (Or.inr (Or.inl hh))
    have hse : startCity ≠ endCity := fun hh => hg (Or.inr (Or.inr hh))
    have hT : ∀ (u : City) (p : City × Weight),
        p ∈ buildAdjacencyList cities links rev u → p.1 ∈ cities ∧ p.1 ≠ "" :=
      fun u p hp => ⟨adj_target_mem_cities wf hp, adj_target_ne_empty wf hp⟩
    have hw_nn : ∀ (u : City) (p : City × Weight),
        p ∈ buildAdjacencyList cities links rev u → 0 ≤ p.2 := by
      intro u p hp
      obtain ⟨-, l, hl, hme⟩ := mem_buildAdjacencyList hp
      obtain ⟨-, hd⟩ := mem_linkEntries hme
      rw [hd]
      exact hnn l hl
    have hcore0 : DijCore (buildAdjacencyList cities links rev) startCity cities []
        (fun c => if c ∈ cities then some (if c = startCity then some 0 else none)
          else none)
        (fun c => if c ∈ cities then some none else none)
        [{ currentNode := startCity, visitedEdge := none, currentPath := [],
           isBacktrack := false }] := by
      have hnp : ∀ v u : City,
          (fun c => if c ∈ cities then some none else none) v =
            some (some u) → False := by
        intro v u hv
        dsimp only at hv
        split at hv
        · cases hv
        · cases hv
      have hd0 : ∀ u : City,
          dval ((fun c => if c ∈ cities then some
              (if c = startCity then some 0 else none) else none) u) ≠ none →
            u = startCity := by
        intro u hdu
        dsimp only at hdu
        split at hdu
        · split at hdu
          · assumption
          · exact absurd rfl hdu
        · exact absurd rfl hdu
      refine ⟨⟨by dsimp only; rw [if_pos hs], hs0, fun v u hv => absurd hv (by
          intro hv
          exact hnp v u hv)⟩,
        ⟨by dsimp only; rw [if_pos hs, if_pos rfl]; rfl, fun v u hv => absurd hv (by
          intro hv
          exact hnp v u hv)⟩,
        fun v u hv => absurd hv (by
          intro hv
          exact hnp v u hv),
        fun u hdu => Or.inl (hd0 u hdu),
        ?_,
        fun v u hv => absurd hv (by
          intro hv
          exact hnp v u hv),
        ?_,
        ⟨_, List.mem_singleton_self _, Or.inr ⟨by simp, rfl⟩⟩⟩
      · intro c q hq
        have hc : c = startCity := hd0 c (by rw [hq]; intro hh; cases hh)
        dsimp only at hq
        rw [hc, if_pos hs, if_pos rfl] at hq
        have : (0 : Weight) = q := by
          injection hq
        linarith
      · intro c hc
        dsimp only
        rw [if_pos hc]
        intro hh
        cases hh
    obtain ⟨S2, coreF, hS2c, hS2n⟩ :=
      dijkstraLoop_sound hT hw_nn wf.1 (searchFuel cities links) []
        cities.dedup _ _ _ hcore0
        (fun c hc => absurd hc (List.not_mem_nil c))
        (fun c hc => List.mem_dedup.1 hc)
        (List.nodup_dedup _)
        (fun c hc => absurd hc (List.not_mem_nil c))
        (List.nodup_nil)
    rcases hdl : dijkstraLoop (buildAdjacencyList cities links rev) endCity
        (searchFuel cities links) (searchFuel cities links) cities.dedup
        (fun c => if c ∈ cities then some (if c = startCity then some 0 else none)
          else none)
        (fun c => if c ∈ cities then some none else none)
        [{ currentNode := startCity, visitedEdge := none, currentPath := [],
           isBacktrack := false }] with ⟨distL, prevpair⟩
    rcases prevpair with ⟨prevL, stepsL⟩
    rw [hdl] at coreF h
    dsimp only at coreF h
    obtain ⟨hPrev, hDist, hPS, hDP, hNN, hCov, hCit, hCovS⟩ := coreF
    by_cases hcond : ¬prevL endCity = some none ∨ startCity = endCity
    · rw [if_pos hcond] at h
      injection h with h1 h2
      injection h1 with h1
      subst h2
      subst h1
      have hep : ∃ u, prevL endCity = some (some u) := by
        cases hpe : prevL endCity with
        | none => exact absurd hpe (hCit endCity hec)
        | some o =>
          cases o with
          | none =>
            rcases hcond with h3 | h3
            · exact absurd hpe h3
            · exact absurd h3 hse
          | some u => exact ⟨u, rfl⟩
      have hrk : (fun c => if c ∈ S2 then rkIn S2 c else S2.length) endCity <
          searchFuel cities links := by
        have hS2len : S2.length ≤ cities.length :=
          (hS2n.subperm hS2c).length_le
        dsimp only
        split
        · have := rkIn_lt_length (by assumption :
            endCity ∈ S2)
          unfold searchFuel
          omega
        · unfold searchFuel
          omega
      obtain ⟨p, hpeq, hhead, hlast, hpp, hchain, hmemdom⟩ :=
        walkPrev_spec hPrev (searchFuel cities links) endCity []
          (Or.inr hep) he0 hrk
      rw [List.append_nil] at hpeq
      refine ⟨?_, ?_, ?_, ?_, ?_, ?_⟩
      · rw [hpeq]
        exact hhead
      · rw [hpeq]
        exact hlast
      · rw [hpeq]
        exact prevChain_adj hPrev hpp
      · rw [hpeq]
        exact chain'_rk_nodup hchain
      · obtain ⟨q, hwalk, hlastd⟩ :=
          prevChain_weight hDist p startCity 0 hhead hpp hDist.1
        have hd := hlastd endCity hlast
        rw [zero_add] at hd
        refine ⟨q, ?_, by rw [hpeq]; exact hwalk⟩
        show dval (distL endCity) = some q
        exact hd
      · intro x hx
        rw [hpeq] at hx
        rcases hmemdom x hx with h3 | ⟨u2, hu2⟩
        · exact h3 ▸ covStep_foldVisited hCovS
        · exact covStep_foldVisited (hCov x u2 hu2)
    · rw [if_neg hcond] at h
      cases h

/-- Engine-level Dijkstra minimality: the total distance reported by a
successful `performDijkstra` run is at most the weight of every adjacency
walk from the start to the end city. -/
theorem performDijkstra_minimal {cities : List City} {links : List GraphLink}
    {rev : Bool} {startCity endCity : City} {r : PathResult}
    {tr : List AnimationStep}
    (wf : GraphWF cities links) (hnn : ∀ l ∈ links, 0 ≤ l.distance)
    (hs : startCity ∈ cities)
    (h : performDijkstra cities links rev startCity endCity = (some r, tr)) :
    ∀ (p : List City) (w : Weight),
      AdjWalk (buildAdjacencyList cities links rev) p w →
      p.head? = some startCity → p.getLast? = some endCity →
      ∀ q, r.totalDistance = some q → q ≤ w := by
  rw [performDijkstra] at h
  by_cases hg : startCity = "" ∨ endCity = "" ∨ startCity = endCity
  · rw [if_pos hg] at h
    cases h
  · rw [if_neg hg] at h
    dsimp only at h
    have hTd : ∀ (u : City) (q : City × Weight),
        q ∈ buildAdjacencyList cities links rev u → q.1 ∈ cities.dedup :=
      fun u q hq => List.mem_dedup.2 (adj_target_mem_cities wf hq)
    have hw_nn : ∀ (u : City) (q : City × Weight),
        q ∈ buildAdjacencyList cities links rev u → 0 ≤ q.2 := by
      intro u q hq
      obtain ⟨-, l, hl, hme⟩ := mem_buildAdjacencyList hq
      obtain ⟨-, hd⟩ := mem_linkEntries hme
      rw [hd]
      exact hnn l hl
    have hmin0 : DijMin (buildAdjacencyList cities links rev) startCity cities
        cities.dedup
        (fun c => if c ∈ cities then some (if c = startCity then some 0 else none)
          else none) := by
      refine ⟨fun z hz => hz, List.nodup_dedup _, ?_, ?_, ?_⟩
      · intro y hy hyne p hp
        exact absurd hy hyne
      · intro y hy hyne z hz
        exact absurd hy hyne
      · dsimp only
        rw [if_pos hs, if_pos rfl]
        exact wdLe_refl _
    have hfuel : (cities.dedup).length < searchFuel cities links := by
      have := (List.dedup_sublist cities).length_le
      unfold searchFuel
      omega
    intro p w hwalk hh hl q hq
    have hpmem : ∀ x ∈ p, x ∈ cities.dedup :=
      adjWalk_mem_dedup (fun u q2 hq2 => adj_target_mem_cities wf hq2) hwalk hh hs
    have hbound :=
      @dijkstraLoop_min (buildAdjacencyList cities links rev) cities startCity
        endCity (searchFuel cities links) hTd hw_nn
        (searchFuel cities links) cities.dedup
        (fun c => if c ∈ cities then some (if c = startCity then some 0 else none)
          else none)
        (fun c => if c ∈ cities then some none else none)
        [{ currentNode := startCity, visitedEdge := none, currentPath := [],
           isBacktrack := false }] hfuel hmin0 p w hwalk hh hl hpmem
    rcases hdl : dijkstraLoop (buildAdjacencyList cities links rev) endCity
        (searchFuel cities links) (searchFuel cities links) cities.dedup
        (fun c => if c ∈ cities then some (if c = startCity then some 0 else none)
          else none)
        (fun c => if c ∈ cities then some none else none)
        [{ currentNode := startCity, visitedEdge := none, currentPath := [],
           isBacktrack := false }] with ⟨distL, prevpair⟩
    rcases prevpair with ⟨prevL, stepsL⟩
    rw [hdl] at h hbound
    dsimp only at h hbound
    by_cases hcond : ¬prevL endCity = some none ∨ startCity = endCity
    · rw [if_pos hcond] at h
      injection h with h1 h2
      injection h1 with h1
      have hq2 : dval (distL endCity) = some q := by
        rw [← h1] at hq
        exact hq
      rw [hq2] at hbound
      exact wdLe_some_some hbound
    · rw [if_neg hcond] at h
      cases h

/-- Engine-level Wave soundness: a successful `performWave` returns a
duplicate-free adjacency path from the start to the end whose reported total
distance is the accumulated walk weight, and every path node other than the
end is marked visited by replaying the trace. -/
theorem performWave_sound {cities : List City} {links : List GraphLink}
    {rev : Bool} {startCity endCity : City} {r : PathResult}
    {tr : List AnimationStep}
    (wf : GraphWF cities links) (hs : startCity ∈ cities)
    (h : performWave cities links rev startCity endCity = (some r, tr)) :
    r.path.head? = some startCity ∧ r.path.getLast? = some endCity ∧
    (∀ pr ∈ pathPairs r.path,
      adjHas (buildAdjacencyList cities links rev) pr.1 pr.2) ∧
    r.path.Nodup ∧
    (∃ q, r.totalDistance = some q ∧
      AdjWalk (buildAdjacencyList cities links rev) r.path q) ∧
    (∀ x ∈ r.path, x ≠ endCity → x ∈ foldVisited tr) := by
  rw [performWave] at h
  by_cases hg : startCity = "" ∨ endCity = "" ∨ startCity = endCity
  · rw [if_pos hg] at h
    cases h
  · rw [if_neg hg] at h
    dsimp only at h
    rcases hwl : waveLoop (buildAdjacencyList cities links rev) rev endCity
        (searchFuel cities links) (searchFuel cities links) 0 [startCity] [startCity]
        (fun c => if c ∈ cities then some none else none)
        (fun c => if c ∈ cities then some (if c = startCity then some 0 else none)
          else none)
        [{ currentNode := startCity, visitedEdge := none, currentPath := [],
           isBacktrack := false }] with ⟨prevF, distF, stepsF, found⟩
    rw [hwl] at h
    dsimp only at h
    cases found with
    | false =>
      rw [if_neg (by simp)] at h
      cases h
    | true =>
      rw [if_pos rfl] at h
      injection h with h1 h2
      injection h1 with h1
      subst h2
      subst h1
      have hs0 : startCity ≠ "" := fun hh => hg (Or.inl hh)
      have he0 : endCity ≠ "" := fun hh => hg (Or.inr (Or.inl hh))
      have hse : startCity ≠ endCity := fun hh => hg (Or.inr (Or.inr hh))
      have hT : ∀ (u : City) (p : City × Weight),
          p ∈ buildAdjacencyList cities links rev u → p.1 ∈ cities ∧ p.1 ≠ "" :=
        fun u p hp => ⟨adj_target_mem_cities wf hp, adj_target_ne_empty wf hp⟩
      have hprev0 : ∀ v u : City,
          (fun c => if c ∈ cities then some none else none) v = some (some u) →
            False := by
        intro v u hv
        dsimp only at hv
        split at hv
        · cases hv
        · cases hv
      obtain ⟨visited2, core2, hendstat, hcov2, -⟩ :=
        waveLoop_sound hT wf.1 hs0 (searchFuel cities links) 0 [startCity] [startCity]
          _ _ _
          ⟨⟨by rw [if_pos hs], hs0, fun v u hv => absurd hv (by
              intro hv
              exact hprev0 v u hv)⟩,
            ⟨by rw [if_pos hs, if_pos rfl]; rfl,
              fun v u hv => absurd hv (by
                intro hv
                exact hprev0 v u hv)⟩,
            fun v u hv => absurd hv (by
              intro hv
              exact hprev0 v u hv),
            by simp,
            by
              intro x hx
              simp only [List.mem_singleton] at hx
              exact hx ▸ self_mem_pushUniq,
            List.mem_singleton_self _⟩
          (by
            intro c hc
            simp only [List.mem_singleton] at hc
            exact ⟨Or.inl hc, hc ▸ List.mem_singleton_self _⟩)
          (fun v u hv => absurd hv (by
            intro hv
            exact hprev0 v u hv))
          ⟨_, List.mem_singleton_self _, Or.inr ⟨by simp, rfl⟩⟩
          prevF distF stepsF hwl
      have hendp : ∃ u, prevF endCity = some (some u) := by
        rcases hendstat with h1 | h1
        · exact absurd h1.symm hse
        · exact h1
      have hendV : endCity ∈ visited2 := by
        obtain ⟨u, hu⟩ := hendp
        exact (core2.2.2.1 endCity u hu).1
      have hlen2 : visited2.length ≤ cities.length + 1 := by
        have h2 :=
          (core2.2.2.2.1.subperm (fun x hx => core2.2.2.2.2.1 x hx)).length_le
        have h3 := pushUniq_length_le (l := cities) (c := startCity)
        omega
      have hrkend : rkIn visited2 endCity < searchFuel cities links := by
        have h1 := rkIn_lt_length hendV
        unfold searchFuel
        omega
      obtain ⟨p, hpeq, hhead, hlast, hpp, hchain, hmemdom⟩ :=
        walkPrev_spec core2.1 (searchFuel cities links) endCity []
          (Or.inr hendp) he0 hrkend
      rw [List.append_nil] at hpeq
      refine ⟨?_, ?_, ?_, ?_, ?_, ?_⟩
      · rw [hpeq]
        exact hhead
      · rw [hpeq]
        exact hlast
      · rw [hpeq]
        exact prevChain_adj core2.1 hpp
      · rw [hpeq]
        exact chain'_rk_nodup hchain
      · obtain ⟨q, hwalk, hlastd⟩ :=
          prevChain_weight core2.2.1 p startCity 0 hhead hpp core2.2.1.1
        have hd := hlastd endCity hlast
        rw [zero_add] at hd
        refine ⟨q, ?_, by rw [hpeq]; exact hwalk⟩
        show dval (distF endCity) = some q
        exact hd
      · intro x hx hxe
        rw [hpeq] at hx
        obtain ⟨y, hxy⟩ := pathPairs_mem_of_ne_last hlast hx hxe
        exact covStep_foldVisited (hcov2 y x (hpp (x, y) hxy))

/-- One bidirectional wave member's neighbor expansion: invariant
preservation, classification of new predecessor entries, and the meeting
discipline (with disjoint sides, any node of both sides is the reported
meeting node; a reported meeting node is visited on both sides and carries a
predecessor). -/
theorem biExpandNbrs_sound {adj : City → List (City × Weight)} {start : City}
    {cities : List City}
    (hT : ∀ (u : City) (p : City × Weight), p ∈ adj u → p.1 ∈ cities ∧ p.1 ≠ "")
    (hne : "" ∉ cities) (hs0 : start ≠ "") (otherVisited : List City)
    (current : City) :
    ∀ (nbrs : List (City × Weight)) (e : BiExp),
      BiCore adj start cities e.visited e.prev →
      (∀ p ∈ nbrs, p ∈ adj current) →
      current ∈ e.visited →
      (∀ c ∈ e.queue, c ∈ e.visited) →
      e.meet = none →
      BiCore adj start cities (biExpandNbrs otherVisited current nbrs e).visited
        (biExpandNbrs otherVisited current nbrs e).prev ∧
      (∀ v u, e.prev v = some (some u) →
        (biExpandNbrs otherVisited current nbrs e).prev v = some (some u)) ∧
      (∀ x ∈ e.visited, x ∈ (biExpandNbrs otherVisited current nbrs e).visited) ∧
      (∀ v u, (biExpandNbrs otherVisited current nbrs e).prev v = some (some u) →
        e.prev v = some (some u) ∨
          (u = current ∧ (biExpandNbrs otherVisited current nbrs e).waveEdges ≠ [])) ∧
      (e.waveEdges ≠ [] → (biExpandNbrs otherVisited current nbrs e).waveEdges ≠ []) ∧
      (∀ c ∈ (biExpandNbrs otherVisited current nbrs e).queue,
        c ∈ (biExpandNbrs otherVisited current nbrs e).visited) ∧
      ((∀ x ∈ e.visited, x ∉ otherVisited) →
        ∀ x ∈ (biExpandNbrs otherVisited current nbrs e).visited, x ∈ otherVisited →
          (biExpandNbrs otherVisited current nbrs e).meet = some x) ∧
      ((biExpandNbrs otherVisited current nbrs e).meet = none ∨
        ∃ m, (biExpandNbrs otherVisited current nbrs e).meet = some m ∧
          m ∈ (biExpandNbrs otherVisited current nbrs e).visited ∧ m ∈ otherVisited ∧
          ∃ u, (biExpandNbrs otherVisited current nbrs e).prev m = some (some u)) := by
  intro nbrs
  induction nbrs with
  | nil =>
    intro e hcore _ _ hq hm
    rw [biExpandNbrs]
    exact ⟨hcore, fun v u h => h, fun x h => h, fun v u h => Or.inl h, fun h => h,
      hq, fun hpre x hx ho => absurd ho (hpre x hx), Or.inl hm⟩
  | cons nbr rest ih =>
    intro e hcore hnb hcv hq hm
    obtain ⟨hPrev, hDom, hVF, hNodup, hSub, hStV⟩ := hcore
    rw [biExpandNbrs]
    by_cases hv : nbr.1 ∈ e.visited
    · rw [if_pos hv]
      exact ih e ⟨hPrev, hDom, hVF, hNodup, hSub, hStV⟩
        (fun p hp => hnb p (List.mem_cons_of_mem _ hp)) hcv hq hm
    · rw [if_neg hv]
      have hnbc : nbr.1 ∈ cities ∧ nbr.1 ≠ "" :=
        hT current nbr (hnb nbr (List.mem_cons_self _ _))
      have hcur_ne : current ≠ "" := by
        intro hc
        rcases mem_pushUniq.1 (hSub current hcv) with h1 | h1
        · exact hne (hc ▸ h1)
        · exact hs0 (hc ▸ h1).symm
      have hsn : start ≠ nbr.1 := fun hh => hv (hh ▸ hStV)
      have hcn : current ≠ nbr.1 := fun hh => hv (hh ▸ hcv)
      have hcp : current = start ∨ ∃ u, e.prev current = some (some u) :=
        hVF current hcv
      have hprev2 : ∀ v, v ≠ nbr.1 →
          updRec e.prev nbr.1 (some current) v = e.prev v := by
        intro v hvn
        unfold updRec
        rw [if_neg hvn]
      have hupd_prev_self :
          updRec e.prev nbr.1 (some current) nbr.1 = some (some current) := by
        unfold updRec
        rw [if_pos rfl]
      have hcore2 : BiCore adj start cities (pushUniq e.visited nbr.1)
          (updRec e.prev nbr.1 (some current)) := by
        refine ⟨⟨?_, hPrev.2.1, ?_⟩, ?_, ?_, nodup_pushUniq hNodup, ?_,
          sub_pushUniq hStV⟩
        · rw [hprev2 start hsn]
          exact hPrev.1
        · intro v u hpv
          by_cases hvn : v = nbr.1
          · rw [hvn, hupd_prev_self] at hpv
            injection hpv with hpv
            injection hpv with hpv
            subst hpv
            refine ⟨hcur_ne, by rw [hvn]; exact hnbc.2,
              ⟨nbr.2, by rw [hvn]; exact hnb nbr (List.mem_cons_self _ _)⟩, ?_, ?_⟩
            · rcases hcp with h1 | ⟨u2, hu2⟩
              · exact Or.inl h1
              · exact Or.inr ⟨u2, by rw [hprev2 current hcn]; exact hu2⟩
            · rw [rkIn_pushUniq_mem hcv, hvn, rkIn_pushUniq_new hv]
              exact rkIn_lt_length hcv
          · rw [hprev2 v hvn] at hpv
            obtain ⟨hu_ne, hv_ne, hadj, hchain, hrk⟩ := hPrev.2.2 v u hpv
            obtain ⟨hvV, huV⟩ := hDom v u hpv
            have hun : u ≠ nbr.1 := fun hh => hv (hh ▸ huV)
            refine ⟨hu_ne, hv_ne, hadj, ?_, ?_⟩
            · rcases hchain with h1 | ⟨u2, hu2⟩
              · exact Or.inl h1
              · exact Or.inr ⟨u2, by rw [hprev2 u hun]; exact hu2⟩
            · rw [rkIn_pushUniq_mem hvV, rkIn_pushUniq_mem huV]
              exact hrk
        · intro v u hpv
          by_cases hvn : v = nbr.1
          · rw [hvn, hupd_prev_self] at hpv
            injection hpv with hpv
            injection hpv with hpv
            subst hpv
            exact ⟨hvn ▸ self_mem_pushUniq, sub_pushUniq hcv⟩
          · rw [hprev2 v hvn] at hpv
            obtain ⟨hvV, huV⟩ := hDom v u hpv
            exact ⟨sub_pushUniq hvV, sub_pushUniq huV⟩
        · intro x hx
          rcases mem_pushUniq.1 hx with h1 | h1
          · rcases hVF x h1 with h2 | ⟨u2, hu2⟩
            · exact Or.inl h2
            · refine Or.inr ⟨u2, ?_⟩
              rw [hprev2 x (fun hh => hv (hh ▸ h1))]
              exact hu2
          · refine Or.inr ⟨current, ?_⟩
            rw [h1]
            exact hupd_prev_self
        · intro x hx
          rcases mem_pushUniq.1 hx with h1 | h1
          · exact hSub x h1
          · exact h1 ▸ mem_pushUniq.2 (Or.inl hnbc.1)
      by_cases ho : nbr.1 ∈ otherVisited
      · rw [if_pos ho]
        refine ⟨hcore2, ?_, ?_, ?_, ?_, ?_, ?_, ?_⟩
        · intro v u hpv
          obtain ⟨hvV, -⟩ := hDom v u hpv
          have hvn : v ≠ nbr.1 := fun hh => hv (hh ▸ hvV)
          show updRec e.prev nbr.1 (some current) v = some (some u)
          rw [hprev2 v hvn]
          exact hpv
        · intro x hx
          exact sub_pushUniq hx
        · intro v u hpv
          have hpv2 : updRec e.prev nbr.1 (some current) v = some (some u) := hpv
          by_cases hvn : v = nbr.1
          · rw [hvn, hupd_prev_self] at hpv2
            injection hpv2 with hpv2
            injection hpv2 with hpv2
            exact Or.inr ⟨hpv2.symm, by simp⟩
          · rw [hprev2 v hvn] at hpv2
            exact Or.inl hpv2
        · intro _
          show (e.waveEdges ++ [(current, nbr.1)]) ≠ []
          simp
        · intro c hc
          have hc2 : c ∈ e.queue ++ [nbr.1] := hc
          rcases List.mem_append.1 hc2 with h1 | h1
          · exact sub_pushUniq (hq c h1)
          · simp only [List.mem_singleton] at h1
            exact h1 ▸ self_mem_pushUniq
        · intro hpre x hx hxo
          have hx2 : x ∈ pushUniq e.visited nbr.1 := hx
          rcases mem_pushUniq.1 hx2 with h1 | h1
          · exact absurd hxo (hpre x h1)
          · show (some nbr.1 : Option City) = some x
            rw [h1]
        · exact Or.inr ⟨nbr.1, rfl, self_mem_pushUniq, ho,
            ⟨current, hupd_prev_self⟩⟩
      · rw [if_neg ho]
        obtain ⟨core3, mono23, vis23, class23, edges23, queue3, disj3, meet3⟩ :=
          ih { visited := pushUniq e.visited nbr.1,
               prev := updRec e.prev nbr.1 (some current),
               dist := updRec e.dist nbr.1 (wdAdd (dval (e.dist current)) nbr.2),
               waveEdges := e.waveEdges ++ [(current, nbr.1)],
               nextWaveNodes := e.nextWaveNodes ++ [nbr.1],
               queue := e.queue ++ [nbr.1],
               meet := e.meet }
            hcore2 (fun p hp => hnb p (List.mem_cons_of_mem _ hp))
            (sub_pushUniq hcv)
            (by
              intro c hc
              rcases List.mem_append.1 hc with h1 | h1
              · exact sub_pushUniq (hq c h1)
              · simp only [List.mem_singleton] at h1
                exact h1 ▸ self_mem_pushUniq)
            hm
        refine ⟨core3, ?_, ?_, ?_, ?_, queue3, ?_, meet3⟩
        · intro v u hpv
          obtain ⟨hvV, -⟩ := hDom v u hpv
          have hvn : v ≠ nbr.1 := fun hh => hv (hh ▸ hvV)
          exact mono23 v u
            (show updRec e.prev nbr.1 (some current) v = some (some u) by
              rw [hprev2 v hvn]; exact hpv)
        · intro x hx
          exact vis23 x (sub_pushUniq hx)
        · intro v u hfinal
          rcases class23 v u hfinal with h1 | h1
          · have h2 : updRec e.prev nbr.1 (some current) v = some (some u) := h1
            by_cases hvn : v = nbr.1
            · rw [hvn, hupd_prev_self] at h2
              injection h2 with h2
              injection h2 with h2
              refine Or.inr ⟨h2.symm, edges23 (by simp)⟩
            · rw [hprev2 v hvn] at h2
              exact Or.inl h2
          · exact Or.inr h1
        · intro hnonempty
          exact edges23 (by simp)
        · intro hpre
          refine disj3 ?_
          intro x hx hxo
          have hx2 : x ∈ pushUniq e.visited nbr.1 := hx
          rcases mem_pushUniq.1 hx2 with h1 | h1
          · exact hpre x h1 hxo
          · exact ho (h1 ▸ hxo)

/-- One full bidirectional wave expansion (stopping at a meeting). -/
theorem biExpandWave_sound {adj : City → List (City × Weight)} {start : City}
    {cities : List City}
    (hT : ∀ (u : City) (p : City × Weight), p ∈ adj u → p.1 ∈ cities ∧ p.1 ≠ "")
    (hne : "" ∉ cities) (hs0 : start ≠ "") {rev : Bool}
    (otherVisited : List City) :
    ∀ (wave : List City) (e : BiExp),
      BiCore adj start cities e.visited e.prev →
      (∀ c ∈ wave, c ∈ e.visited) →
      (∀ c ∈ e.queue, c ∈ e.visited) →
      e.meet = none →
      BiCore adj start cities (biExpandWave adj rev otherVisited wave e).visited
        (biExpandWave adj rev otherVisited wave e).prev ∧
      (∀ v u, e.prev v = some (some u) →
        (biExpandWave adj rev otherVisited wave e).prev v = some (some u)) ∧
      (∀ x ∈ e.visited, x ∈ (biExpandWave adj rev otherVisited wave e).visited) ∧
      (∀ v u, (biExpandWave adj rev otherVisited wave e).prev v = some (some u) →
        e.prev v = some (some u) ∨
          (u ∈ wave ∧ (biExpandWave adj rev otherVisited wave e).waveEdges ≠ [])) ∧
      (e.waveEdges ≠ [] → (biExpandWave adj rev otherVisited wave e).waveEdges ≠ []) ∧
      (∀ c ∈ (biExpandWave adj rev otherVisited wave e).queue,
        c ∈ (biExpandWave adj rev otherVisited wave e).visited) ∧
      ((∀ x ∈ e.visited, x ∉ otherVisited) →
        ∀ x ∈ (biExpandWave adj rev otherVisited wave e).visited, x ∈ otherVisited →
          (biExpandWave adj rev otherVisited wave e).meet = some x) ∧
      ((biExpandWave adj rev otherVisited wave e).meet = none ∨
        ∃ m, (biExpandWave adj rev otherVisited wave e).meet = some m ∧
          m ∈ (biExpandWave adj rev otherVisited wave e).visited ∧
          m ∈ otherVisited ∧
          ∃ u, (biExpandWave adj rev otherVisited wave e).prev m = some (some u)) := by
  intro wave
  induction wave with
  | nil =>
    intro e hcore _ hq hm
    rw [biExpandWave]
    exact ⟨hcore, fun v u h => h, fun x h => h, fun v u h => Or.inl h, fun h => h,
      hq, fun hpre x hx ho => absurd ho (hpre x hx), Or.inl hm⟩
  | cons current restW ih =>
    intro e hcore hw hq hm
    rw [biExpandWave]
    obtain ⟨core1, mono1, vis1, class1, edges1, queue1, disj1, meet1⟩ :=
      biExpandNbrs_sound hT hne hs0 otherVisited current
        (orderNbrs rev (adj current)) e hcore
        (fun p hp => orderNbrs_mem.1 hp) (hw current (List.mem_cons_self _ _))
        hq hm
    by_cases hms :
        (biExpandNbrs otherVisited current (orderNbrs rev (adj current)) e).meet.isSome
           = true
    · rw [if_pos hms]
      refine ⟨core1, mono1, vis1, ?_, edges1, queue1, disj1, meet1⟩
      intro v u hpv
      rcases class1 v u hpv with h1 | ⟨h1, h2⟩
      · exact Or.inl h1
      · exact Or.inr ⟨h1 ▸ List.mem_cons_self _ _, h2⟩
    · rw [if_neg hms]
      have hm2 : (biExpandNbrs otherVisited current
          (orderNbrs rev (adj current)) e).meet = none := by
        cases hmm : (biExpandNbrs otherVisited current
            (orderNbrs rev (adj current)) e).meet with
        | none => rfl
        | some m =>
          rw [hmm] at hms
          simp at hms
      obtain ⟨core2, mono2, vis2, class2, edges2, queue2, disj2, meet2⟩ :=
        ih (biExpandNbrs otherVisited current (orderNbrs rev (adj current)) e)
          core1
          (fun c hc => vis1 c (hw c (List.mem_cons_of_mem _ hc)))
          queue1 hm2
      refine ⟨core2, ?_, ?_, ?_, ?_, queue2, ?_, meet2⟩
      · intro v u h
        exact mono2 v u (mono1 v u h)
      · intro x hx
        exact vis2 x (vis1 x hx)
      · intro v u hfinal
        rcases class2 v u hfinal with h1 | ⟨h1, h2⟩
        · rcases class1 v u h1 with h3 | ⟨h3, h4⟩
          · exact Or.inl h3
          · exact Or.inr ⟨h3 ▸ List.mem_cons_self _ _, edges2 h4⟩
        · exact Or.inr ⟨List.mem_cons_of_mem _ h1, h2⟩
      · intro hnonempty
        exact edges2 (edges1 hnonempty)
      · intro hpre x hx hxo
        refine disj2 ?_ x hx hxo
        intro y hy hyo
        have := disj1 hpre y hy hyo
        rw [hm2] at this
        cases this

/-- The backward half of one bidirectional loop iteration (including the
recursive continuation): from the loop invariant, a meeting result satisfies
`BiOut`. -/
theorem biBack_sound {adj : City → List (City × Weight)} {start endC : City}
    {cities : List City}
    (hT : ∀ (u : City) (p : City × Weight), p ∈ adj u → p.1 ∈ cities ∧ p.1 ≠ "")
    (hne : "" ∉ cities) (he0 : endC ≠ "") {rev : Bool} {fuel : Nat}
    (ih : ∀ (fwdCtr bwdCtr : Nat) (queueF queueB : List City) (st : BiSt),
      BiInv adj start endC cities queueF queueB st →
      ∀ st2 m, biLoop adj rev fuel fwdCtr bwdCtr queueF queueB st = (st2, some m) →
        BiOut adj start endC cities st2 m) :
    ∀ (stA : BiSt) (fwdCtrA bwdCtr : Nat) (queueF2 queueB : List City),
      BiInv adj start endC cities queueF2 queueB stA →
      ∀ stOut m,
        (match
            (if queueB.isEmpty then Sum.inr (stA, bwdCtr, queueB)
             else
               let (currentWaveB, restB, meet0) := takeWaveMeet stA.visitedF queueB
               match meet0 with
               | some mm => Sum.inl (stA, some mm)
               | none =>
                 let e := biExpandWave adj rev stA.visitedF currentWaveB
                   { visited := stA.visitedB, prev := stA.prevB, dist := stA.distB,
                     waveEdges := [], nextWaveNodes := [], queue := restB,
                     meet := none }
                 let st2 : BiSt :=
                   { stA with visitedB := e.visited, prevB := e.prev, distB := e.dist }
                 let pushStep := ¬e.waveEdges.isEmpty
                 let st3 : BiSt :=
                   if pushStep then
                     { st2 with
                       steps := st2.steps ++
                         [{ currentNode := "", visitedEdge := none,
                            currentPath := [], isBacktrack := false,
                            waveNodes := some currentWaveB,
                            waveEdges := some e.waveEdges,
                            nextWaveNodes := some e.nextWaveNodes,
                            waveNumber := some bwdCtr,
                            isBackwardWave := true }] }
                   else st2
                 let bwdCtr2 := if pushStep then bwdCtr + 1 else bwdCtr
                 match e.meet with
                 | some mm => Sum.inl (st3, some mm)
                 | none => Sum.inr (st3, bwdCtr2, e.queue) :
              (BiSt × Option City) ⊕ (BiSt × Nat × List City)) with
          | Sum.inl out => out
          | Sum.inr (stB, bwdCtrB, queueB2) =>
            biLoop adj rev fuel fwdCtrA bwdCtrB queueF2 queueB2 stB) =
          (stOut, some m) →
        BiOut adj start endC cities stOut m := by
  intro stA fwdCtrA bwdCtr queueF2 queueB hinv stOut m h
  obtain ⟨hAF, hAB, hAqF, hAqB, hADisj, hAcovF, hAcovB, hAcovS, hAcovE⟩ := hinv
  by_cases hqb : queueB.isEmpty = true
  · rw [if_pos hqb] at h
    dsimp only at h
    exact ih fwdCtrA bwdCtr queueF2 queueB stA
      ⟨hAF, hAB, hAqF, hAqB, hADisj, hAcovF, hAcovB, hAcovS, hAcovE⟩ stOut m h
  · rw [if_neg hqb] at h
    rcases htwB : takeWaveMeet stA.visitedF queueB with ⟨cwB, restB, meetB⟩
    rw [htwB] at h
    obtain ⟨twB1, twB2, twB3⟩ := takeWaveMeet_spec stA.visitedF queueB
    simp only [htwB] at twB1 twB2 twB3
    cases meetB with
    | some m0 =>
      exfalso
      obtain ⟨hm0q, hm0F⟩ := twB3 m0 rfl
      exact hADisj m0 hm0F (hAqB m0 hm0q)
    | none =>
      dsimp only at h
      obtain ⟨coreB2, monoB2, visB2, classB2, edgesB2, queueB2c, disjB2, meetB2⟩ :=
        biExpandWave_sound hT hne he0 stA.visitedF cwB
          { visited := stA.visitedB, prev := stA.prevB, dist := stA.distB,
            waveEdges := [], nextWaveNodes := [], queue := restB, meet := none }
          hAB (fun c hc => hAqB c (twB1 c hc)) (fun c hc => hAqB c (twB2 c hc)) rfl
      have hdisjpre : ∀ x ∈ stA.visitedB, x ∉ stA.visitedF :=
        fun x hx hxF => hADisj x hxF hx
      by_cases hpB : (biExpandWave adj rev stA.visitedF cwB
            { visited := stA.visitedB, prev := stA.prevB, dist := stA.distB,
              waveEdges := [], nextWaveNodes := [], queue := restB, meet := none }).waveEdges.isEmpty = true
      · have hWe : (biExpandWave adj rev stA.visitedF cwB
            { visited := stA.visitedB, prev := stA.prevB, dist := stA.distB,
              waveEdges := [], nextWaveNodes := [], queue := restB, meet := none }).waveEdges = [] := by
          cases hE2 : (biExpandWave adj rev stA.visitedF cwB
            { visited := stA.visitedB, prev := stA.prevB, dist := stA.distB,
              waveEdges := [], nextWaveNodes := [], queue := restB, meet := none }).waveEdges with
          | nil => rfl
          | cons a t =>
            rw [hE2] at hpB
            simp at hpB
        simp only [if_neg (not_not_intro hpB)] at h
        cases hmB : (biExpandWave adj rev stA.visitedF cwB
            { visited := stA.visitedB, prev := stA.prevB, dist := stA.distB,
              waveEdges := [], nextWaveNodes := [], queue := restB, meet := none }).meet with
        | some m1 =>
          rw [hmB] at h
          dsimp only at h
          injection h with h1 h2
          injection h2 with h2
          subst h2
          subst h1
          rcases meetB2 with hno | ⟨m2, hm2eq, hm2vis, hm2oth, u2, hu2⟩
          · rw [hmB] at hno
            cases hno
          · rw [hmB] at hm2eq
            injection hm2eq with hm2eq
            subst hm2eq
            refine ⟨hAF, coreB2, hm2oth, hm2vis, ?_, hAcovF, ?_, hAcovS, hAcovE⟩
            · intro x hxF hxB
              have := disjB2 hdisjpre x hxB hxF
              rw [hmB] at this
              injection this with this
              exact this.symm
            · intro v u hpv
              rcases classB2 v u hpv with h3 | ⟨h3, h4⟩
              · exact hAcovB v u h3
              · exact absurd hWe h4
        | none =>
          rw [hmB] at h
          dsimp only at h
          refine ih fwdCtrA bwdCtr queueF2 (biExpandWave adj rev stA.visitedF cwB
            { visited := stA.visitedB, prev := stA.prevB, dist := stA.distB,
              waveEdges := [], nextWaveNodes := [], queue := restB, meet := none }).queue
            { stA with visitedB := (biExpandWave adj rev stA.visitedF cwB
            { visited := stA.visitedB, prev := stA.prevB, dist := stA.distB,
              waveEdges := [], nextWaveNodes := [], queue := restB, meet := none }).visited, prevB := (biExpandWave adj rev stA.visitedF cwB
            { visited := stA.visitedB, prev := stA.prevB, dist := stA.distB,
              waveEdges := [], nextWaveNodes := [], queue := restB, meet := none }).prev, distB := (biExpandWave adj rev stA.visitedF cwB
            { visited := stA.visitedB, prev := stA.prevB, dist := stA.distB,
              waveEdges := [], nextWaveNodes := [], queue := restB, meet := none }).dist }
            ⟨hAF, coreB2, hAqF, queueB2c, ?_, hAcovF, ?_, hAcovS, hAcovE⟩
            stOut m h
          · intro x hxF hxB
            have := disjB2 hdisjpre x hxB hxF
            rw [hmB] at this
            cases this
          · intro v u hpv
            rcases classB2 v u hpv with h3 | ⟨h3, h4⟩
            · exact hAcovB v u h3
            · exact absurd hWe h4
      · simp only [if_pos hpB] at h
        have hnew_cov : ∀ u ∈ cwB,
            covStep (stA.steps ++
              [{ currentNode := "", visitedEdge := none, currentPath := [],
                 isBacktrack := false, waveNodes := some cwB,
                 waveEdges := some (biExpandWave adj rev stA.visitedF cwB
            { visited := stA.visitedB, prev := stA.prevB, dist := stA.distB,
              waveEdges := [], nextWaveNodes := [], queue := restB, meet := none }).waveEdges,
                 nextWaveNodes := some (biExpandWave adj rev stA.visitedF cwB
            { visited := stA.visitedB, prev := stA.prevB, dist := stA.distB,
              waveEdges := [], nextWaveNodes := [], queue := restB, meet := none }).nextWaveNodes,
                 waveNumber := some bwdCtr, isBackwardWave := true }]) u := by
          intro u hu
          exact ⟨_, List.mem_append.2 (Or.inr (List.mem_cons_self _ _)),
            Or.inl ⟨cwB, rfl, rfl, hu⟩⟩
        cases hmB : (biExpandWave adj rev stA.visitedF cwB
            { visited := stA.visitedB, prev := stA.prevB, dist := stA.distB,
              waveEdges := [], nextWaveNodes := [], queue := restB, meet := none }).meet with
        | some m1 =>
          rw [hmB] at h
          dsimp only at h
          injection h with h1 h2
          injection h2 with h2
          subst h2
          subst h1
          rcases meetB2 with hno | ⟨m2, hm2eq, hm2vis, hm2oth, u2, hu2⟩
          · rw [hmB] at hno
            cases hno
          · rw [hmB] at hm2eq
            injection hm2eq with hm2eq
            subst hm2eq
            refine ⟨hAF, coreB2, hm2oth, hm2vis, ?_, ?_, ?_, covStep_mono hAcovS,
              covStep_mono hAcovE⟩
            · intro x hxF hxB
              have := disjB2 hdisjpre x hxB hxF
              rw [hmB] at this
              injection this with this
              exact this.symm
            · intro v u hpv
              exact covStep_mono (hAcovF v u hpv)
            · intro v u hpv
              rcases classB2 v u hpv with h3 | ⟨h3, h4⟩
              · exact covStep_mono (hAcovB v u h3)
              · exact hnew_cov u h3
        | none =>
          rw [hmB] at h
          dsimp only at h
          refine ih (fwdCtrA) (bwdCtr + 1) queueF2 (biExpandWave adj rev stA.visitedF cwB
            { visited := stA.visitedB, prev := stA.prevB, dist := stA.distB,
              waveEdges := [], nextWaveNodes := [], queue := restB, meet := none }).queue
            { visitedF := stA.visitedF, visitedB := (biExpandWave adj rev stA.visitedF cwB
            { visited := stA.visitedB, prev := stA.prevB, dist := stA.distB,
              waveEdges := [], nextWaveNodes := [], queue := restB, meet := none }).visited,
              prevF := stA.prevF, prevB := (biExpandWave adj rev stA.visitedF cwB
            { visited := stA.visitedB, prev := stA.prevB, dist := stA.distB,
              waveEdges := [], nextWaveNodes := [], queue := restB, meet := none }).prev, distF := stA.distF,
              distB := (biExpandWave adj rev stA.visitedF cwB
            { visited := stA.visitedB, prev := stA.prevB, dist := stA.distB,
              waveEdges := [], nextWaveNodes := [], queue := restB, meet := none }).dist,
              steps := stA.steps ++
                [{ currentNode := "", visitedEdge := none, currentPath := [],
                   isBacktrack := false, waveNodes := some cwB,
                   waveEdges := some (biExpandWave adj rev stA.visitedF cwB
            { visited := stA.visitedB, prev := stA.prevB, dist := stA.distB,
              waveEdges := [], nextWaveNodes := [], queue := restB, meet := none }).waveEdges,
                   nextWaveNodes := some (biExpandWave adj rev stA.visitedF cwB
            { visited := stA.visitedB, prev := stA.prevB, dist := stA.distB,
              waveEdges := [], nextWaveNodes := [], queue := restB, meet := none }).nextWaveNodes,
                   waveNumber := some bwdCtr, isBackwardWave := true }] }
            ⟨hAF, coreB2, hAqF, queueB2c, ?_, ?_, ?_, covStep_mono hAcovS,
              covStep_mono hAcovE⟩ stOut m h
          · intro x hxF hxB
            have := disjB2 hdisjpre x hxB hxF
            rw [hmB] at this
            cases this
          · intro v u hpv
            exact covStep_mono (hAcovF v u hpv)
          · intro v u hpv
            rcases classB2 v u hpv with h3 | ⟨h3, h4⟩
            · exact covStep_mono (hAcovB v u h3)
            · exact hnew_cov u h3

/-- Soundness induction of the bidirectional wave loop. -/
theorem biLoop_sound {adj : City → List (City × Weight)} {start endC : City}
    {cities : List City}
    (hT : ∀ (u : City) (p : City × Weight), p ∈ adj u → p.1 ∈ cities ∧ p.1 ≠ "")
    (hne : "" ∉ cities) (hs0 : start ≠ "") (he0 : endC ≠ "") {rev : Bool} :
    ∀ (fuel fwdCtr bwdCtr : Nat) (queueF queueB : List City) (st : BiSt),
      BiInv adj start endC cities queueF queueB st →
      ∀ st2 m, biLoop adj rev fuel fwdCtr bwdCtr queueF queueB st = (st2, some m) →
        BiOut adj start endC cities st2 m := by
  intro fuel
  induction fuel with
  | zero =>
    intro fwdCtr bwdCtr queueF queueB st _ st2 m h
    rw [biLoop] at h
    cases h
  | succ f ih =>
    intro fwdCtr bwdCtr queueF queueB st hinv st2 m h
    obtain ⟨hF, hB, hqF, hqB, hDisj, hcovF, hcovB, hcovS, hcovE⟩ := hinv
    rw [biLoop] at h
    by_cases hqq : queueF.isEmpty = true ∧ queueB.isEmpty = true
    · rw [if_pos hqq] at h
      cases h
    · rw [if_neg hqq] at h
      dsimp only at h
      by_cases hqf : queueF.isEmpty = true
      · rw [if_pos hqf] at h
        dsimp only at h
        exact biBack_sound hT hne he0 ih st fwdCtr bwdCtr queueF queueB
          ⟨hF, hB, hqF, hqB, hDisj, hcovF, hcovB, hcovS, hcovE⟩ st2 m h
      · rw [if_neg hqf] at h
        rcases htwF : takeWaveMeet st.visitedB queueF with ⟨cwF, restF, meetF⟩
        rw [htwF] at h
        obtain ⟨twF1, twF2, twF3⟩ := takeWaveMeet_spec st.visitedB queueF
        simp only [htwF] at twF1 twF2 twF3
        cases meetF with
        | some m0 =>
          exfalso
          obtain ⟨hm0q, hm0B⟩ := twF3 m0 rfl
          exact hDisj m0 (hqF m0 hm0q) hm0B
        | none =>
          dsimp only at h
          obtain ⟨coreF2, monoF2, visF2, classF2, edgesF2, queueF2c, disjF2,
              meetF2⟩ :=
            biExpandWave_sound hT hne hs0 st.visitedB cwF
              { visited := st.visitedF, prev := st.prevF, dist := st.distF,
                waveEdges := [], nextWaveNodes := [], queue := restF, meet := none }
              hF (fun c hc => hqF c (twF1 c hc)) (fun c hc => hqF c (twF2 c hc)) rfl
          have hdisjpreF : ∀ x ∈ st.visitedF, x ∉ st.visitedB :=
            fun x hx hxB => hDisj x hx hxB
          by_cases hpF : (biExpandWave adj rev st.visitedB cwF
              { visited := st.visitedF, prev := st.prevF, dist := st.distF,
                waveEdges := [], nextWaveNodes := [], queue := restF, meet := none }).waveEdges.isEmpty = true
          · have hWe : (biExpandWave adj rev st.visitedB cwF
              { visited := st.visitedF, prev := st.prevF, dist := st.distF,
                waveEdges := [], nextWaveNodes := [], queue := restF, meet := none }).waveEdges = [] := by
              cases hE2 : (biExpandWave adj rev st.visitedB cwF
              { visited := st.visitedF, prev := st.prevF, dist := st.distF,
                waveEdges := [], nextWaveNodes := [], queue := restF, meet := none }).waveEdges with
              | nil => rfl
              | cons a t =>
                rw [hE2] at hpF
                simp at hpF
            simp only [if_neg (not_not_intro hpF)] at h
            cases hmF : (biExpandWave adj rev st.visitedB cwF
              { visited := st.visitedF, prev := st.prevF, dist := st.distF,
                waveEdges := [], nextWaveNodes := [], queue := restF, meet := none }).meet with
            | some m1 =>
              rw [hmF] at h
              dsimp only at h
              injection h with h1 h2
              injection h2 with h2
              subst h2
              subst h1
              rcases meetF2 with hno | ⟨m2, hm2eq, hm2vis, hm2oth, u2, hu2⟩
              · rw [hmF] at hno
                cases hno
              · rw [hmF] at hm2eq
                injection hm2eq with hm2eq
                subst hm2eq
                refine ⟨coreF2, hB, hm2vis, hm2oth, ?_, ?_, hcovB, hcovS, hcovE⟩
                · intro x hxF hxB
                  have := disjF2 hdisjpreF x hxF hxB
                  rw [hmF] at this
                  injection this with this
                  exact this.symm
                · intro v u hpv
                  rcases classF2 v u hpv with h3 | ⟨h3, h4⟩
                  · exact hcovF v u h3
                  · exact absurd hWe h4
            | none =>
              rw [hmF] at h
              dsimp only at h
              refine biBack_sound hT hne he0 ih
                { st with visitedF := (biExpandWave adj rev st.visitedB cwF
              { visited := st.visitedF, prev := st.prevF, dist := st.distF,
                waveEdges := [], nextWaveNodes := [], queue := restF, meet := none }).visited, prevF := (biExpandWave adj rev st.visitedB cwF
              { visited := st.visitedF, prev := st.prevF, dist := st.distF,
                waveEdges := [], nextWaveNodes := [], queue := restF, meet := none }).prev, distF := (biExpandWave adj rev st.visitedB cwF
              { visited := st.visitedF, prev := st.prevF, dist := st.distF,
                waveEdges := [], nextWaveNodes := [], queue := restF, meet := none }).dist }
                fwdCtr bwdCtr (biExpandWave adj rev st.visitedB cwF
              { visited := st.visitedF, prev := st.prevF, dist := st.distF,
                waveEdges := [], nextWaveNodes := [], queue := restF, meet := none }).queue queueB
                ⟨coreF2, hB, queueF2c, hqB, ?_, ?_, hcovB, hcovS, hcovE⟩ st2 m h
              · intro x hxF hxB
                have := disjF2 hdisjpreF x hxF hxB
                rw [hmF] at this
                cases this
              · intro v u hpv
                rcases classF2 v u hpv with h3 | ⟨h3, h4⟩
                · exact hcovF v u h3
                · exact absurd hWe h4
          · simp only [if_pos hpF] at h
            have hnew_covF : ∀ u ∈ cwF,
                covStep (st.steps ++
                  [{ currentNode := "", visitedEdge := none, currentPath := [],
                     isBacktrack := false, waveNodes := some cwF,
                     waveEdges := some (biExpandWave adj rev st.visitedB cwF
              { visited := st.visitedF, prev := st.prevF, dist := st.distF,
                waveEdges := [], nextWaveNodes := [], queue := restF, meet := none }).waveEdges,
                     nextWaveNodes := some (biExpandWave adj rev st.visitedB cwF
              { visited := st.visitedF, prev := st.prevF, dist := st.distF,
                waveEdges := [], nextWaveNodes := [], queue := restF, meet := none }).nextWaveNodes,
                     waveNumber := some fwdCtr }]) u := by
              intro u hu
              exact ⟨_, List.mem_append.2 (Or.inr (List.mem_cons_self _ _)),
                Or.inl ⟨cwF, rfl, rfl, hu⟩⟩
            cases hmF : (biExpandWave adj rev st.visitedB cwF
              { visited := st.visitedF, prev := st.prevF, dist := st.distF,
                waveEdges := [], nextWaveNodes := [], queue := restF, meet := none }).meet with
            | some m1 =>
              rw [hmF] at h
              dsimp only at h
              injection h with h1 h2
              injection h2 with h2
              subst h2
              subst h1
              rcases meetF2 with hno | ⟨m2, hm2eq, hm2vis, hm2oth, u2, hu2⟩
              · rw [hmF] at hno
                cases hno
              · rw [hmF] at hm2eq
                injection hm2eq with hm2eq
                subst hm2eq
                refine ⟨coreF2, hB, hm2vis, hm2oth, ?_, ?_, ?_,
                  covStep_mono hcovS, covStep_mono hcovE⟩
                · intro x hxF hxB
                  have := disjF2 hdisjpreF x hxF hxB
                  rw [hmF] at this
                  injection this with this
                  exact this.symm
                · intro v u hpv
                  rcases classF2 v u hpv with h3 | ⟨h3, h4⟩
                  · exact covStep_mono (hcovF v u h3)
                  · exact hnew_covF u h3
                · intro v u hpv
                  exact covStep_mono (hcovB v u hpv)
            | none =>
              rw [hmF] at h
              dsimp only at h
              refine biBack_sound hT hne he0 ih
                { visitedF := (biExpandWave adj rev st.visitedB cwF
              { visited := st.visitedF, prev := st.prevF, dist := st.distF,
                waveEdges := [], nextWaveNodes := [], queue := restF, meet := none }).visited, visitedB := st.visitedB,
                  prevF := (biExpandWave adj rev st.visitedB cwF
              { visited := st.visitedF, prev := st.prevF, dist := st.distF,
                waveEdges := [], nextWaveNodes := [], queue := restF, meet := none }).prev, prevB := st.prevB,
                  distF := (biExpandWave adj rev st.visitedB cwF
              { visited := st.visitedF, prev := st.prevF, dist := st.distF,
                waveEdges := [], nextWaveNodes := [], queue := restF, meet := none }).dist, distB := st.distB,
                  steps := st.steps ++
                    [{ currentNode := "", visitedEdge := none, currentPath := [],
                       isBacktrack := false, waveNodes := some cwF,
                       waveEdges := some (biExpandWave adj rev st.visitedB cwF
              { visited := st.visitedF, prev := st.prevF, dist := st.distF,
                waveEdges := [], nextWaveNodes := [], queue := restF, meet := none }).waveEdges,
                       nextWaveNodes := some (biExpandWave adj rev st.visitedB cwF
              { visited := st.visitedF, prev := st.prevF, dist := st.distF,
                waveEdges := [], nextWaveNodes := [], queue := restF, meet := none }).nextWaveNodes,
                       waveNumber := some fwdCtr }] }
                (fwdCtr + 1) bwdCtr (biExpandWave adj rev st.visitedB cwF
              { visited := st.visitedF, prev := st.prevF, dist := st.distF,
                waveEdges := [], nextWaveNodes := [], queue := restF, meet := none }).queue queueB
                ⟨coreF2, hB, queueF2c, hqB, ?_, ?_, ?_,
                  covStep_mono hcovS, covStep_mono hcovE⟩ st2 m h
              · intro x hxF hxB
                have := disjF2 hdisjpreF x hxF hxB
                rw [hmF] at this
                cases this
              · intro v u hpv
                rcases classF2 v u hpv with h3 | ⟨h3, h4⟩
                · exact covStep_mono (hcovF v u h3)
                · exact hnew_covF u h3
              · intro v u hpv
                exact covStep_mono (hcovB v u hpv)

/-- Engine-level Bidirectional Wave soundness (registered endpoints): a
successful run returns a duplicate-free path from the start to the end whose
consecutive pairs are live edges (in either endpoint order), and every path
node is marked visited by replaying the trace. -/
theorem performBidirectionalWave_sound {cities : List City}
    {links : List GraphLink} {rev : Bool} {startCity endCity : City}
    {r : PathResult} {tr : List AnimationStep}
    (wf : GraphWF cities links) (hs : startCity ∈ cities) (hec : endCity ∈ cities)
    (h : performBidirectionalWave cities links rev startCity endCity =
      (some r, tr)) :
    r.path.head? = some startCity ∧ r.path.getLast? = some endCity ∧
    (∀ pr ∈ pathPairs r.path, isLiveEdge links pr.1 pr.2 = true) ∧
    r.path.Nodup ∧
    (∀ x ∈ r.path, x ∈ foldVisited tr) := by
  rw [performBidirectionalWave] at h
  by_cases hg : startCity = "" ∨ endCity = "" ∨ startCity = endCity
  · rw [if_pos hg] at h
    cases h
  · rw [if_neg hg] at h
    dsimp only at h
    have hs0 : startCity ≠ "" := fun hh => hg (Or.inl hh)
    have he0 : endCity ≠ "" := fun hh => hg (Or.inr (Or.inl hh))
    have hse : startCity ≠ endCity := fun hh => hg (Or.inr (Or.inr hh))
    have hT : ∀ (u : City) (p : City × Weight),
        p ∈ buildAdjacencyList cities links rev u → p.1 ∈ cities ∧ p.1 ≠ "" :=
      fun u p hp => ⟨adj_target_mem_cities wf hp, adj_target_ne_empty wf hp⟩
    rcases hbl : biLoop (buildAdjacencyList cities links rev) rev
        (searchFuel cities links) 0 0 [startCity] [endCity]
        { visitedF := [startCity], visitedB := [endCity],
          prevF := fun c => if c ∈ cities then some none else none,
          prevB := fun c => if c ∈ cities then some none else none,
          distF := fun c => if c ∈ cities then some (if c = startCity then some 0 else none) else none,
          distB := fun c => if c ∈ cities then some (if c = endCity then some 0 else none) else none,
          steps := [{ currentNode := startCity, visitedEdge := none, currentPath := [startCity], isBacktrack := false, waveNodes := some [startCity], waveEdges := some [], nextWaveNodes := some [] },
            { currentNode := endCity, visitedEdge := none, currentPath := [endCity], isBacktrack := false, waveNodes := some [endCity], waveEdges := some [], nextWaveNodes := some [] }] } with ⟨stL, meetRes⟩
    rw [hbl] at h
    cases meetRes with
    | none =>
      dsimp only at h
      cases h
    | some meetingNode =>
      dsimp only at h
      have hnp : ∀ v u : City,
          (fun c => if c ∈ cities then some none else none) v = some (some u) →
            False := by
        intro v u hv
        dsimp only at hv
        split at hv
        · cases hv
        · cases hv
      have hcore0 : ∀ (o : City), o ∈ cities → o ≠ "" →
          BiCore (buildAdjacencyList cities links rev) o cities [o]
            (fun c => if c ∈ cities then some none else none) := by
        intro o ho hone
        refine ⟨⟨by dsimp only; rw [if_pos ho], hone, fun v u hv => absurd hv (by
            intro hv
            exact hnp v u hv)⟩,
          fun v u hv => absurd hv (by
            intro hv
            exact hnp v u hv),
          ?_, by simp, ?_, List.mem_singleton_self _⟩
        · intro x hx
          simp only [List.mem_singleton] at hx
          exact Or.inl hx
        · intro x hx
          simp only [List.mem_singleton] at hx
          rw [hx]
          exact mem_pushUniq.2 (Or.inl ho)
      obtain ⟨hFo, hBo, hmF, hmB, hdisj, hcovFo, hcovBo, hcovSo, hcovEo⟩ :=
        biLoop_sound hT wf.1 hs0 he0 (searchFuel cities links) 0 0
          [startCity] [endCity] _
          ⟨hcore0 startCity hs hs0, hcore0 endCity hec he0,
            fun c hc => hc, fun c hc => hc,
            (by
              intro x hx hx2
              simp only [List.mem_singleton] at hx hx2
              exact hse (hx ▸ hx2)),
            fun v u hv => absurd hv (by
              intro hv
              exact hnp v u hv),
            fun v u hv => absurd hv (by
              intro hv
              exact hnp v u hv),
            ⟨{ currentNode := startCity, visitedEdge := none, currentPath := [startCity], isBacktrack := false, waveNodes := some [startCity], waveEdges := some [], nextWaveNodes := some [] },
              List.mem_cons_self _ _,
              Or.inl ⟨[startCity], rfl, rfl, List.mem_singleton_self _⟩⟩,
            ⟨{ currentNode := endCity, visitedEdge := none, currentPath := [endCity], isBacktrack := false, waveNodes := some [endCity], waveEdges := some [], nextWaveNodes := some [] },
              List.mem_cons_of_mem _ (List.mem_cons_self _ _),
              Or.inl ⟨[endCity], rfl, rfl, List.mem_singleton_self _⟩⟩⟩
          stL meetingNode hbl
      injection h with h1 h2
      injection h1 with h1
      subst h2
      subst h1
      have hm_ne : meetingNode ≠ "" := by
        intro hmm
        rcases mem_pushUniq.1 (hFo.2.2.2.2.1 meetingNode hmF) with h3 | h3
        · exact wf.1 (hmm ▸ h3)
        · exact hs0 (hmm ▸ h3).symm
      have hlenF : stL.visitedF.length ≤ cities.length + 1 := by
        have h2 :=
          (hFo.2.2.2.1.subperm (fun x hx => hFo.2.2.2.2.1 x hx)).length_le
        have h3 := pushUniq_length_le (l := cities) (c := startCity)
        omega
      have hlenB : stL.visitedB.length ≤ cities.length + 1 := by
        have h2 :=
          (hBo.2.2.2.1.subperm (fun x hx => hBo.2.2.2.2.1 x hx)).length_le
        have h3 := pushUniq_length_le (l := cities) (c := endCity)
        omega
      obtain ⟨p1, hp1eq, h1head, h1last, h1pp, h1chain, h1dom⟩ :=
        walkPrev_spec hFo.1 (searchFuel cities links) meetingNode []
          (hFo.2.2.1 meetingNode hmF) hm_ne
          (by
            have := rkIn_lt_length hmF
            unfold searchFuel
            omega)
      rw [List.append_nil] at hp1eq
      have hp1ne : p1 ≠ [] := by
        intro hnil
        rw [hnil] at h1head
        cases h1head
      have h1sub : ∀ x ∈ p1, x ∈ stL.visitedF := by
        intro x hx
        rcases h1dom x hx with h3 | ⟨u2, hu2⟩
        · exact h3 ▸ hFo.2.2.2.2.2
        · exact (hFo.2.1 x u2 hu2).1
      have h1live : ∀ pr ∈ pathPairs p1, isLiveEdge links pr.1 pr.2 = true := by
        intro pr hpr
        exact adjHas_isLiveEdge (prevChain_adj hFo.1 h1pp pr hpr)
      have hcovtr : ∀ (extra : List AnimationStep) (x : City),
          covStep stL.steps x → x ∈ foldVisited (stL.steps ++ extra) :=
        fun extra x hx => covStep_foldVisited (covStep_mono hx)
      have hmcov : ∀ rest : List AnimationStep,
          covStep (stL.steps ++
            ({ currentNode := meetingNode, visitedEdge := none, currentPath := [], isBacktrack := false, waveNodes := some [meetingNode], waveEdges := some [], nextWaveNodes := some [] } :: rest))
            meetingNode :=
        fun rest =>
          ⟨_, List.mem_append.2 (Or.inr (List.mem_cons_self _ _)),
            Or.inl ⟨[meetingNode], rfl, rfl, List.mem_singleton_self _⟩⟩
      have h1cov : ∀ x ∈ p1, covStep stL.steps x ∨ x = meetingNode := by
        intro x hx
        by_cases hxm : x = meetingNode
        · exact Or.inr hxm
        · obtain ⟨y, hxy⟩ := pathPairs_mem_of_ne_last h1last hx hxm
          exact Or.inl (hcovFo y x (h1pp (x, y) hxy))
      cases hpbm : stL.prevB meetingNode with
      | none =>
        have hmend : meetingNode = endCity := by
          rcases hBo.2.2.1 meetingNode hmB with h3 | ⟨u2, hu2⟩
          · exact h3
          · rw [hpbm] at hu2
            cases hu2
        simp only [hpbm]
        refine ⟨?_, ?_, ?_, ?_, ?_⟩
        · show (walkPrev stL.prevF (searchFuel cities links) meetingNode [] ++
            ([] : List City)).head? = some startCity
          rw [List.append_nil, hp1eq]
          exact h1head
        · show (walkPrev stL.prevF (searchFuel cities links) meetingNode [] ++
            ([] : List City)).getLast? = some endCity
          rw [List.append_nil, hp1eq, h1last, hmend]
        · intro pr hpr
          rw [show (walkPrev stL.prevF (searchFuel cities links) meetingNode [] ++
              ([] : List City)) = p1 by rw [List.append_nil, hp1eq]] at hpr
          exact h1live pr hpr
        · show (walkPrev stL.prevF (searchFuel cities links) meetingNode [] ++
            ([] : List City)).Nodup
          rw [List.append_nil, hp1eq]
          exact chain'_rk_nodup h1chain
        · intro x hx
          rw [show (walkPrev stL.prevF (searchFuel cities links) meetingNode [] ++
              ([] : List City)) = p1 by rw [List.append_nil, hp1eq]] at hx
          rcases h1cov x hx with h3 | h3
          · exact hcovtr _ x h3
          · subst h3
            exact covStep_foldVisited (hmcov _)
      | some o =>
        cases o with
        | none =>
          have hmend : meetingNode = endCity := by
            rcases hBo.2.2.1 meetingNode hmB with h3 | ⟨u2, hu2⟩
            · exact h3
            · rw [hpbm] at hu2
              cases hu2
          simp only [hpbm]
          refine ⟨?_, ?_, ?_, ?_, ?_⟩
          · show (walkPrev stL.prevF (searchFuel cities links) meetingNode [] ++
              ([] : List City)).head? = some startCity
            rw [List.append_nil, hp1eq]
            exact h1head
          · show (walkPrev stL.prevF (searchFuel cities links) meetingNode [] ++
              ([] : List City)).getLast? = some endCity
            rw [List.append_nil, hp1eq, h1last, hmend]
          · intro pr hpr
            rw [show (walkPrev stL.prevF (searchFuel cities links) meetingNode []
                ++ ([] : List City)) = p1 by rw [List.append_nil, hp1eq]] at hpr
            exact h1live pr hpr
          · show (walkPrev stL.prevF (searchFuel cities links) meetingNode [] ++
              ([] : List City)).Nodup
            rw [List.append_nil, hp1eq]
            exact chain'_rk_nodup h1chain
          · intro x hx
            rw [show (walkPrev stL.prevF (searchFuel cities links) meetingNode []
                ++ ([] : List City)) = p1 by rw [List.append_nil, hp1eq]] at hx
            rcases h1cov x hx with h3 | h3
            · exact hcovtr _ x h3
            · subst h3
              exact covStep_foldVisited (hmcov _)
        | some c =>
          obtain ⟨hc_ne, hm_ne2, hadjBc, hchainBc, hrkBc⟩ :=
            hBo.1.2.2 meetingNode c hpbm
          have hcB : c ∈ stL.visitedB := (hBo.2.1 meetingNode c hpbm).2
          obtain ⟨h2head, h2last, h2pp, h2chain, h2dom⟩ :=
            walkFwd_spec hBo.1 (searchFuel cities links) c hchainBc hc_ne
              (by
                have := rkIn_lt_length hcB
                unfold searchFuel
                omega)
          have hp2ne : walkFwd stL.prevB (searchFuel cities links) c ≠ [] := by
            intro hnil
            rw [hnil] at h2head
            cases h2head
          have h2sub : ∀ x ∈ walkFwd stL.prevB (searchFuel cities links) c,
              x ∈ stL.visitedB := by
            intro x hx
            rcases h2dom x hx with h3 | ⟨u2, hu2⟩
            · exact h3 ▸ hBo.2.2.2.2.2
            · exact (hBo.2.1 x u2 hu2).1
          have h2cov : ∀ x ∈ walkFwd stL.prevB (searchFuel cities links) c,
              covStep stL.steps x := by
            intro x hx
            by_cases hxc : x = c
            · exact hxc ▸ hcovBo meetingNode c hpbm
            · obtain ⟨y, hxy⟩ := pathPairs_mem_of_ne_head h2head hx hxc
              exact hcovBo y x (h2pp (y, x) hxy)
          have hmnotp2 : meetingNode ∉ walkFwd stL.prevB (searchFuel cities links) c := by
            intro hmem
            have h3 := chain'_desc_head_max h2chain c h2head meetingNode hmem
            omega
          simp only [hpbm]
          have hpairs : pathPairs (walkPrev stL.prevF (searchFuel cities links)
              meetingNode [] ++ walkFwd stL.prevB (searchFuel cities links) c) =
              pathPairs p1 ++ (meetingNode, c) ::
                pathPairs (walkFwd stL.prevB (searchFuel cities links) c) := by
            rw [hp1eq]
            exact pathPairs_append h2head h1last
          refine ⟨?_, ?_, ?_, ?_, ?_⟩
          · rw [hp1eq, List.head?_append_of_ne_nil _ hp1ne]
            exact h1head
          · rw [hp1eq, List.getLast?_append_of_ne_nil _ hp2ne]
            exact h2last
          · intro pr hpr
            rw [hpairs] at hpr
            rcases List.mem_append.1 hpr with h3 | h3
            · exact h1live pr h3
            · rcases List.mem_cons.1 h3 with h4 | h4
              · rw [h4]
                exact isLiveEdge_symm (adjHas_isLiveEdge hadjBc)
              · have h5 := h2pp pr h4
                obtain ⟨-, -, hadj2, -, -⟩ := hBo.1.2.2 pr.1 pr.2 h5
                exact isLiveEdge_symm (adjHas_isLiveEdge hadj2)
          · rw [hp1eq, List.nodup_append]
            refine ⟨chain'_rk_nodup h1chain, chain'_rk_nodup_desc h2chain, ?_⟩
            intro x hx1 hx2
            have hxF : x ∈ stL.visitedF := h1sub x hx1
            have hxB : x ∈ stL.visitedB := h2sub x hx2
            have hxm : x = meetingNode := hdisj x hxF hxB
            exact hmnotp2 (hxm ▸ hx2)
          · intro x hx
            rw [hp1eq] at hx
            rcases List.mem_append.1 hx with h3 | h3
            · rcases h1cov x h3 with h4 | h4
              · exact hcovtr _ x h4
              · subst h4
                exact covStep_foldVisited (hmcov _)
            · exact hcovtr _ x (h2cov x h3)

/-- Soundness induction for the DFS closure: under the activation
precondition the run only grows the step trace and the visited set, never
marks the target visited, and a successful return satisfies `DfsSuccess`. -/
theorem dfsStep_sound (adj : City → List (City × Weight)) (rev : Bool)
    (start target : City) :
    ∀ (fuel : Nat) (call : DfsCall) (st : DfsSt) (res : Option (List City))
      (st2 : DfsSt),
      DfsPre adj start target call st →
      dfsStep adj rev target fuel call st = (res, st2) →
      (∀ s ∈ st.steps, s ∈ st2.steps) ∧
      (∀ x ∈ st.visited, x ∈ st2.visited) ∧
      target ∉ st2.visited ∧
      (∀ p, res = some p → DfsSuccess adj start target p st2) := by
  intro fuel
  induction fuel with
  | zero =>
    intro call st res st2 hpre h
    rw [dfsStep] at h
    injection h with h1 h2
    subst h1
    subst h2
    have htv : target ∉ st.visited := by
      cases call with
      | node current cp cd => exact hpre.2.2.2.2.2.1
      | loop current cp cd nbrs => exact hpre.2.2.2.2.2.1
    exact ⟨fun s hs => hs, fun x hx => hx, htv, fun p hp => by cases hp⟩
  | succ fuel ih =>
    intro call st res st2 hpre h
    cases call with
    | node current cp cd =>
      obtain ⟨hA1, hA2, hA3, hA4, hA5, hA6, hA7, hA8, hA9⟩ := hpre
      rw [dfsStep] at h
      by_cases hct : current = target
      · rw [if_pos hct] at h
        injection h with h1 h2
        subst h2
        subst h1
        refine ⟨fun s hs => hs, fun x hx => hx, hA6, ?_⟩
        intro p hp
        injection hp with hp
        subst hp
        refine ⟨hA2, ?_, hA1, hA3, ⟨cd, hA7, hA8 hct⟩, ?_⟩
        · rw [List.getLast?_concat, hct]
        · intro x hx hxt
          rcases List.mem_append.1 hx with h1 | h1
          · exact hA9 x h1
          · simp at h1
            exact absurd (h1.trans hct) hxt
      · rw [if_neg hct] at h
        dsimp only at h
        rcases hres : dfsStep adj rev target fuel
            (DfsCall.loop current (cp ++ [current]) cd (orderNbrs rev (adj current)))
            { visited := pushUniq st.visited current,
              steps := st.steps ++
                [{ currentNode := current, visitedEdge := none,
                   currentPath := cp, isBacktrack := false }],
              distanceMap := st.distanceMap } with ⟨res1, stm⟩
        rw [hres] at h
        have hpre1 : DfsPre adj start target
            (DfsCall.loop current (cp ++ [current]) cd (orderNbrs rev (adj current)))
            { visited := pushUniq st.visited current,
              steps := st.steps ++
                [{ currentNode := current, visitedEdge := none,
                   currentPath := cp, isBacktrack := false }],
              distanceMap := st.distanceMap } := by
          refine ⟨hA1, hA2, hA3, ?_, List.getLast?_concat _, ?_, hA7, ?_, ?_⟩
          · intro x hx
            rcases List.mem_append.1 hx with h1 | h1
            · exact sub_pushUniq (hA4 x h1)
            · simp at h1
              exact mem_pushUniq.2 (Or.inr h1)
          · intro hmem
            rcases mem_pushUniq.1 hmem with h1 | h1
            · exact hA6 h1
            · exact hct h1.symm
          · exact fun p hp => orderNbrs_mem.1 hp
          · intro x hx
            rcases List.mem_append.1 hx with h1 | h1
            · obtain ⟨s, hs1, hs2, hs3⟩ := hA9 x h1
              exact ⟨s, List.mem_append.2 (Or.inl hs1), hs2, hs3⟩
            · simp at h1
              exact ⟨_, List.mem_append.2 (Or.inr (List.mem_cons_self _ _)), rfl, h1.symm⟩
        obtain ⟨hm1, hm2, hm3, hm4⟩ := ih _ _ _ _ hpre1 hres
        cases res1 with
        | some p =>
          dsimp only at h
          injection h with h1 h2
          subst h2
          subst h1
          refine ⟨?_, ?_, hm3, ?_⟩
          · intro s hs
            exact hm1 s (List.mem_append.2 (Or.inl hs))
          · intro x hx
            exact hm2 x (sub_pushUniq hx)
          · intro p2 hp2
            injection hp2 with hp2
            subst hp2
            exact hm4 _ rfl
        | none =>
          dsimp only at h
          injection h with h1 h2
          subst h1
          subst h2
          refine ⟨?_, ?_, hm3, ?_⟩
          · intro s hs
            exact List.mem_append.2 (Or.inl (hm1 s (List.mem_append.2 (Or.inl hs))))
          · intro x hx
            exact hm2 x (sub_pushUniq hx)
          · intro p hp
            cases hp
    | loop current cp cd nbrs =>
      obtain ⟨hB1, hB2, hB3, hB4, hB5, hB6, hB7, hB8, hB9⟩ := hpre
      cases nbrs with
      | nil =>
        rw [dfsStep] at h
        injection h with h1 h2
        subst h1
        subst h2
        exact ⟨fun s hs => hs, fun x hx => hx, hB6, fun p hp => by cases hp⟩
      | cons nbr rest =>
        rw [dfsStep] at h
        by_cases hv : nbr.1 ∈ st.visited
        · rw [if_pos hv] at h
          exact ih (.loop current cp cd rest) st res st2
            ⟨hB1, hB2, hB3, hB4, hB5, hB6, hB7,
              fun p hp => hB8 p (List.mem_cons_of_mem _ hp), hB9⟩ h
        · rw [if_neg hv] at h
          dsimp only at h
          rcases hres : dfsStep adj rev target fuel (DfsCall.node nbr.1 cp (cd + nbr.2))
              { visited := st.visited,
                steps := st.steps ++
                  [{ currentNode := current, visitedEdge := some (current, nbr.1),
                     currentPath := cp, isBacktrack := false }],
                distanceMap := fun c =>
                  if c = nbr.1 then some (cd + nbr.2) else st.distanceMap c } with
            ⟨res1, stm⟩
          rw [hres] at h
          have hcpne : cp ≠ [] := by
            intro hnil
            rw [hnil] at hB5
            cases hB5
          have hnmem : (nbr.1, nbr.2) ∈ adj current := hB8 nbr (List.mem_cons_self _ _)
          have hpre1 : DfsPre adj start target (DfsCall.node nbr.1 cp (cd + nbr.2))
              { visited := st.visited,
                steps := st.steps ++
                  [{ currentNode := current, visitedEdge := some (current, nbr.1),
                     currentPath := cp, isBacktrack := false }],
                distanceMap := fun c =>
                  if c = nbr.1 then some (cd + nbr.2) else st.distanceMap c } := by
            refine ⟨?_, ?_, ?_, hB4, hv, hB6, ?_, ?_, ?_⟩
            · intro pr hpr
              rcases pathPairs_mem_concat hpr hB5 with h1 | h1
              · exact hB1 pr h1
              · subst h1
                exact ⟨nbr.2, hnmem⟩
            · rw [List.head?_append_of_ne_nil _ hcpne]
              exact hB2
            · rw [List.nodup_append]
              refine ⟨hB3, List.nodup_singleton _, ?_⟩
              intro x hx hmem
              rw [List.mem_singleton] at hmem
              exact hv (hmem ▸ hB4 x hx)
            · exact AdjWalk_concat hB7 hB5 hnmem
            · intro he
              dsimp only
              rw [if_pos he.symm]
            · intro x hx
              obtain ⟨s, hs1, hs2, hs3⟩ := hB9 x hx
              exact ⟨s, List.mem_append.2 (Or.inl hs1), hs2, hs3⟩
          obtain ⟨hm1, hm2, hm3, hm4⟩ := ih _ _ _ _ hpre1 hres
          cases res1 with
          | some p =>
            dsimp only at h
            injection h with h1 h2
            subst h2
            subst h1
            refine ⟨?_, hm2, hm3, ?_⟩
            · intro s hs
              exact hm1 s (List.mem_append.2 (Or.inl hs))
            · intro p2 hp2
              injection hp2 with hp2
              subst hp2
              exact hm4 _ rfl
          | none =>
            dsimp only at h
            have hpre2 : DfsPre adj start target (DfsCall.loop current cp cd rest) stm := by
              refine ⟨hB1, hB2, hB3, ?_, hB5, hm3, hB7,
                fun p hp => hB8 p (List.mem_cons_of_mem _ hp), ?_⟩
              · intro x hx
                exact hm2 x (hB4 x hx)
              · intro x hx
                obtain ⟨s, hs1, hs2, hs3⟩ := hB9 x hx
                exact ⟨s, hm1 s (List.mem_append.2 (Or.inl hs1)), hs2, hs3⟩
            obtain ⟨hr1, hr2, hr3, hr4⟩ := ih _ _ _ _ hpre2 h
            refine ⟨?_, ?_, hr3, hr4⟩
            · intro s hs
              exact hr1 s (hm1 s (List.mem_append.2 (Or.inl hs)))
            · intro x hx
              exact hr2 x (hm2 x hx)

/-- Engine-level DFS soundness: a successful `performDFS` returns a
duplicate-free adjacency path from the start to the end whose reported
total distance is the accumulated walk weight, and every path node other
than the end appears as a plain visit step of the trace. -/
theorem performDFS_sound {cities : List City} {links : List GraphLink}
    {rev : Bool} {startCity endCity : City} {r : PathResult}
    {tr : List AnimationStep}
    (h : performDFS cities links rev startCity endCity = (some r, tr)) :
    r.path.head? = some startCity ∧ r.path.getLast? = some endCity ∧
    (∀ pr ∈ pathPairs r.path,
      adjHas (buildAdjacencyList cities links rev) pr.1 pr.2) ∧
    r.path.Nodup ∧
    (∃ q, r.totalDistance = some q ∧
      AdjWalk (buildAdjacencyList cities links rev) r.path q) ∧
    (∀ x ∈ r.path, x ≠ endCity →
      ∃ s ∈ tr, s.waveNodes = none ∧ s.currentNode = x) := by
  rw [performDFS] at h
  by_cases hg : startCity = "" ∨ endCity = "" ∨ startCity = endCity
  · rw [if_pos hg] at h
    cases h
  · rw [if_neg hg] at h
    dsimp only at h
    rcases hres : dfsStep (buildAdjacencyList cities links rev) rev endCity
        (dfsFuel cities links) (DfsCall.node startCity [] 0)
        { visited := [], steps := [],
          distanceMap := fun c => if c ∈ cities then some 0 else none } with ⟨res, stf⟩
    rw [hres] at h
    have hne : startCity ≠ endCity := fun hh => hg (Or.inr (Or.inr hh))
    have hpre : DfsPre (buildAdjacencyList cities links rev) startCity endCity
        (DfsCall.node startCity [] 0)
        { visited := [], steps := [],
          distanceMap := fun c => if c ∈ cities then some 0 else none } := by
      refine ⟨?_, rfl, ?_, ?_, List.not_mem_nil _, List.not_mem_nil _,
        AdjWalk.single _, ?_, ?_⟩
      · intro pr hpr
        simp [pathPairs] at hpr
      · simp
      · intro x hx
        simp at hx
      · intro hh
        exact absurd hh hne
      · intro x hx
        simp at hx
    obtain ⟨hm1, hm2, hm3, hm4⟩ :=
      dfsStep_sound (buildAdjacencyList cities links rev) rev startCity endCity
        (dfsFuel cities links) _ _ _ _ hpre hres
    cases res with
    | none =>
      dsimp only at h
      cases h
    | some p =>
      dsimp only at h
      injection h with h1 h2
      subst h2
      injection h1 with h1
      subst h1
      obtain ⟨hs1, hs2, hs3, hs4, ⟨q, hq1, hq2⟩, hs6⟩ := hm4 p rfl
      exact ⟨hs1, hs2, hs3, hs4, ⟨q, hq2, hq1⟩, hs6⟩

end SAI

namespace SAI

/-! ## Completeness of the search engines -/

/-- Reachability stays inside a set that contains the source and is closed
under adjacency. -/
theorem reach_mem_of_closed {adj : City → List (City × Weight)} {V : List City}
    {s : City} (hcl : ∀ z ∈ V, ∀ p ∈ adj z, p.1 ∈ V) (hsV : s ∈ V) :
    ∀ {z : City} {k : Nat}, ReachIn adj s z k → z ∈ V := by
  intro z k h
  induction h with
  | refl => exact hsV
  | step hy hadj ih =>
    obtain ⟨w, hw⟩ := hadj
    exact hcl _ ih _ hw

/-- A wave dequeue that does not find the target consumes the whole queue,
which does not contain the target. -/
theorem takeWave_false (endCity : City) :
    ∀ q : List City, (takeWave endCity q).2.2 = false →
      (takeWave endCity q).1 = q ∧ (takeWave endCity q).2.1 = [] ∧
      endCity ∉ q := by
  intro q
  induction q with
  | nil =>
    intro _
    exact ⟨rfl, rfl, List.not_mem_nil _⟩
  | cons c rest ih =>
    intro h
    rw [takeWave] at h ⊢
    by_cases hc : c = endCity
    · rw [if_pos hc] at h
      cases h
    · rw [if_neg hc] at h ⊢
      dsimp only at h ⊢
      obtain ⟨i1, i2, i3⟩ := ih h
      refine ⟨by rw [i1], i2, ?_⟩
      intro hmem
      rcases List.mem_cons.1 hmem with h2 | h2
      · exact hc h2.symm
      · exact i3 h2

/-- A meeting dequeue that finds no meeting consumes the whole queue, none
of which lies in the other side's visited set. -/
theorem takeWaveMeet_none (otherVisited : List City) :
    ∀ q : List City, (takeWaveMeet otherVisited q).2.2 = none →
      (takeWaveMeet otherVisited q).1 = q ∧
      (takeWaveMeet otherVisited q).2.1 = [] ∧
      ∀ c ∈ q, c ∉ otherVisited := by
  intro q
  induction q with
  | nil =>
    intro _
    exact ⟨rfl, rfl, fun c hc => absurd hc (List.not_mem_nil _)⟩
  | cons c rest ih =>
    intro h
    rw [takeWaveMeet] at h ⊢
    by_cases hc : c ∈ otherVisited
    · rw [if_pos hc] at h
      cases h
    · rw [if_neg hc] at h ⊢
      dsimp only at h ⊢
      obtain ⟨i1, i2, i3⟩ := ih h
      refine ⟨by rw [i1], i2, ?_⟩
      intro x hx
      rcases List.mem_cons.1 hx with h2 | h2
      · rw [h2]
        exact hc
      · exact i3 x h2

/-- Completeness bookkeeping of one wave member's neighbor expansion:
visited and queue grow monotonically, every processed neighbor ends up
visited, new visited nodes are neighbor targets and are queued, new queue
entries are newly visited, and duplicate-freeness is preserved. -/
theorem waveExpandCity_complete (current : City) :
    ∀ (nbrs : List (City × Weight)) (e : WaveExp),
      (∀ x ∈ e.visited, x ∈ (waveExpandCity current nbrs e).visited) ∧
      (∀ p ∈ nbrs, p.1 ∈ (waveExpandCity current nbrs e).visited) ∧
      (∀ x ∈ (waveExpandCity current nbrs e).visited,
        x ∈ e.visited ∨ ∃ p ∈ nbrs, p.1 = x) ∧
      (∀ x ∈ e.queue, x ∈ (waveExpandCity current nbrs e).queue) ∧
      (∀ x ∈ (waveExpandCity current nbrs e).visited,
        x ∈ e.visited ∨ x ∈ (waveExpandCity current nbrs e).queue) ∧
      (∀ x ∈ (waveExpandCity current nbrs e).queue,
        x ∈ e.queue ∨ (x ∈ (waveExpandCity current nbrs e).visited ∧
          x ∉ e.visited)) ∧
      (e.visited.Nodup → (waveExpandCity current nbrs e).visited.Nodup) := by
  intro nbrs
  induction nbrs with
  | nil =>
    intro e
    rw [waveExpandCity]
    exact ⟨fun x hx => hx, fun p hp => absurd hp (List.not_mem_nil _),
      fun x hx => Or.inl hx, fun x hx => hx, fun x hx => Or.inl hx,
      fun x hx => Or.inl hx, fun h => h⟩
  | cons nbr rest ih =>
    intro e
    rw [waveExpandCity]
    by_cases hv : nbr.1 ∈ e.visited
    · rw [if_pos hv]
      obtain ⟨i1, i2, i3, i4, i5, i6, i7⟩ := ih e
      refine ⟨i1, ?_, ?_, i4, i5, i6, i7⟩
      · intro p hp
        rcases List.mem_cons.1 hp with h | h
        · rw [h]
          exact i1 _ hv
        · exact i2 p h
      · intro x hx
        rcases i3 x hx with h | ⟨p, hp, hp2⟩
        · exact Or.inl h
        · exact Or.inr ⟨p, List.mem_cons_of_mem _ hp, hp2⟩
    · rw [if_neg hv]
      obtain ⟨i1, i2, i3, i4, i5, i6, i7⟩ := ih
        { visited := pushUniq e.visited nbr.1
          prev := updRec e.prev nbr.1 (some current)
          dist := updRec e.dist nbr.1 (wdAdd (dval (e.dist current)) nbr.2)
          waveEdges := e.waveEdges ++ [(current, nbr.1)]
          nextWaveNodes := e.nextWaveNodes ++ [nbr.1]
          queue := e.queue ++ [nbr.1] }
      refine ⟨?_, ?_, ?_, ?_, ?_, ?_, ?_⟩
      · intro x hx
        exact i1 x (sub_pushUniq hx)
      · intro p hp
        rcases List.mem_cons.1 hp with h | h
        · rw [h]
          exact i1 _ self_mem_pushUniq
        · exact i2 p h
      · intro x hx
        rcases i3 x hx with h | ⟨p, hp, hp2⟩
        · rcases mem_pushUniq.1 h with h2 | h2
          · exact Or.inl h2
          · exact Or.inr ⟨nbr, List.mem_cons_self _ _, h2.symm⟩
        · exact Or.inr ⟨p, List.mem_cons_of_mem _ hp, hp2⟩
      · intro x hx
        exact i4 x (List.mem_append.2 (Or.inl hx))
      · intro x hx
        rcases i5 x hx with h | h
        · rcases mem_pushUniq.1 h with h2 | h2
          · exact Or.inl h2
          · refine Or.inr (i4 x ?_)
            rw [h2]
            exact List.mem_append.2 (Or.inr (List.mem_singleton_self _))
        · exact Or.inr h
      · intro x hx
        rcases i6 x hx with h | ⟨h1, h2⟩
        · rcases List.mem_append.1 h with h2 | h2
          · exact Or.inl h2
          · rw [List.mem_singleton.1 h2]
            exact Or.inr ⟨i1 _ self_mem_pushUniq, hv⟩
        · refine Or.inr ⟨h1, fun hh => h2 (sub_pushUniq hh)⟩
      · intro h
        exact i7 (nodup_pushUniq h)

/-- `waveExpandCity_complete` lifted over a whole wave: additionally, every
neighbor of every wave member ends up visited. -/
theorem waveExpand_complete (adj : City → List (City × Weight)) (rev : Bool) :
    ∀ (wave : List City) (e : WaveExp),
      (∀ x ∈ e.visited, x ∈ (waveExpand adj rev wave e).visited) ∧
      (∀ cur ∈ wave, ∀ p ∈ adj cur, p.1 ∈ (waveExpand adj rev wave e).visited) ∧
      (∀ x ∈ (waveExpand adj rev wave e).visited,
        x ∈ e.visited ∨ ∃ u p, p ∈ adj u ∧ Prod.fst p = x) ∧
      (∀ x ∈ e.queue, x ∈ (waveExpand adj rev wave e).queue) ∧
      (∀ x ∈ (waveExpand adj rev wave e).visited,
        x ∈ e.visited ∨ x ∈ (waveExpand adj rev wave e).queue) ∧
      (∀ x ∈ (waveExpand adj rev wave e).queue,
        x ∈ e.queue ∨ (x ∈ (waveExpand adj rev wave e).visited ∧
          x ∉ e.visited)) ∧
      (e.visited.Nodup → (waveExpand adj rev wave e).visited.Nodup) := by
  intro wave
  induction wave with
  | nil =>
    intro e
    rw [waveExpand]
    exact ⟨fun x hx => hx, fun c hc => absurd hc (List.not_mem_nil _),
      fun x hx => Or.inl hx, fun x hx => hx, fun x hx => Or.inl hx,
      fun x hx => Or.inl hx, fun h => h⟩
  | cons current rest ih =>
    intro e
    rw [waveExpand]
    obtain ⟨c1, c2, c3, c4, c5, c6, c7⟩ :=
      waveExpandCity_complete current (orderNbrs rev (adj current)) e
    obtain ⟨i1, i2, i3, i4, i5, i6, i7⟩ :=
      ih (waveExpandCity current (orderNbrs rev (adj current)) e)
    refine ⟨?_, ?_, ?_, ?_, ?_, ?_, ?_⟩
    · intro x hx
      exact i1 x (c1 x hx)
    · intro cur hcur p hp
      rcases List.mem_cons.1 hcur with h | h
      · subst h
        exact i1 _ (c2 p (orderNbrs_mem.2 hp))
      · exact i2 cur h p hp
    · intro x hx
      rcases i3 x hx with h | h
      · rcases c3 x h with h2 | ⟨p, hp, hp2⟩
        · exact Or.inl h2
        · exact Or.inr ⟨current, p, orderNbrs_mem.1 hp, hp2⟩
      · exact Or.inr h
    · intro x hx
      exact i4 x (c4 x hx)
    · intro x hx
      rcases i5 x hx with h | h
      · rcases c5 x h with h2 | h2
        · exact Or.inl h2
        · exact Or.inr (i4 x h2)
      · exact Or.inr h
    · intro x hx
      rcases i6 x hx with h | ⟨h1, h2⟩
      · rcases c6 x h with h2 | ⟨h3, h4⟩
        · exact Or.inl h2
        · exact Or.inr ⟨i1 x h3, h4⟩
      · exact Or.inr ⟨h1, fun hh => h2 (c1 x hh)⟩
    · intro h
      exact i7 (c7 h)

/-- Completeness of the Wave main loop: if the loop ends without finding the
target, the target is not reachable from any visited node that seeded the
search frontier.  (Stated for the start city.) -/
theorem waveLoop_complete {adj : City → List (City × Weight)}
    {cities : List City} {start endC : City} {rev : Bool} {rfuel : Nat}
    (hT : ∀ (u : City) (q : City × Weight), q ∈ adj u → q.1 ∈ cities.dedup) :
    ∀ (fuel wc : Nat) (queue visited : List City) (prev : PrevMap)
      (dist : DistMap) (steps : List AnimationStep),
      (cities.dedup.length + 2 ≤ fuel + visited.length ∨
        (queue = [] ∧ 1 ≤ fuel)) →
      visited.Nodup →
      (∀ x ∈ visited, x ∈ cities.dedup) →
      (∀ x ∈ queue, x ∈ visited) →
      (∀ z ∈ visited, z ∉ queue → ∀ p ∈ adj z, p.1 ∈ visited) →
      (endC ∉ visited ∨ endC ∈ queue) →
      start ∈ visited →
      (waveLoop adj rev endC rfuel fuel wc queue visited prev dist
        steps).2.2.2 = false →
      ∀ k, ¬ReachIn adj start endC k := by
  intro fuel
  induction fuel with
  | zero =>
    intro wc queue visited prev dist steps hfuel hnd hsub _ _ _ _ _
    have hVD : visited.length ≤ cities.dedup.length :=
      (hnd.subperm hsub).length_le
    rcases hfuel with h | ⟨-, h⟩
    · omega
    · omega
  | succ fuel ih =>
    intro wc queue visited prev dist steps hfuel hnd hsub hq hcl hend hstart h
    rw [waveLoop] at h
    cases queue with
    | nil =>
      rw [if_pos (show (([] : List City).isEmpty = true) from rfl)] at h
      intro k hreach
      have hcl2 : ∀ z ∈ visited, ∀ p ∈ adj z, p.1 ∈ visited :=
        fun z hz p hp => hcl z hz (List.not_mem_nil _) p hp
      have hendv : endC ∈ visited := reach_mem_of_closed hcl2 hstart hreach
      rcases hend with h2 | h2
      · exact h2 hendv
      · exact List.not_mem_nil _ h2
    | cons qh qt =>
      rw [if_neg (show ¬((qh :: qt).isEmpty = true) by simp)] at h
      rcases htw : takeWave endC (qh :: qt) with ⟨cw, restq, found⟩
      rw [htw] at h
      dsimp only at h
      cases found with
      | true =>
        rw [if_pos rfl] at h
        cases h
      | false =>
        rw [if_neg (by simp)] at h
        obtain ⟨tw1, tw2, tw3⟩ := takeWave_false endC (qh :: qt) (by rw [htw])
        simp only [htw] at tw1 tw2 tw3
        subst tw1
        subst tw2
        obtain ⟨e1, e2, e3, e4, e5, e6, e7⟩ :=
          waveExpand_complete adj rev (qh :: qt)
            { visited := visited, prev := prev, dist := dist,
              waveEdges := [], nextWaveNodes := [], queue := [] }
        refine ih _ _ _ _ _ _ ?_ (e7 hnd) ?_ ?_ ?_ ?_ (e1 _ hstart) h
        · rcases hne : (waveExpand adj rev (qh :: qt)
              { visited := visited, prev := prev, dist := dist,
                waveEdges := [], nextWaveNodes := [], queue := [] }).queue with
            _ | ⟨x, xs⟩
          · refine Or.inr ⟨rfl, ?_⟩
            have hVD : visited.length ≤ cities.dedup.length :=
              (hnd.subperm hsub).length_le
            rcases hfuel with h4 | ⟨h4, -⟩
            · omega
            · cases h4
          · refine Or.inl ?_
            have hx : x ∈ (waveExpand adj rev (qh :: qt)
                { visited := visited, prev := prev, dist := dist,
                  waveEdges := [], nextWaveNodes := [], queue := [] }).queue := by
              rw [hne]
              exact List.mem_cons_self _ _
            rcases e6 x hx with h2 | ⟨h2, h3⟩
            · exact absurd h2 (List.not_mem_nil _)
            · have hgrow : visited.length + 1 ≤ ((waveExpand adj rev (qh :: qt)
                  { visited := visited, prev := prev, dist := dist,
                    waveEdges := [], nextWaveNodes := [],
                    queue := [] }).visited).length := by
                have hsubx : x :: visited ⊆ (waveExpand adj rev (qh :: qt)
                    { visited := visited, prev := prev, dist := dist,
                      waveEdges := [], nextWaveNodes := [],
                      queue := [] }).visited := by
                  intro y hy
                  rcases List.mem_cons.1 hy with h4 | h4
                  · rw [h4]
                    exact h2
                  · exact e1 y h4
                have hndx : (x :: visited).Nodup := List.nodup_cons.2 ⟨h3, hnd⟩
                have := (hndx.subperm hsubx).length_le
                simp only [List.length_cons] at this
                omega
              rcases hfuel with h4 | ⟨h4, -⟩
              · omega
              · cases h4
        · intro x hx
          rcases e3 x hx with h2 | ⟨u, p, hp, hp2⟩
          · exact hsub x h2
          · rw [← hp2]
            exact hT u p hp
        · intro x hx
          rcases e6 x hx with h2 | ⟨h2, -⟩
          · exact absurd h2 (List.not_mem_nil _)
          · exact h2
        · intro z hz hzq p hp
          rcases e5 z hz with h2 | h2
          · by_cases hzw : z ∈ qh :: qt
            · exact e2 z hzw p hp
            · exact e1 _ (hcl z h2 hzw p hp)
          · exact absurd h2 hzq
        · by_cases hev : endC ∈ (waveExpand adj rev (qh :: qt)
              { visited := visited, prev := prev, dist := dist,
                waveEdges := [], nextWaveNodes := [], queue := [] }).visited
          · rcases e5 endC hev with h2 | h2
            · rcases hend with h3 | h3
              · exact absurd h2 h3
              · exact absurd h3 tw3
            · exact Or.inr h2
          · exact Or.inl hev

/-- Engine-level Wave completeness: an unsuccessful `performWave` run on
registered start/end selections means the end is not reachable from the
start in the adjacency index. -/
theorem performWave_complete {cities : List City} {links : List GraphLink}
    {rev : Bool} {startCity endCity : City} {tr : List AnimationStep}
    (wf : GraphWF cities links) (hs : startCity ∈ cities)
    (hs0 : startCity ≠ "") (he0 : endCity ≠ "") (hse : startCity ≠ endCity)
    (h : performWave cities links rev startCity endCity = (none, tr)) :
    ∀ k, ¬ReachIn (buildAdjacencyList cities links rev) startCity endCity k := by
  rw [performWave] at h
  rw [if_neg (by
    intro hg
    rcases hg with h1 | h1 | h1
    · exact hs0 h1
    · exact he0 h1
    · exact hse h1)] at h
  dsimp only at h
  rcases hwl : waveLoop (buildAdjacencyList cities links rev) rev endCity
      (searchFuel cities links) (searchFuel cities links) 0 [startCity]
      [startCity]
      (fun c => if c ∈ cities then some none else none)
      (fun c => if c ∈ cities then some (if c = startCity then some 0 else none)
        else none)
      [{ currentNode := startCity, visitedEdge := none, currentPath := [],
         isBacktrack := false }] with ⟨prevL, rest1⟩
  rcases rest1 with ⟨distL, rest2⟩
  rcases rest2 with ⟨stepsL, found⟩
  rw [hwl] at h
  dsimp only at h
  cases found with
  | true =>
    rw [if_pos rfl] at h
    cases h
  | false =>
    have hfound : (waveLoop (buildAdjacencyList cities links rev) rev endCity
        (searchFuel cities links) (searchFuel cities links) 0 [startCity]
        [startCity]
        (fun c => if c ∈ cities then some none else none)
        (fun c => if c ∈ cities then some
          (if c = startCity then some 0 else none) else none)
        [{ currentNode := startCity, visitedEdge := none, currentPath := [],
           isBacktrack := false }]).2.2.2 = false := by
      rw [hwl]
    refine waveLoop_complete
      (fun u q hq => List.mem_dedup.2 (adj_target_mem_cities wf hq))
      (searchFuel cities links) 0 [startCity] [startCity] _ _ _ ?_ ?_ ?_ ?_ ?_
      ?_ ?_ hfound
    · refine Or.inl ?_
      have := (List.dedup_sublist cities).length_le
      unfold searchFuel
      simp only [List.length_singleton]
      omega
    · exact List.nodup_singleton _
    · intro x hx
      rw [List.mem_singleton.1 hx]
      exact List.mem_dedup.2 hs
    · intro x hx
      exact hx
    · intro z hz hzq p hp
      exact absurd hz hzq
    · refine Or.inl ?_
      intro hh
      exact hse (List.mem_singleton.1 hh).symm
    · exact List.mem_singleton_self _

/-- Completeness bookkeeping of one bidirectional wave member's neighbor
loop (the conjuncts about full processing and about avoidance of the other
side hold when no meeting fired). -/
theorem biExpandNbrs_complete (otherVisited : List City) (current : City) :
    ∀ (nbrs : List (City × Weight)) (e : BiExp),
      (∀ x ∈ e.visited, x ∈ (biExpandNbrs otherVisited current nbrs e).visited) ∧
      ((biExpandNbrs otherVisited current nbrs e).meet = none →
        ∀ p ∈ nbrs, p.1 ∈ (biExpandNbrs otherVisited current nbrs e).visited) ∧
      (∀ x ∈ (biExpandNbrs otherVisited current nbrs e).visited,
        x ∈ e.visited ∨ ∃ p ∈ nbrs, Prod.fst p = x) ∧
      (∀ x ∈ e.queue, x ∈ (biExpandNbrs otherVisited current nbrs e).queue) ∧
      (∀ x ∈ (biExpandNbrs otherVisited current nbrs e).visited,
        x ∈ e.visited ∨ x ∈ (biExpandNbrs otherVisited current nbrs e).queue) ∧
      (∀ x ∈ (biExpandNbrs otherVisited current nbrs e).queue,
        x ∈ e.queue ∨ (x ∈ (biExpandNbrs otherVisited current nbrs e).visited ∧
          x ∉ e.visited)) ∧
      (e.visited.Nodup → (biExpandNbrs otherVisited current nbrs e).visited.Nodup) ∧
      ((biExpandNbrs otherVisited current nbrs e).meet = none →
        ∀ x ∈ (biExpandNbrs otherVisited current nbrs e).visited,
          x ∈ e.visited ∨ x ∉ otherVisited) := by
  intro nbrs
  induction nbrs with
  | nil =>
    intro e
    rw [biExpandNbrs]
    exact ⟨fun x hx => hx, fun _ p hp => absurd hp (List.not_mem_nil _),
      fun x hx => Or.inl hx, fun x hx => hx, fun x hx => Or.inl hx,
      fun x hx => Or.inl hx, fun h => h, fun _ x hx => Or.inl hx⟩
  | cons nbr rest ih =>
    intro e
    rw [biExpandNbrs]
    by_cases hv : nbr.1 ∈ e.visited
    · rw [if_pos hv]
      obtain ⟨i1, i2, i3, i4, i5, i6, i7, i8⟩ := ih e
      refine ⟨i1, ?_, ?_, i4, i5, i6, i7, i8⟩
      · intro hm p hp
        rcases List.mem_cons.1 hp with h | h
        · rw [h]
          exact i1 _ hv
        · exact i2 hm p h
      · intro x hx
        rcases i3 x hx with h | ⟨p, hp, hp2⟩
        · exact Or.inl h
        · exact Or.inr ⟨p, List.mem_cons_of_mem _ hp, hp2⟩
    · rw [if_neg hv]
      dsimp only
      by_cases ho : nbr.1 ∈ otherVisited
      · rw [if_pos ho]
        refine ⟨?_, ?_, ?_, ?_, ?_, ?_, ?_, ?_⟩
        · intro x hx
          exact sub_pushUniq hx
        · intro hm
          cases hm
        · intro x hx
          rcases mem_pushUniq.1 hx with h | h
          · exact Or.inl h
          · exact Or.inr ⟨nbr, List.mem_cons_self _ _, h.symm⟩
        · intro x hx
          exact List.mem_append.2 (Or.inl hx)
        · intro x hx
          rcases mem_pushUniq.1 hx with h | h
          · exact Or.inl h
          · refine Or.inr ?_
            rw [h]
            exact List.mem_append.2 (Or.inr (List.mem_singleton_self _))
        · intro x hx
          rcases List.mem_append.1 hx with h | h
          · exact Or.inl h
          · rw [List.mem_singleton.1 h]
            exact Or.inr ⟨self_mem_pushUniq, hv⟩
        · intro h
          exact nodup_pushUniq h
        · intro hm
          cases hm
      · rw [if_neg ho]
        obtain ⟨i1, i2, i3, i4, i5, i6, i7, i8⟩ := ih
          { visited := pushUniq e.visited nbr.1
            prev := updRec e.prev nbr.1 (some current)
            dist := updRec e.dist nbr.1 (wdAdd (dval (e.dist current)) nbr.2)
            waveEdges := e.waveEdges ++ [(current, nbr.1)]
            nextWaveNodes := e.nextWaveNodes ++ [nbr.1]
            queue := e.queue ++ [nbr.1]
            meet := e.meet }
        refine ⟨?_, ?_, ?_, ?_, ?_, ?_, ?_, ?_⟩
        · intro x hx
          exact i1 x (sub_pushUniq hx)
        · intro hm p hp
          rcases List.mem_cons.1 hp with h | h
          · rw [h]
            exact i1 _ self_mem_pushUniq
          · exact i2 hm p h
        · intro x hx
          rcases i3 x hx with h | ⟨p, hp, hp2⟩
          · rcases mem_pushUniq.1 h with h2 | h2
            · exact Or.inl h2
            · exact Or.inr ⟨nbr, List.mem_cons_self _ _, h2.symm⟩
          · exact Or.inr ⟨p, List.mem_cons_of_mem _ hp, hp2⟩
        · intro x hx
          exact i4 x (List.mem_append.2 (Or.inl hx))
        · intro x hx
          rcases i5 x hx with h | h
          · rcases mem_pushUniq.1 h with h2 | h2
            · exact Or.inl h2
            · refine Or.inr (i4 x ?_)
              rw [h2]
              exact List.mem_append.2 (Or.inr (List.mem_singleton_self _))
          · exact Or.inr h
        · intro x hx
          rcases i6 x hx with h | ⟨h1, h2⟩
          · rcases List.mem_append.1 h with h2 | h2
            · exact Or.inl h2
            · rw [List.mem_singleton.1 h2]
              exact Or.inr ⟨i1 _ self_mem_pushUniq, hv⟩
          · refine Or.inr ⟨h1, fun hh => h2 (sub_pushUniq hh)⟩
        · intro h
          exact i7 (nodup_pushUniq h)
        · intro hm x hx
          rcases i8 hm x hx with h | h
          · rcases mem_pushUniq.1 h with h2 | h2
            · exact Or.inl h2
            · refine Or.inr ?_
              rw [h2]
              exact ho
          · exact Or.inr h

/-- `biExpandNbrs_complete` lifted over a whole bidirectional wave. -/
theorem biExpandWave_complete (adj : City → List (City × Weight)) (rev : Bool)
    (otherVisited : List City) :
    ∀ (wave : List City) (e : BiExp),
      (∀ x ∈ e.visited, x ∈ (biExpandWave adj rev otherVisited wave e).visited) ∧
      ((biExpandWave adj rev otherVisited wave e).meet = none →
        ∀ cur ∈ wave, ∀ p ∈ adj cur,
          p.1 ∈ (biExpandWave adj rev otherVisited wave e).visited) ∧
      (∀ x ∈ (biExpandWave adj rev otherVisited wave e).visited,
        x ∈ e.visited ∨ ∃ u p, p ∈ adj u ∧ Prod.fst p = x) ∧
      (∀ x ∈ e.queue, x ∈ (biExpandWave adj rev otherVisited wave e).queue) ∧
      (∀ x ∈ (biExpandWave adj rev otherVisited wave e).visited,
        x ∈ e.visited ∨ x ∈ (biExpandWave adj rev otherVisited wave e).queue) ∧
      (∀ x ∈ (biExpandWave adj rev otherVisited wave e).queue,
        x ∈ e.queue ∨
          (x ∈ (biExpandWave adj rev otherVisited wave e).visited ∧
            x ∉ e.visited)) ∧
      (e.visited.Nodup →
        (biExpandWave adj rev otherVisited wave e).visited.Nodup) ∧
      ((biExpandWave adj rev otherVisited wave e).meet = none →
        ∀ x ∈ (biExpandWave adj rev otherVisited wave e).visited,
          x ∈ e.visited ∨ x ∉ otherVisited) := by
  intro wave
  induction wave with
  | nil =>
    intro e
    rw [biExpandWave]
    exact ⟨fun x hx => hx, fun _ c hc => absurd hc (List.not_mem_nil _),
      fun x hx => Or.inl hx, fun x hx => hx, fun x hx => Or.inl hx,
      fun x hx => Or.inl hx, fun h => h, fun _ x hx => Or.inl hx⟩
  | cons current rest ih =>
    intro e
    rw [biExpandWave]
    by_cases hms : (biExpandNbrs otherVisited current
        (orderNbrs rev (adj current)) e).meet.isSome = true
    · rw [if_pos hms]
      obtain ⟨c1, c2, c3, c4, c5, c6, c7, c8⟩ :=
        biExpandNbrs_complete otherVisited current
          (orderNbrs rev (adj current)) e
      refine ⟨c1, ?_, ?_, c4, c5, c6, c7, c8⟩
      · intro hm
        rw [hm] at hms
        cases hms
      · intro x hx
        rcases c3 x hx with h | ⟨p, hp, hp2⟩
        · exact Or.inl h
        · exact Or.inr ⟨current, p, orderNbrs_mem.1 hp, hp2⟩
    · rw [if_neg hms]
      have hmn : (biExpandNbrs otherVisited current
          (orderNbrs rev (adj current)) e).meet = none := by
        cases hmm : (biExpandNbrs otherVisited current
            (orderNbrs rev (adj current)) e).meet with
        | none => rfl
        | some m =>
          rw [hmm] at hms
          exact absurd rfl hms
      obtain ⟨c1, c2, c3, c4, c5, c6, c7, c8⟩ :=
        biExpandNbrs_complete otherVisited current
          (orderNbrs rev (adj current)) e
      obtain ⟨i1, i2, i3, i4, i5, i6, i7, i8⟩ :=
        ih (biExpandNbrs otherVisited current (orderNbrs rev (adj current)) e)
      refine ⟨?_, ?_, ?_, ?_, ?_, ?_, ?_, ?_⟩
      · intro x hx
        exact i1 x (c1 x hx)
      · intro hm cur hcur p hp
        rcases List.mem_cons.1 hcur with h | h
        · subst h
          exact i1 _ (c2 hmn p (orderNbrs_mem.2 hp))
        · exact i2 hm cur h p hp
      · intro x hx
        rcases i3 x hx with h | h
        · rcases c3 x h with h2 | ⟨p, hp, hp2⟩
          · exact Or.inl h2
          · exact Or.inr ⟨current, p, orderNbrs_mem.1 hp, hp2⟩
        · exact Or.inr h
      · intro x hx
        exact i4 x (c4 x hx)
      · intro x hx
        rcases i5 x hx with h | h
        · rcases c5 x h with h2 | h2
          · exact Or.inl h2
          · exact Or.inr (i4 x h2)
        · exact Or.inr h
      · intro x hx
        rcases i6 x hx with h | ⟨h1, h2⟩
        · rcases c6 x h with h2 | ⟨h3, h4⟩
          · exact Or.inl h2
          · exact Or.inr ⟨i1 x h3, h4⟩
        · exact Or.inr ⟨h1, fun hh => h2 (c1 x hh)⟩
      · intro h
        exact i7 (c7 h)
      · intro hm x hx
        rcases i8 hm x hx with h | h
        · rcases c8 hmn x h with h2 | h2
          · exact Or.inl h2
          · exact Or.inr h2
        · exact Or.inr h

/-- Two duplicate-free disjoint lists drawn from two distinguished elements
plus a common pool are jointly no longer than the pool plus two. -/
theorem nodup_disjoint_length_le {visF visB T : List City} {start endC : City}
    (ndF : visF.Nodup) (ndB : visB.Nodup)
    (disj : ∀ x, x ∈ visF → x ∈ visB → False)
    (subF : ∀ x ∈ visF, x = start ∨ x ∈ T)
    (subB : ∀ x ∈ visB, x = endC ∨ x ∈ T) :
    visF.length + visB.length ≤ T.length + 2 := by
  have hnd : (visF ++ visB).Nodup :=
    List.Nodup.append ndF ndB (fun a ha hb => disj a ha hb)
  have hsub : visF ++ visB ⊆ start :: endC :: T := by
    intro x hx
    rcases List.mem_append.1 hx with h | h
    · rcases subF x h with h2 | h2
      · rw [h2]
        exact List.mem_cons_self _ _
      · exact List.mem_cons_of_mem _ (List.mem_cons_of_mem _ h2)
    · rcases subB x h with h2 | h2
      · rw [h2]
        exact List.mem_cons_of_mem _ (List.mem_cons_self _ _)
      · exact List.mem_cons_of_mem _ (List.mem_cons_of_mem _ h2)
  have := (hnd.subperm hsub).length_le
  simp only [List.length_append, List.length_cons] at this
  omega

/-- The endpoint pool of a link list has twice as many entries as links. -/
theorem flat_endpoints_length (links : List GraphLink) :
    (links.flatMap (fun l => [l.source, l.target])).length =
      2 * links.length := by
  induction links with
  | nil => rfl
  | cons l rest ih =>
    rw [List.flatMap_cons, List.length_append, ih, List.length_cons]
    simp only [List.length_cons, List.length_singleton, List.length_nil]
    omega

/-- Every adjacency target is an endpoint of some link. -/
theorem adj_target_mem_endpoints {cities : List City} {links : List GraphLink}
    {rev : Bool} {u : City} {p : City × Weight}
    (h : p ∈ buildAdjacencyList cities links rev u) :
    p.1 ∈ links.flatMap (fun l => [l.source, l.target]) := by
  obtain ⟨-, l, hl, hme⟩ := mem_buildAdjacencyList h
  obtain ⟨hc, -⟩ := mem_linkEntries hme
  refine List.mem_flatMap.2 ⟨l, hl, ?_⟩
  rcases hc with ⟨-, h2⟩ | ⟨-, h2⟩
  · rw [h2]
    exact List.mem_cons_of_mem _ (List.mem_singleton_self _)
  · rw [h2]
    exact List.mem_cons_self _ _

/-- Backward half-iteration of the bidirectional loop, completeness side:
if the backward block and the continued loop produce no meeting, the end
stays unreachable from the start. -/
theorem biBack_complete {adj : City → List (City × Weight)} {start endC : City}
    {T : List City}
    (hTt : ∀ (u : City) (p : City × Weight), p ∈ adj u → p.1 ∈ T)
    {rev : Bool} {fuel : Nat}
    (ih : ∀ (fwdCtr bwdCtr : Nat) (queueF queueB : List City) (st : BiSt),
      (T.length + 4 ≤ fuel + st.visitedF.length + st.visitedB.length ∨
        (queueF = [] ∧ queueB = [] ∧ 1 ≤ fuel)) →
      st.visitedF.Nodup →
      (∀ x ∈ st.visitedF, x = start ∨ x ∈ T) →
      st.visitedB.Nodup →
      (∀ x ∈ st.visitedB, x = endC ∨ x ∈ T) →
      (∀ x ∈ queueF, x ∈ st.visitedF) →
      (∀ x ∈ queueB, x ∈ st.visitedB) →
      (∀ z ∈ st.visitedF, z ∉ queueF → ∀ p ∈ adj z, p.1 ∈ st.visitedF) →
      (∀ x, x ∈ st.visitedF → x ∈ st.visitedB → False) →
      start ∈ st.visitedF → endC ∈ st.visitedB →
      ∀ st2, biLoop adj rev fuel fwdCtr bwdCtr queueF queueB st = (st2, none) →
      ∀ k, ¬ReachIn adj start endC k) :
    ∀ (stA : BiSt) (fwdCtrA bwdCtr : Nat) (queueF2 queueB : List City),
      (T.length + 4 ≤ fuel + 1 + stA.visitedF.length + stA.visitedB.length) →
      (queueF2 ≠ [] →
        T.length + 4 ≤ fuel + stA.visitedF.length + stA.visitedB.length) →
      stA.visitedF.Nodup →
      (∀ x ∈ stA.visitedF, x = start ∨ x ∈ T) →
      stA.visitedB.Nodup →
      (∀ x ∈ stA.visitedB, x = endC ∨ x ∈ T) →
      (∀ x ∈ queueF2, x ∈ stA.visitedF) →
      (∀ x ∈ queueB, x ∈ stA.visitedB) →
      (∀ z ∈ stA.visitedF, z ∉ queueF2 → ∀ p ∈ adj z, p.1 ∈ stA.visitedF) →
      (∀ x, x ∈ stA.visitedF → x ∈ stA.visitedB → False) →
      start ∈ stA.visitedF → endC ∈ stA.visitedB →
      ∀ stOut,
        (match
            (if queueB.isEmpty then Sum.inr (stA, bwdCtr, queueB)
             else
               let (currentWaveB, restB, meet0) := takeWaveMeet stA.visitedF queueB
               match meet0 with
               | some mm => Sum.inl (stA, some mm)
               | none =>
                 let e := biExpandWave adj rev stA.visitedF currentWaveB
                   { visited := stA.visitedB, prev := stA.prevB, dist := stA.distB,
                     waveEdges := [], nextWaveNodes := [], queue := restB,
                     meet := none }
                 let st2 : BiSt :=
                   { stA with visitedB := e.visited, prevB := e.prev, distB := e.dist }
                 let pushStep := ¬e.waveEdges.isEmpty
                 let st3 : BiSt :=
                   if pushStep then
                     { st2 with
                       steps := st2.steps ++
                         [{ currentNode := "", visitedEdge := none,
                            currentPath := [], isBacktrack := false,
                            waveNodes := some currentWaveB,
                            waveEdges := some e.waveEdges,
                            nextWaveNodes := some e.nextWaveNodes,
                            waveNumber := some bwdCtr,
                            isBackwardWave := true }] }
                   else st2
                 let bwdCtr2 := if pushStep then bwdCtr + 1 else bwdCtr
                 match e.meet with
                 | some mm => Sum.inl (st3, some mm)
                 | none => Sum.inr (st3, bwdCtr2, e.queue) :
              (BiSt × Option City) ⊕ (BiSt × Nat × List City)) with
          | Sum.inl out => out
          | Sum.inr (stB, bwdCtrB, queueB2) =>
            biLoop adj rev fuel fwdCtrA bwdCtrB queueF2 queueB2 stB) =
          (stOut, none) →
        ∀ k, ¬ReachIn adj start endC k := by
  intro stA fwdCtrA bwdCtr queueF2 queueB hbase hgrow ndF subF ndB subB hqF hqB
    hclF hdisj hstart hend stOut h
  by_cases hqb : queueB.isEmpty = true
  · rw [if_pos hqb] at h
    dsimp only at h
    refine ih fwdCtrA bwdCtr queueF2 queueB stA ?_ ndF subF ndB subB hqF hqB
      hclF hdisj hstart hend stOut h
    cases hq2 : queueF2 with
    | nil =>
      refine Or.inr ⟨rfl, List.isEmpty_iff.1 hqb, ?_⟩
      have hcap := nodup_disjoint_length_le ndF ndB hdisj subF subB
      omega
    | cons x xs =>
      refine Or.inl ?_
      have := hgrow (by rw [hq2]; exact List.cons_ne_nil _ _)
      omega
  · rw [if_neg hqb] at h
    rcases htwB : takeWaveMeet stA.visitedF queueB with ⟨cwB, restB, meetB⟩
    rw [htwB] at h
    cases meetB with
    | some m0 =>
      dsimp only at h
      injection h with h1 h2
      cases h2
    | none =>
      dsimp only at h
      obtain ⟨twB1, twB2, twB3⟩ :=
        takeWaveMeet_none stA.visitedF queueB (by rw [htwB])
      simp only [htwB] at twB1 twB2 twB3
      subst twB2
      obtain ⟨w1, w2, w3, w4, w5, w6, w7, w8⟩ :=
        biExpandWave_complete adj rev stA.visitedF cwB
          { visited := stA.visitedB, prev := stA.prevB, dist := stA.distB,
            waveEdges := [], nextWaveNodes := [], queue := [], meet := none }
      cases hme : (biExpandWave adj rev stA.visitedF cwB
          { visited := stA.visitedB, prev := stA.prevB, dist := stA.distB,
            waveEdges := [], nextWaveNodes := [], queue := [],
            meet := none }).meet with
      | some mm =>
        rw [hme] at h
        dsimp only at h
        injection h with h1 h2
        cases h2
      | none =>
        rw [hme] at h
        dsimp only at h
        have hndB2 : (biExpandWave adj rev stA.visitedF cwB
            { visited := stA.visitedB, prev := stA.prevB, dist := stA.distB,
              waveEdges := [], nextWaveNodes := [], queue := [],
              meet := none }).visited.Nodup := w7 ndB
        have hsubB2 : ∀ x ∈ (biExpandWave adj rev stA.visitedF cwB
            { visited := stA.visitedB, prev := stA.prevB, dist := stA.distB,
              waveEdges := [], nextWaveNodes := [], queue := [],
              meet := none }).visited, x = endC ∨ x ∈ T := by
          intro x hx
          rcases w3 x hx with h2 | ⟨u, p, hp, hp2⟩
          · exact subB x h2
          · exact Or.inr (hp2 ▸ hTt u p hp)
        have hqB2 : ∀ x ∈ (biExpandWave adj rev stA.visitedF cwB
            { visited := stA.visitedB, prev := stA.prevB, dist := stA.distB,
              waveEdges := [], nextWaveNodes := [], queue := [],
              meet := none }).queue, x ∈ (biExpandWave adj rev stA.visitedF cwB
            { visited := stA.visitedB, prev := stA.prevB, dist := stA.distB,
              waveEdges := [], nextWaveNodes := [], queue := [],
              meet := none }).visited := by
          intro x hx
          rcases w6 x hx with h2 | h2
          · exact absurd h2 (List.not_mem_nil _)
          · exact h2.1
        have hdisj2 : ∀ x, x ∈ stA.visitedF →
            x ∈ (biExpandWave adj rev stA.visitedF cwB
              { visited := stA.visitedB, prev := stA.prevB, dist := stA.distB,
                waveEdges := [], nextWaveNodes := [], queue := [],
                meet := none }).visited → False := by
          intro x hxF hxB
          rcases w8 hme x hxB with h2 | h2
          · exact hdisj x hxF h2
          · exact h2 hxF
        have hend2 : endC ∈ (biExpandWave adj rev stA.visitedF cwB
            { visited := stA.visitedB, prev := stA.prevB, dist := stA.distB,
              waveEdges := [], nextWaveNodes := [], queue := [],
              meet := none }).visited := w1 _ hend
        have hlenB : stA.visitedB.length ≤ (biExpandWave adj rev stA.visitedF
            cwB
            { visited := stA.visitedB, prev := stA.prevB, dist := stA.distB,
              waveEdges := [], nextWaveNodes := [], queue := [],
              meet := none }).visited.length :=
          (ndB.subperm (fun x hx => w1 x hx)).length_le
        have hfuel2 : T.length + 4 ≤ fuel + stA.visitedF.length +
            (biExpandWave adj rev stA.visitedF cwB
              { visited := stA.visitedB, prev := stA.prevB, dist := stA.distB,
                waveEdges := [], nextWaveNodes := [], queue := [],
                meet := none }).visited.length ∨
            (queueF2 = [] ∧ (biExpandWave adj rev stA.visitedF cwB
              { visited := stA.visitedB, prev := stA.prevB, dist := stA.distB,
                waveEdges := [], nextWaveNodes := [], queue := [],
                meet := none }).queue = [] ∧ 1 ≤ fuel) := by
          by_cases hqF2e : queueF2 = []
          · cases hqe : (biExpandWave adj rev stA.visitedF cwB
                { visited := stA.visitedB, prev := stA.prevB, dist := stA.distB,
                  waveEdges := [], nextWaveNodes := [], queue := [],
                  meet := none }).queue with
            | nil =>
              refine Or.inr ⟨hqF2e, rfl, ?_⟩
              have hcap := nodup_disjoint_length_le ndF ndB hdisj subF subB
              omega
            | cons y ys =>
              refine Or.inl ?_
              have hy : y ∈ (biExpandWave adj rev stA.visitedF cwB
                  { visited := stA.visitedB, prev := stA.prevB, dist := stA.distB,
                    waveEdges := [], nextWaveNodes := [], queue := [],
                    meet := none }).queue := by
                rw [hqe]
                exact List.mem_cons_self _ _
              rcases w6 y hy with h2 | ⟨h2, h3⟩
              · exact absurd h2 (List.not_mem_nil _)
              · have hsuby : y :: stA.visitedB ⊆ (biExpandWave adj rev
                    stA.visitedF cwB
                    { visited := stA.visitedB, prev := stA.prevB,
                      dist := stA.distB, waveEdges := [], nextWaveNodes := [],
                      queue := [], meet := none }).visited := by
                  intro z hz
                  rcases List.mem_cons.1 hz with h4 | h4
                  · rw [h4]
                    exact h2
                  · exact w1 z h4
                have hndy : (y :: stA.visitedB).Nodup :=
                  List.nodup_cons.2 ⟨h3, ndB⟩
                have := (hndy.subperm hsuby).length_le
                simp only [List.length_cons] at this
                omega
          · refine Or.inl ?_
            have := hgrow hqF2e
            omega
        by_cases hpB : (biExpandWave adj rev stA.visitedF cwB
            { visited := stA.visitedB, prev := stA.prevB, dist := stA.distB,
              waveEdges := [], nextWaveNodes := [], queue := [],
              meet := none }).waveEdges.isEmpty = true
        · simp only [if_neg (not_not_intro hpB)] at h
          refine ih fwdCtrA _ queueF2 _ _ ?_ ?_ ?_ ?_ ?_ ?_ ?_ ?_ ?_ ?_ ?_
            stOut h
          · exact hfuel2
          · exact ndF
          · exact subF
          · exact hndB2
          · exact hsubB2
          · exact hqF
          · exact hqB2
          · exact hclF
          · exact hdisj2
          · exact hstart
          · exact hend2
        · simp only [if_pos hpB] at h
          refine ih fwdCtrA _ queueF2 _ _ ?_ ?_ ?_ ?_ ?_ ?_ ?_ ?_ ?_ ?_ ?_
            stOut h
          · exact hfuel2
          · exact ndF
          · exact subF
          · exact hndB2
          · exact hsubB2
          · exact hqF
          · exact hqB2
          · exact hclF
          · exact hdisj2
          · exact hstart
          · exact hend2

/-- Completeness of the bidirectional loop: a run that ends without a
meeting means the end is unreachable from the start. -/
theorem biLoop_complete {adj : City → List (City × Weight)} {start endC : City}
    {T : List City}
    (hTt : ∀ (u : City) (p : City × Weight), p ∈ adj u → p.1 ∈ T)
    {rev : Bool} :
    ∀ (fuel fwdCtr bwdCtr : Nat) (queueF queueB : List City) (st : BiSt),
      (T.length + 4 ≤ fuel + st.visitedF.length + st.visitedB.length ∨
        (queueF = [] ∧ queueB = [] ∧ 1 ≤ fuel)) →
      st.visitedF.Nodup →
      (∀ x ∈ st.visitedF, x = start ∨ x ∈ T) →
      st.visitedB.Nodup →
      (∀ x ∈ st.visitedB, x = endC ∨ x ∈ T) →
      (∀ x ∈ queueF, x ∈ st.visitedF) →
      (∀ x ∈ queueB, x ∈ st.visitedB) →
      (∀ z ∈ st.visitedF, z ∉ queueF → ∀ p ∈ adj z, p.1 ∈ st.visitedF) →
      (∀ x, x ∈ st.visitedF → x ∈ st.visitedB → False) →
      start ∈ st.visitedF → endC ∈ st.visitedB →
      ∀ st2, biLoop adj rev fuel fwdCtr bwdCtr queueF queueB st = (st2, none) →
      ∀ k, ¬ReachIn adj start endC k := by
  intro fuel
  induction fuel with
  | zero =>
    intro fc bc queueF queueB st hfuel ndF subF ndB subB _ _ _ hdisj _ _ st2 h
    have hcap := nodup_disjoint_length_le ndF ndB hdisj subF subB
    rcases hfuel with h2 | ⟨-, -, h2⟩
    · exact absurd h2 (by omega)
    · exact absurd h2 (by omega)
  | succ fuel ih =>
    intro fc bc queueF queueB st hfuel ndF subF ndB subB hqF hqB hclF hdisj
      hstart hend st2 h
    rw [biLoop] at h
    by_cases hqq : queueF.isEmpty = true ∧ queueB.isEmpty = true
    · rw [if_pos hqq] at h
      intro k hreach
      have hq0 : queueF = [] := List.isEmpty_iff.1 hqq.1
      have hcl2 : ∀ z ∈ st.visitedF, ∀ p ∈ adj z, p.1 ∈ st.visitedF := by
        intro z hz p hp
        refine hclF z hz ?_ p hp
        rw [hq0]
        exact List.not_mem_nil _
      have hendF : endC ∈ st.visitedF := reach_mem_of_closed hcl2 hstart hreach
      exact hdisj endC hendF hend
    · rw [if_neg hqq] at h
      dsimp only at h
      by_cases hqf : queueF.isEmpty = true
      · rw [if_pos hqf] at h
        dsimp only at h
        have hq0 : queueF = [] := List.isEmpty_iff.1 hqf
        subst hq0
        refine biBack_complete hTt ih st fc bc [] queueB ?_ ?_ ndF subF ndB subB
          hqF hqB hclF hdisj hstart hend st2 h
        · rcases hfuel with h2 | ⟨-, h2, -⟩
          · exact h2
          · exact absurd ⟨rfl, by rw [h2]; rfl⟩ hqq
        · intro hne2
          exact absurd rfl hne2
      · rw [if_neg hqf] at h
        rcases htwF : takeWaveMeet st.visitedB queueF with ⟨cwF, restF, meetF⟩
        rw [htwF] at h
        cases meetF with
        | some m0 =>
          dsimp only at h
          injection h with h1 h2
          cases h2
        | none =>
          dsimp only at h
          obtain ⟨twF1, twF2, twF3⟩ :=
            takeWaveMeet_none st.visitedB queueF (by rw [htwF])
          simp only [htwF] at twF1 twF2 twF3
          subst twF2
          obtain ⟨w1, w2, w3, w4, w5, w6, w7, w8⟩ :=
            biExpandWave_complete adj rev st.visitedB cwF
              { visited := st.visitedF, prev := st.prevF, dist := st.distF,
                waveEdges := [], nextWaveNodes := [], queue := [], meet := none }
          cases hme : (biExpandWave adj rev st.visitedB cwF
              { visited := st.visitedF, prev := st.prevF, dist := st.distF,
                waveEdges := [], nextWaveNodes := [], queue := [],
                meet := none }).meet with
          | some mm =>
            rw [hme] at h
            dsimp only at h
            injection h with h1 h2
            cases h2
          | none =>
            rw [hme] at h
            dsimp only at h
            have hndF2 : (biExpandWave adj rev st.visitedB cwF
                { visited := st.visitedF, prev := st.prevF, dist := st.distF,
                  waveEdges := [], nextWaveNodes := [], queue := [],
                  meet := none }).visited.Nodup := w7 ndF
            have hsubF2 : ∀ x ∈ (biExpandWave adj rev st.visitedB cwF
                { visited := st.visitedF, prev := st.prevF, dist := st.distF,
                  waveEdges := [], nextWaveNodes := [], queue := [],
                  meet := none }).visited, x = start ∨ x ∈ T := by
              intro x hx
              rcases w3 x hx with h2 | ⟨u, p, hp, hp2⟩
              · exact subF x h2
              · exact Or.inr (hp2 ▸ hTt u p hp)
            have hqF2sub : ∀ x ∈ (biExpandWave adj rev st.visitedB cwF
                { visited := st.visitedF, prev := st.prevF, dist := st.distF,
                  waveEdges := [], nextWaveNodes := [], queue := [],
                  meet := none }).queue, x ∈ (biExpandWave adj rev st.visitedB cwF
                { visited := st.visitedF, prev := st.prevF, dist := st.distF,
                  waveEdges := [], nextWaveNodes := [], queue := [],
                  meet := none }).visited := by
              intro x hx
              rcases w6 x hx with h2 | h2
              · exact absurd h2 (List.not_mem_nil _)
              · exact h2.1
            have hclF2 : ∀ z ∈ (biExpandWave adj rev st.visitedB cwF
                { visited := st.visitedF, prev := st.prevF, dist := st.distF,
                  waveEdges := [], nextWaveNodes := [], queue := [],
                  meet := none }).visited,
                z ∉ (biExpandWave adj rev st.visitedB cwF
                { visited := st.visitedF, prev := st.prevF, dist := st.distF,
                  waveEdges := [], nextWaveNodes := [], queue := [],
                  meet := none }).queue →
                ∀ p ∈ adj z, p.1 ∈ (biExpandWave adj rev st.visitedB cwF
                { visited := st.visitedF, prev := st.prevF, dist := st.distF,
                  waveEdges := [], nextWaveNodes := [], queue := [],
                  meet := none }).visited := by
              intro z hz hzq p hp
              rcases w5 z hz with h2 | h2
              · by_cases hzw : z ∈ cwF
                · exact w2 hme z hzw p hp
                · have hznq : z ∉ queueF := by
                    rw [← twF1]
                    exact hzw
                  exact w1 _ (hclF z h2 hznq p hp)
              · exact absurd h2 hzq
            have hdisjF2 : ∀ x, x ∈ (biExpandWave adj rev st.visitedB cwF
                { visited := st.visitedF, prev := st.prevF, dist := st.distF,
                  waveEdges := [], nextWaveNodes := [], queue := [],
                  meet := none }).visited → x ∈ st.visitedB → False := by
              intro x hxF hxB
              rcases w8 hme x hxF with h2 | h2
              · exact hdisj x h2 hxB
              · exact h2 hxB
            have hstart2 : start ∈ (biExpandWave adj rev st.visitedB cwF
                { visited := st.visitedF, prev := st.prevF, dist := st.distF,
                  waveEdges := [], nextWaveNodes := [], queue := [],
                  meet := none }).visited := w1 _ hstart
            have hbase2 : T.length + 4 ≤ fuel + 1 +
                (biExpandWave adj rev st.visitedB cwF
                { visited := st.visitedF, prev := st.prevF, dist := st.distF,
                  waveEdges := [], nextWaveNodes := [], queue := [],
                  meet := none }).visited.length + st.visitedB.length := by
              have hlenF : st.visitedF.length ≤ (biExpandWave adj rev
                  st.visitedB cwF
                  { visited := st.visitedF, prev := st.prevF, dist := st.distF,
                    waveEdges := [], nextWaveNodes := [], queue := [],
                    meet := none }).visited.length :=
                (ndF.subperm (fun x hx => w1 x hx)).length_le
              rcases hfuel with h2 | ⟨h2, -, -⟩
              · omega
              · exact absurd (by rw [h2]; rfl) hqf
            have hgrow2 : (biExpandWave adj rev st.visitedB cwF
                { visited := st.visitedF, prev := st.prevF, dist := st.distF,
                  waveEdges := [], nextWaveNodes := [], queue := [],
                  meet := none }).queue ≠ [] →
                T.length + 4 ≤ fuel + (biExpandWave adj rev st.visitedB cwF
                { visited := st.visitedF, prev := st.prevF, dist := st.distF,
                  waveEdges := [], nextWaveNodes := [], queue := [],
                  meet := none }).visited.length + st.visitedB.length := by
              intro hne2
              cases hqe : (biExpandWave adj rev st.visitedB cwF
                  { visited := st.visitedF, prev := st.prevF, dist := st.distF,
                    waveEdges := [], nextWaveNodes := [], queue := [],
                    meet := none }).queue with
              | nil => exact absurd hqe hne2
              | cons y ys =>
                have hy : y ∈ (biExpandWave adj rev st.visitedB cwF
                    { visited := st.visitedF, prev := st.prevF, dist := st.distF,
                      waveEdges := [], nextWaveNodes := [], queue := [],
                      meet := none }).queue := by
                  rw [hqe]
                  exact List.mem_cons_self _ _
                rcases w6 y hy with h2 | ⟨h2, h3⟩
                · exact absurd h2 (List.not_mem_nil _)
                · have hsuby : y :: st.visitedF ⊆ (biExpandWave adj rev
                      st.visitedB cwF
                      { visited := st.visitedF, prev := st.prevF,
                        dist := st.distF, waveEdges := [], nextWaveNodes := [],
                        queue := [], meet := none }).visited := by
                    intro z hz
                    rcases List.mem_cons.1 hz with h4 | h4
                    · rw [h4]
                      exact h2
                    · exact w1 z h4
                  have hndy : (y :: st.visitedF).Nodup :=
                    List.nodup_cons.2 ⟨h3, ndF⟩
                  have := (hndy.subperm hsuby).length_le
                  simp only [List.length_cons] at this
                  rcases hfuel with h4 | ⟨h4, -, -⟩
                  · omega
                  · exact absurd (by rw [h4]; rfl) hqf
            by_cases hpF : (biExpandWave adj rev st.visitedB cwF
                { visited := st.visitedF, prev := st.prevF, dist := st.distF,
                  waveEdges := [], nextWaveNodes := [], queue := [],
                  meet := none }).waveEdges.isEmpty = true
            · simp only [if_neg (not_not_intro hpF)] at h
              refine biBack_complete hTt ih _ _ bc _ queueB ?_ ?_ ?_ ?_ ?_ ?_
                ?_ ?_ ?_ ?_ ?_ ?_ st2 h
              · exact hbase2
              · exact hgrow2
              · exact hndF2
              · exact hsubF2
              · exact ndB
              · exact subB
              · exact hqF2sub
              · exact hqB
              · exact hclF2
              · exact hdisjF2
              · exact hstart2
              · exact hend
            · simp only [if_pos hpF] at h
              refine biBack_complete hTt ih _ _ bc _ queueB ?_ ?_ ?_ ?_ ?_ ?_
                ?_ ?_ ?_ ?_ ?_ ?_ st2 h
              · exact hbase2
              · exact hgrow2
              · exact hndF2
              · exact hsubF2
              · exact ndB
              · exact subB
              · exact hqF2sub
              · exact hqB
              · exact hclF2
              · exact hdisjF2
              · exact hstart2
              · exact hend

/-- Engine-level Bidirectional Wave completeness: an unsuccessful run on
registered, distinct, non-empty start/end selections means the end is not
reachable from the start in the adjacency index. -/
theorem performBidirectionalWave_complete {cities : List City}
    {links : List GraphLink} {rev : Bool} {startCity endCity : City}
    {tr : List AnimationStep}
    (hs0 : startCity ≠ "") (he0 : endCity ≠ "") (hse : startCity ≠ endCity)
    (h : performBidirectionalWave cities links rev startCity endCity =
      (none, tr)) :
    ∀ k, ¬ReachIn (buildAdjacencyList cities links rev) startCity endCity k := by
  rw [performBidirectionalWave] at h
  rw [if_neg (by
    intro hg
    rcases hg with h1 | h1 | h1
    · exact hs0 h1
    · exact he0 h1
    · exact hse h1)] at h
  dsimp only at h
  rcases hbl : biLoop (buildAdjacencyList cities links rev) rev
      (searchFuel cities links) 0 0 [startCity] [endCity]
      { visitedF := [startCity], visitedB := [endCity],
        prevF := fun c => if c ∈ cities then some none else none,
        prevB := fun c => if c ∈ cities then some none else none,
        distF := fun c => if c ∈ cities then some (if c = startCity then some 0 else none) else none,
        distB := fun c => if c ∈ cities then some (if c = endCity then some 0 else none) else none,
        steps := [{ currentNode := startCity, visitedEdge := none, currentPath := [startCity], isBacktrack := false, waveNodes := some [startCity], waveEdges := some [], nextWaveNodes := some [] },
          { currentNode := endCity, visitedEdge := none, currentPath := [endCity], isBacktrack := false, waveNodes := some [endCity], waveEdges := some [], nextWaveNodes := some [] }] }
    with ⟨stL, meetRes⟩
  rw [hbl] at h
  cases meetRes with
  | some m =>
    dsimp only at h
    cases h
  | none =>
    refine biLoop_complete
      (fun u p hp => adj_target_mem_endpoints hp)
      (searchFuel cities links) 0 0 [startCity] [endCity] _ ?_ ?_ ?_ ?_ ?_ ?_
      ?_ ?_ ?_ ?_ ?_ stL hbl
    · refine Or.inl ?_
      rw [flat_endpoints_length]
      unfold searchFuel
      simp only [List.length_singleton]
      omega
    · exact List.nodup_singleton _
    · intro x hx
      exact Or.inl (List.mem_singleton.1 hx)
    · exact List.nodup_singleton _
    · intro x hx
      exact Or.inl (List.mem_singleton.1 hx)
    · intro x hx
      exact hx
    · intro x hx
      exact hx
    · intro z hz hzq p hp
      exact absurd hz hzq
    · intro x hxF hxB
      exact hse ((List.mem_singleton.1 hxF).symm.trans (List.mem_singleton.1 hxB))
    · exact List.mem_singleton_self _
    · exact List.mem_singleton_self _

/-- The DFS closure never marks the target visited. -/
theorem dfsStep_no_target {adj : City → List (City × Weight)} {rev : Bool}
    {target : City} :
    ∀ (fuel : Nat) (call : DfsCall) (st : DfsSt),
      target ∉ st.visited →
      target ∉ (dfsStep adj rev target fuel call st).2.visited := by
  intro fuel
  induction fuel with
  | zero =>
    intro call st h
    rw [dfsStep]
    exact h
  | succ fuel ih =>
    intro call st h
    cases call with
    | node current cp cd =>
      rw [dfsStep]
      by_cases hct : current = target
      · rw [if_pos hct]
        exact h
      · rw [if_neg hct]
        dsimp only
        rcases hres : dfsStep adj rev target fuel
            (DfsCall.loop current (cp ++ [current]) cd
              (orderNbrs rev (adj current)))
            { visited := pushUniq st.visited current,
              steps := st.steps ++
                [{ currentNode := current, visitedEdge := none,
                   currentPath := cp, isBacktrack := false }],
              distanceMap := st.distanceMap } with ⟨res1, stm⟩
        have hm : target ∉ stm.visited := by
          have h2 := ih (DfsCall.loop current (cp ++ [current]) cd
              (orderNbrs rev (adj current)))
            { visited := pushUniq st.visited current,
              steps := st.steps ++
                [{ currentNode := current, visitedEdge := none,
                   currentPath := cp, isBacktrack := false }],
              distanceMap := st.distanceMap }
            (by
              intro hmem
              rcases mem_pushUniq.1 hmem with h1 | h1
              · exact h h1
              · exact hct h1.symm)
          rw [hres] at h2
          exact h2
        cases res1 with
        | some p => exact hm
        | none => exact hm
    | loop current cp cd nbrs =>
      cases nbrs with
      | nil =>
        rw [dfsStep]
        exact h
      | cons nbr rest =>
        rw [dfsStep]
        by_cases hv : nbr.1 ∈ st.visited
        · rw [if_pos hv]
          exact ih _ _ h
        · rw [if_neg hv]
          dsimp only
          rcases hres : dfsStep adj rev target fuel
              (DfsCall.node nbr.1 cp (cd + nbr.2))
              { visited := st.visited,
                steps := st.steps ++
                  [{ currentNode := current, visitedEdge := some (current, nbr.1),
                     currentPath := cp, isBacktrack := false }],
                distanceMap := fun c =>
                  if c = nbr.1 then some (cd + nbr.2) else st.distanceMap c } with
            ⟨res1, stm⟩
          have hm : target ∉ stm.visited := by
            have h2 := ih (DfsCall.node nbr.1 cp (cd + nbr.2))
              { visited := st.visited,
                steps := st.steps ++
                  [{ currentNode := current, visitedEdge := some (current, nbr.1),
                     currentPath := cp, isBacktrack := false }],
                distanceMap := fun c =>
                  if c = nbr.1 then some (cd + nbr.2) else st.distanceMap c } h
            rw [hres] at h2
            exact h2
          cases res1 with
          | some p => exact hm
          | none => exact ih _ _ hm

/-- Fuel step for entering a node: the node budget fits after one tick. -/
theorem dfs_arith_node {D V L k fuel : Nat} (hVD : V + 1 ≤ D) (hk : k ≤ L)
    (hf : (D - V + 1) * (L + 2) ≤ fuel + 1) :
    k + 1 + (D - (V + 1) + 1) * (L + 2) ≤ fuel := by
  have h1 : D - V = D - (V + 1) + 1 := by omega
  rw [h1] at hf
  have h2 : (D - (V + 1) + 1 + 1) * (L + 2) =
      (D - (V + 1) + 1) * (L + 2) + (L + 2) := by ring
  rw [h2] at hf
  revert hf
  generalize (D - (V + 1) + 1) * (L + 2) = P
  intro hf
  omega

/-- Fuel step for starting a neighbor entry from the loop budget. -/
theorem dfs_arith_entry {D V L k fuel : Nat}
    (hf : k + 1 + 1 + (D - V + 1) * (L + 2) ≤ fuel + 1) :
    (D - V + 1) * (L + 2) ≤ fuel := by
  revert hf
  generalize (D - V + 1) * (L + 2) = P
  intro hf
  omega

/-- Fuel step for skipping one visited neighbor. -/
theorem dfs_arith_skip {D V L k fuel : Nat}
    (hf : k + 1 + 1 + (D - V + 1) * (L + 2) ≤ fuel + 1) :
    k + 1 + (D - V + 1) * (L + 2) ≤ fuel := by
  revert hf
  generalize (D - V + 1) * (L + 2) = P
  intro hf
  omega

/-- Fuel step for continuing the loop after a sub-exploration that visited at
least one new city. -/
theorem dfs_arith_cont {D V V3 L k fuel : Nat} (hVD : V + 1 ≤ D)
    (hV3 : V + 1 ≤ V3)
    (hf : k + 1 + 1 + (D - V + 1) * (L + 2) ≤ fuel + 1) :
    k + 1 + (D - V3 + 1) * (L + 2) ≤ fuel := by
  have hle : D - V3 + 1 ≤ D - V := by omega
  have hmul : (D - V3 + 1) * (L + 2) ≤ (D - V) * (L + 2) :=
    Nat.mul_le_mul_right _ hle
  have hsplit : (D - V + 1) * (L + 2) = (D - V) * (L + 2) + (L + 2) := by ring
  rw [hsplit] at hf
  revert hmul hf
  generalize (D - V3 + 1) * (L + 2) = P1
  generalize (D - V) * (L + 2) = P2
  intro hmul hf
  omega

/-- Reversing a neighbor list keeps its length. -/
theorem orderNbrs_length (rev : Bool) (nbrs : List (City × Weight)) :
    (orderNbrs rev nbrs).length = nbrs.length := by
  unfold orderNbrs
  split
  · exact List.length_reverse _
  · rfl

/-- One link contributes at most two adjacency entries to one city. -/
theorem linkEntries_length_le (rev : Bool) (l : GraphLink) (c : City) :
    (linkEntries rev l c).length ≤ 2 := by
  unfold linkEntries
  split_ifs <;> simp

/-- Every neighbor list has at most two entries per link. -/
theorem adj_length_le {cities : List City} (links : List GraphLink) (rev : Bool)
    (c : City) :
    (buildAdjacencyList cities links rev c).length ≤ 2 * links.length := by
  unfold buildAdjacencyList
  split
  · have hgen : ∀ ls : List GraphLink,
        (ls.flatMap (fun l => linkEntries rev l c)).length ≤ 2 * ls.length := by
      intro ls
      induction ls with
      | nil => simp
      | cons l rest ih =>
        rw [List.flatMap_cons, List.length_append]
        have := linkEntries_length_le rev l c
        simp only [List.length_cons]
        omega
    exact hgen links
  · simp

/-- Completeness induction of the DFS closure: a fully fueled exploration
that returns no path visits a set that contains the entry node, is closed
under adjacency away from the gray (in-progress) ancestors, and stays a
duplicate-free subset of the registered cities. -/
theorem dfsStep_complete {adj : City → List (City × Weight)} {rev : Bool}
    {target : City} {cities : List City} {L : Nat}
    (hadjlen : ∀ c : City, (adj c).length ≤ L)
    (hTc : ∀ (u : City) (p : City × Weight), p ∈ adj u → p.1 ∈ cities.dedup) :
    ∀ (fuel : Nat) (call : DfsCall) (st : DfsSt) (st2 : DfsSt),
      (match call with
       | .node current cp cd =>
         ∀ (gray : List City),
           dfsStep adj rev target fuel (.node current cp cd) st = (none, st2) →
           (∀ g ∈ gray, g ∈ st.visited) →
           current ∉ gray →
           current ∈ cities.dedup →
           current ∉ st.visited →
           st.visited.Nodup →
           (∀ x ∈ st.visited, x ∈ cities.dedup) →
           (∀ z ∈ st.visited, z ∉ gray → ∀ p ∈ adj z, p.1 ∈ st.visited) →
           (cities.dedup.length - st.visited.length + 1) * (L + 2) ≤ fuel →
           (∀ x ∈ st.visited, x ∈ st2.visited) ∧ current ∈ st2.visited ∧
           st2.visited.Nodup ∧ (∀ x ∈ st2.visited, x ∈ cities.dedup) ∧
           (∀ z ∈ st2.visited, z ∉ gray → ∀ p ∈ adj z, p.1 ∈ st2.visited)
       | .loop current cp cd nbrs =>
         ∀ (gray : List City),
           dfsStep adj rev target fuel (.loop current cp cd nbrs) st =
             (none, st2) →
           (∀ g ∈ gray, g ∈ st.visited) →
           st.visited.Nodup →
           (∀ x ∈ st.visited, x ∈ cities.dedup) →
           (∀ z ∈ st.visited, z ∉ gray → ∀ p ∈ adj z, p.1 ∈ st.visited) →
           (∀ p ∈ nbrs, p ∈ adj current) →
           nbrs.length ≤ L →
           nbrs.length + 1 + (cities.dedup.length - st.visited.length + 1) *
             (L + 2) ≤ fuel →
           (∀ x ∈ st.visited, x ∈ st2.visited) ∧
           st2.visited.Nodup ∧ (∀ x ∈ st2.visited, x ∈ cities.dedup) ∧
           (∀ z ∈ st2.visited, z ∉ gray → ∀ p ∈ adj z, p.1 ∈ st2.visited) ∧
           (∀ p ∈ nbrs, p.1 ∈ st2.visited)) := by
  intro fuel
  induction fuel with
  | zero =>
    intro call st st2
    cases call with
    | node current cp cd =>
      intro gray h hgr hcg hcd hcv hnd hsubd hcl hfuel
      exfalso
      have h2 : 1 * 2 ≤
          (cities.dedup.length - st.visited.length + 1) * (L + 2) :=
        Nat.mul_le_mul (Nat.le_add_left 1 _) (Nat.le_add_left 2 _)
      have h3 := le_trans h2 hfuel
      omega
    | loop current cp cd nbrs =>
      intro gray h hgr hnd hsubd hcl hnb hnl hfuel
      exact absurd (le_trans (Nat.le_add_right _ _) hfuel)
        (Nat.not_succ_le_zero _)
  | succ fuel ih =>
    intro call st st2
    cases call with
    | node current cp cd =>
      intro gray h hgr hcg hcd hcv hnd hsubd hcl hfuel
      rw [dfsStep] at h
      by_cases hct : current = target
      · rw [if_pos hct] at h
        injection h with h1 h2
        cases h1
      · rw [if_neg hct] at h
        dsimp only at h
        rcases hres : dfsStep adj rev target fuel
            (DfsCall.loop current (cp ++ [current]) cd
              (orderNbrs rev (adj current)))
            { visited := pushUniq st.visited current,
              steps := st.steps ++
                [{ currentNode := current, visitedEdge := none,
                   currentPath := cp, isBacktrack := false }],
              distanceMap := st.distanceMap } with ⟨res1, stm⟩
        rw [hres] at h
        cases res1 with
        | some p =>
          dsimp only at h
          injection h with h1 h2
          cases h1
        | none =>
          dsimp only at h
          injection h with h1 h2
          subst h2
          have hVD : st.visited.length + 1 ≤ cities.dedup.length := by
            have hsubx : current :: st.visited ⊆ cities.dedup := by
              intro z hz
              rcases List.mem_cons.1 hz with h3 | h3
              · rw [h3]
                exact hcd
              · exact hsubd z h3
            have hndx : (current :: st.visited).Nodup :=
              List.nodup_cons.2 ⟨hcv, hnd⟩
            have h4 := (hndx.subperm hsubx).length_le
            simp only [List.length_cons] at h4
            omega
          have hlen1 : (pushUniq st.visited current).length =
              st.visited.length + 1 := pushUniq_length_of_not_mem hcv
          obtain ⟨m1, m2, m3, m4, m5⟩ := ih
            (DfsCall.loop current (cp ++ [current]) cd
              (orderNbrs rev (adj current)))
            { visited := pushUniq st.visited current,
              steps := st.steps ++
                [{ currentNode := current, visitedEdge := none,
                   currentPath := cp, isBacktrack := false }],
              distanceMap := st.distanceMap }
            stm (current :: gray) hres
            (by
              intro g hg
              rcases List.mem_cons.1 hg with h3 | h3
              · rw [h3]
                exact self_mem_pushUniq
              · exact sub_pushUniq (hgr g h3))
            (nodup_pushUniq hnd)
            (by
              intro x hx
              rcases mem_pushUniq.1 hx with h3 | h3
              · exact hsubd x h3
              · rw [h3]
                exact hcd)
            (by
              intro z hz hzg p hp
              rcases mem_pushUniq.1 hz with h3 | h3
              · refine sub_pushUniq (hcl z h3 ?_ p hp)
                intro h4
                exact hzg (List.mem_cons_of_mem _ h4)
              · exact absurd (by rw [h3]; exact List.mem_cons_self _ _) hzg)
            (fun p hp => orderNbrs_mem.1 hp)
            (by
              rw [orderNbrs_length]
              exact hadjlen current)
            (by
              rw [orderNbrs_length, hlen1]
              exact dfs_arith_node hVD (hadjlen current) hfuel)
          refine ⟨fun x hx => m1 x (sub_pushUniq hx), m1 _ self_mem_pushUniq,
            m2, m3, ?_⟩
          intro z hz hzg p hp
          by_cases hzc : z = current
          · rw [hzc] at hp
            exact m5 p (orderNbrs_mem.2 hp)
          · refine m4 z hz ?_ p hp
            intro h3
            rcases List.mem_cons.1 h3 with h4 | h4
            · exact hzc h4
            · exact hzg h4
    | loop current cp cd nbrs =>
      intro gray h hgr hnd hsubd hcl hnb hnl hfuel
      cases nbrs with
      | nil =>
        rw [dfsStep] at h
        injection h with h1 h2
        subst h2
        exact ⟨fun x hx => hx, hnd, hsubd, hcl,
          fun p hp => absurd hp (List.not_mem_nil _)⟩
      | cons nbr rest =>
        have hfuel2 : rest.length + 1 + 1 +
            (cities.dedup.length - st.visited.length + 1) * (L + 2) ≤
              fuel + 1 := by
          simp only [List.length_cons] at hfuel
          omega
        have hnl2 : rest.length ≤ L := by
          simp only [List.length_cons] at hnl
          omega
        rw [dfsStep] at h
        by_cases hv : nbr.1 ∈ st.visited
        · rw [if_pos hv] at h
          obtain ⟨m1, m2, m3, m4, m5⟩ := ih (DfsCall.loop current cp cd rest)
            st st2 gray h hgr hnd hsubd hcl
            (fun p hp => hnb p (List.mem_cons_of_mem _ hp)) hnl2
            (dfs_arith_skip hfuel2)
          refine ⟨m1, m2, m3, m4, ?_⟩
          intro p hp
          rcases List.mem_cons.1 hp with h3 | h3
          · rw [h3]
            exact m1 _ hv
          · exact m5 p h3
        · rw [if_neg hv] at h
          dsimp only at h
          rcases hres : dfsStep adj rev target fuel
              (DfsCall.node nbr.1 cp (cd + nbr.2))
              { visited := st.visited,
                steps := st.steps ++
                  [{ currentNode := current, visitedEdge := some (current, nbr.1),
                     currentPath := cp, isBacktrack := false }],
                distanceMap := fun c =>
                  if c = nbr.1 then some (cd + nbr.2) else st.distanceMap c } with
            ⟨res1, stm⟩
          rw [hres] at h
          cases res1 with
          | some p =>
            dsimp only at h
            injection h with h1 h2
            cases h1
          | none =>
            have hn1d : nbr.1 ∈ cities.dedup :=
              hTc current nbr (hnb nbr (List.mem_cons_self _ _))
            have hn1g : nbr.1 ∉ gray := fun hh => hv (hgr _ hh)
            obtain ⟨n1, n2, n3, n4, n5⟩ := ih
              (DfsCall.node nbr.1 cp (cd + nbr.2))
              { visited := st.visited,
                steps := st.steps ++
                  [{ currentNode := current, visitedEdge := some (current, nbr.1),
                     currentPath := cp, isBacktrack := false }],
                distanceMap := fun c =>
                  if c = nbr.1 then some (cd + nbr.2) else st.distanceMap c }
              stm gray hres hgr hn1g hn1d hv hnd hsubd hcl
              (dfs_arith_entry hfuel2)
            have hVD : st.visited.length + 1 ≤ cities.dedup.length := by
              have hsubx : nbr.1 :: st.visited ⊆ cities.dedup := by
                intro z hz
                rcases List.mem_cons.1 hz with h3 | h3
                · rw [h3]
                  exact hn1d
                · exact hsubd z h3
              have hndx : (nbr.1 :: st.visited).Nodup :=
                List.nodup_cons.2 ⟨hv, hnd⟩
              have h4 := (hndx.subperm hsubx).length_le
              simp only [List.length_cons] at h4
              omega
            have hV3 : st.visited.length + 1 ≤ stm.visited.length := by
              have hsubx : nbr.1 :: st.visited ⊆ stm.visited := by
                intro z hz
                rcases List.mem_cons.1 hz with h3 | h3
                · rw [h3]
                  exact n2
                · exact n1 z h3
              have hndx : (nbr.1 :: st.visited).Nodup :=
                List.nodup_cons.2 ⟨hv, hnd⟩
              have h4 := (hndx.subperm hsubx).length_le
              simp only [List.length_cons] at h4
              omega
            obtain ⟨l1, l2, l3, l4, l5⟩ := ih (DfsCall.loop current cp cd rest)
              stm st2 gray h (fun g hg => n1 g (hgr g hg)) n3 n4 n5
              (fun p hp => hnb p (List.mem_cons_of_mem _ hp)) hnl2
              (dfs_arith_cont hVD hV3 hfuel2)
            refine ⟨fun x hx => l1 x (n1 x hx), l2, l3, l4, ?_⟩
            intro p hp
            rcases List.mem_cons.1 hp with h3 | h3
            · rw [h3]
              exact l1 _ n2
            · exact l5 p h3

/-- Engine-level DFS completeness: an unsuccessful `performDFS` run on a
registered start means the end is not reachable from the start in the
adjacency index. -/
theorem performDFS_complete {cities : List City} {links : List GraphLink}
    {rev : Bool} {startCity endCity : City} {tr : List AnimationStep}
    (wf : GraphWF cities links) (hs : startCity ∈ cities)
    (hs0 : startCity ≠ "") (he0 : endCity ≠ "") (hse : startCity ≠ endCity)
    (h : performDFS cities links rev startCity endCity = (none, tr)) :
    ∀ k, ¬ReachIn (buildAdjacencyList cities links rev) startCity endCity k := by
  rw [performDFS] at h
  rw [if_neg (by
    intro hg
    rcases hg with h1 | h1 | h1
    · exact hs0 h1
    · exact he0 h1
    · exact hse h1)] at h
  dsimp only at h
  rcases hres : dfsStep (buildAdjacencyList cities links rev) rev endCity
      (dfsFuel cities links) (DfsCall.node startCity [] 0)
      { visited := [], steps := [],
        distanceMap := fun c => if c ∈ cities then some 0 else none } with
    ⟨res1, stX⟩
  rw [hres] at h
  cases res1 with
  | some p =>
    dsimp only at h
    injection h with h1 h2
    cases h1
  | none =>
    obtain ⟨c1, c2, c3, c4, c5⟩ :=
      dfsStep_complete (L := 2 * links.length)
        (fun c => adj_length_le links rev c)
        (fun u p hp => List.mem_dedup.2 (adj_target_mem_cities wf hp))
        (dfsFuel cities links) (DfsCall.node startCity [] 0)
        { visited := [], steps := [],
          distanceMap := fun c => if c ∈ cities then some 0 else none }
        stX [] hres
        (fun g hg => absurd hg (List.not_mem_nil _))
        (List.not_mem_nil _)
        (List.mem_dedup.2 hs)
        (List.not_mem_nil _)
        List.nodup_nil
        (fun x hx => absurd hx (List.not_mem_nil _))
        (fun z hz => absurd hz (List.not_mem_nil _))
        (by
          have hD : cities.dedup.length ≤ cities.length :=
            (List.dedup_sublist _).length_le
          simp only [List.length_nil, Nat.sub_zero]
          unfold dfsFuel
          exact Nat.mul_le_mul_right _ (by omega))
    intro k hreach
    have hclosed : ∀ z ∈ stX.visited,
        ∀ p ∈ buildAdjacencyList cities links rev z, p.1 ∈ stX.visited :=
      fun z hz p hp => c5 z hz (List.not_mem_nil _) p hp
    have hendm : endCity ∈ stX.visited :=
      reach_mem_of_closed hclosed c2 hreach
    have hnt : endCity ∉ stX.visited := by
      have h2 := @dfsStep_no_target (buildAdjacencyList cities links rev) rev
        endCity (dfsFuel cities links)
        (DfsCall.node startCity [] 0)
        { visited := [], steps := [],
          distanceMap := fun c => if c ∈ cities then some 0 else none }
        (List.not_mem_nil _)
      rw [hres] at h2
      exact h2
    exact hnt hendm

/-- On an undirected, well-formed graph every live edge is an adjacency
edge in both endpoint orders (here at `reverseTraversal = false`). -/
theorem isLiveEdge_adjHas {cities : List City} {links : List GraphLink}
    {u v : City} (wf : GraphWF cities links)
    (hund : ∀ l ∈ links, l.directed = false)
    (h : isLiveEdge links u v = true) :
    adjHas (buildAdjacencyList cities links false) u v := by
  unfold isLiveEdge at h
  rw [List.any_eq_true] at h
  obtain ⟨l, hl, hp⟩ := h
  simp only [decide_eq_true_eq] at hp
  rcases hp with ⟨h1, h2⟩ | ⟨h1, h2⟩
  · refine ⟨l.distance, ?_⟩
    unfold buildAdjacencyList
    rw [if_pos (h1 ▸ (wf.2 l hl).1)]
    refine List.mem_flatMap.2 ⟨l, hl, ?_⟩
    unfold linkEntries
    refine List.mem_append.2 (Or.inl ?_)
    rw [if_pos h1.symm, h2]
    exact List.mem_singleton_self _
  · refine ⟨l.distance, ?_⟩
    unfold buildAdjacencyList
    rw [if_pos (h2 ▸ (wf.2 l hl).2)]
    refine List.mem_flatMap.2 ⟨l, hl, ?_⟩
    unfold linkEntries
    refine List.mem_append.2 (Or.inr ?_)
    rw [if_pos (show ¬l.directed = true ∧ u = l.target from
      ⟨by rw [hund l hl]; exact Bool.false_ne_true, h2.symm⟩), h1]
    exact List.mem_singleton_self _

/-! # Claim theorems -/

/-- **C5.**  Whenever the Bidirectional Wave engine returns a result, the
total distance it reports equals the sum, over every consecutive pair of
nodes in the returned path, of the weight of the live edge connecting that
pair (looked up in the current edge set in either endpoint order,
`recomputeDistance`) — i.e. it round-trips against the live edge set rather
than the per-side distance accumulators. -/
theorem C5_biwave_distance_roundtrip (cities : List City) (links : List GraphLink)
    (rev : Bool) (startCity endCity : City) (r : PathResult)
    (h : (performBidirectionalWave cities links rev startCity endCity).1 = some r) :
    r.totalDistance = some (recomputeDistance links r.path) := by
  unfold performBidirectionalWave at h
  split at h
  · simp at h
  · dsimp only at h
    split at h
    · simp only [Option.some.injEq] at h
      subst h
      rfl
    · simp at h

/-- **C5** witness: concrete application on the scenario graph. -/
theorem C5_witness :
    (({ path := ["A", "C"], totalDistance := some 10 } : PathResult)).totalDistance =
      some (recomputeDistance scenarioLinks ["A", "C"]) :=
  C5_biwave_distance_roundtrip scenarioCities scenarioLinks false "A" "C" _ (by decide)

/-- **C2** counterexample.  On the 3-node scenario graph with the previously
computed path `[A,B,C]` (start `A`, end `C`), `deleteNode "B")` does remove
both incident edges, but the computed path is *not* cleared: the code clears
it only when the deleted node is the current start or end selection. -/
theorem C2_counterexample :
    (deleteNode scenarioState "B").cities = ["A", "C"] ∧
    (deleteNode scenarioState "B").links =
      [{ source := "A", target := "C", distance := 10 }] ∧
    (deleteNode scenarioState "B").dfsPath =
      some { path := ["A", "B", "C"], totalDistance := some 8 } := by
  decide

/-- **C2** (amended).  `deleteNode id` removes the node and every incident
edge; a previously computed path is cleared if and only if the deleted node
is the current start or end selection (in which case the trace is cleared
too).  In particular, in the scenario the two incident edges are removed but
the path `[A,B,C]` survives. -/
theorem C2_deleteNode_behavior (s : AppState) (nodeId : City) :
    (∀ c, c ∈ (deleteNode s nodeId).cities ↔ c ∈ s.cities ∧ c ≠ nodeId) ∧
    (∀ l, l ∈ (deleteNode s nodeId).links ↔
      l ∈ s.links ∧ l.source ≠ nodeId ∧ l.target ≠ nodeId) ∧
    ((deleteNode s nodeId).dfsPath =
      if s.startCity = nodeId ∨ s.endCity = nodeId then none else s.dfsPath) ∧
    ((deleteNode s nodeId).animationSteps =
      if s.startCity = nodeId ∨ s.endCity = nodeId then [] else s.animationSteps) ∧
    (deleteNode scenarioState "B").links =
      [{ source := "A", target := "C", distance := 10 }] ∧
    (deleteNode scenarioState "B").dfsPath =
      some { path := ["A", "B", "C"], totalDistance := some 8 } := by
  refine ⟨?_, ?_, ?_, ?_, by decide, by decide⟩
  · intro c
    unfold deleteNode
    split <;> simp [List.mem_filter]
  · intro l
    unfold deleteNode
    split <;> simp [List.mem_filter]
  · unfold deleteNode
    split <;> rename_i hsel <;> simp [hsel]
  · unfold deleteNode
    split <;> rename_i hsel <;> simp [hsel]

/-- **C8.**  `addNewEdge` is an upsert: when an edge matching the
directionality-sensitive endpoint pair exists, every matching edge is
overwritten in place (same position, same count) and nothing is appended;
otherwise exactly one new edge with the given fields is appended; and
`confirmAddEdge` rejects a non-numeric (`NaN`, modelled `none`) or
non-positive weight leaving the edge set unchanged. -/
theorem C8_addEdge_upsert (links : List GraphLink) (source target : City)
    (d : Weight) (directed : Bool) :
    (links.any (edgeMatchesPair source target directed) = true →
      (addNewEdge links source target d directed).length = links.length ∧
      ∀ i : Nat, (addNewEdge links source target d directed)[i]? =
        (links[i]?).map fun l =>
          if edgeMatchesPair source target directed l then
            { l with distance := d, directed := directed }
          else l) ∧
    (links.any (edgeMatchesPair source target directed) = false →
      addNewEdge links source target d directed =
        links ++ [{ source := source, target := target, distance := d,
                    directed := directed }]) ∧
    confirmAddEdge links source target none directed = links ∧
    (∀ d2 : Weight, d2 ≤ 0 → confirmAddEdge links source target (some d2) directed = links) ∧
    (∀ d2 : Weight, 0 < d2 →
      confirmAddEdge links source target (some d2) directed =
        addNewEdge links source target d2 directed) := by
  refine ⟨?_, ?_, rfl, ?_, ?_⟩
  · intro hex
    unfold addNewEdge
    rw [if_pos hex]
    refine ⟨List.length_map _ _, ?_⟩
    intro i
    rw [List.getElem?_map]
  · intro hex
    unfold addNewEdge
    rw [if_neg (by simp [hex])]
  · intro d2 hd2
    unfold confirmAddEdge
    simp [if_pos, hd2]
  · intro d2 hd2
    unfold confirmAddEdge
    simp [not_le.mpr hd2]

/-- **C8** witness: upserting onto the scenario graph keeps the edge count;
a `NaN` weight and a negative weight are rejected. -/
theorem C8_witness :
    (addNewEdge scenarioLinks "A" "B" 7 false).length = scenarioLinks.length ∧
    confirmAddEdge scenarioLinks "A" "B" none false = scenarioLinks ∧
    confirmAddEdge scenarioLinks "A" "B" (some (-3)) false = scenarioLinks := by
  refine ⟨((C8_addEdge_upsert scenarioLinks "A" "B" 7 false).1 (by decide)).1, ?_, ?_⟩
  · exact (C8_addEdge_upsert scenarioLinks "A" "B" 7 false).2.2.1
  · exact (C8_addEdge_upsert scenarioLinks "A" "B" (-3) false).2.2.2.1 (-3) (by decide)

/-- **C1** counterexample.  With `reverseTraversal = false` on the directed
graph `A→B`, `C→B`, Bidirectional Wave (selected via `computePath`) returns
the path `[A,B,C]`, whose consecutive pair `(B,C)` is not connected by any
live edge traversable in that direction (the live edge is directed `C→B`). -/
theorem C1_counterexample :
    (computePath cexDirCities cexDirLinks .BidirectionalWave false "A" "C").1 =
      some { path := ["A", "B", "C"], totalDistance := some 2 } ∧
    isDirValidEdge cexDirLinks "B" "C" = false := by
  decide

/-- **C3** counterexample.  On the non-negatively weighted directed graph
`S→A` 1, `A→E` 50, `E→B` 1, `S→B` 1, Dijkstra reports total distance 51 while
Bidirectional Wave also returns a result and reports 2 (its backward half
walks `E→B` against the direction), so Dijkstra's reported distance is not
`≤` every other strategy's. -/
theorem C3_counterexample :
    (computePath cexDijCities cexDijLinks .Dijkstra false "S" "E").1 =
      some { path := ["S", "A", "E"], totalDistance := some 51 } ∧
    (computePath cexDijCities cexDijLinks .BidirectionalWave false "S" "E").1 =
      some { path := ["S", "B", "E"], totalDistance := some 2 } ∧
    (∀ l ∈ cexDijLinks, 0 ≤ l.distance) ∧
    ¬((51 : Weight) ≤ 2) := by
  decide

/-- **C6** counterexample.  With an end id (`"Z"`) absent from the node set
(and a present, distinct start), the Dijkstra engine does *not* return "no
result with an empty trace": it returns a spurious single-node path `["Z"]`
(with an undefined total distance) together with a non-empty trace. -/
theorem C6_counterexample :
    ("Z" ∉ cexTwoCities) ∧
    (computePath cexTwoCities cexTwoLinks .Dijkstra false "A" "Z").1 =
      some { path := ["Z"], totalDistance := none } ∧
    (computePath cexTwoCities cexTwoLinks .Dijkstra false "A" "Z").2 ≠ [] := by
  decide

/-- **C6** (amended).  For every strategy, if the start id is empty, the end
id is empty, or the start equals the end, path computation returns no result
and an empty trace.  If instead the end id is absent from the node set (with
a registered start), DFS, BFS and Wave return no result; Dijkstra does not
(it returns the spurious one-node path `[end]`, as the counterexample
shows). -/
theorem C6_guard_behavior (cities : List City) (links : List GraphLink)
    (startCity endCity : City) (wf : GraphWF cities links) :
    (∀ (strat : Strategy) (rev : Bool),
      startCity = "" ∨ endCity = "" ∨ startCity = endCity →
      computePath cities links strat rev startCity endCity = (none, [])) ∧
    (∀ (strat : Strategy) (rev : Bool),
      (strat = .DFS ∨ strat = .BFS ∨ strat = .Wave) →
      startCity ∈ cities → endCity ∉ cities →
      (computePath cities links strat rev startCity endCity).1 = none) := by
  have hguardAll : ∀ (strat : Strategy) (rev : Bool),
      startCity = "" ∨ endCity = "" ∨ startCity = endCity →
      computePath cities links strat rev startCity endCity = (none, []) := by
    intro strat rev hg
    cases strat
    · rw [computePath, performDFS, if_pos hg]
    · rw [computePath, performBFS, if_pos hg]
    · rw [computePath, performDijkstra, if_pos hg]
    · rw [computePath, performWave, if_pos hg]
    · rw [computePath, performBidirectionalWave, if_pos hg]
  refine ⟨hguardAll, ?_⟩
  intro strat rev hstrat hsm hem
  rcases hcp : computePath cities links strat rev startCity endCity with ⟨res, tr⟩
  cases res with
  | none => rfl
  | some r =>
    exfalso
    by_cases hg : startCity = "" ∨ endCity = "" ∨ startCity = endCity
    · have h2 := (hguardAll strat rev hg).symm.trans hcp
      exact absurd (congrArg Prod.fst h2) (by simp)
    · have hse : startCity ≠ endCity := fun hh => hg (Or.inr (Or.inr hh))
      have hkey : r.path.head? = some startCity ∧
          r.path.getLast? = some endCity ∧
          ∀ pr ∈ pathPairs r.path,
            adjHas (buildAdjacencyList cities links rev) pr.1 pr.2 := by
        rcases hstrat with h | h | h
        · subst h
          obtain ⟨a, b, c, -, -, -⟩ := performDFS_sound hcp
          exact ⟨a, b, c⟩
        · subst h
          obtain ⟨a, b, c, -, -, -⟩ := performBFS_sound hcp
          exact ⟨a, b, c⟩
        · subst h
          obtain ⟨a, b, c, -, -, -⟩ := performWave_sound wf hsm hcp
          exact ⟨a, b, c⟩
      obtain ⟨h1, h2, h3⟩ := hkey
      have hmem : endCity ∈ r.path := List.mem_of_mem_getLast? h2
      obtain ⟨y, hy⟩ := pathPairs_mem_of_ne_head h1 hmem (Ne.symm hse)
      obtain ⟨w, hw⟩ := h3 (y, endCity) hy
      exact hem (adj_target_mem_cities wf hw)

/-- Witness for C6: with start = end every strategy returns no result and an
empty trace, and with an absent end DFS returns no result. -/
theorem C6_witness :
    computePath cexTwoCities cexTwoLinks .Dijkstra false "A" "A" = (none, []) ∧
    (computePath cexTwoCities cexTwoLinks .DFS false "A" "Z").1 = none :=
  ⟨(C6_guard_behavior cexTwoCities cexTwoLinks "A" "A"
      ⟨by decide, by decide⟩).1 .Dijkstra false (Or.inr (Or.inr rfl)),
   (C6_guard_behavior cexTwoCities cexTwoLinks "A" "Z"
      ⟨by decide, by decide⟩).2 .DFS false (Or.inl rfl) (by decide) (by decide)⟩

/-- **C7** counterexample.  Replaying the DFS trace on the two-node graph
`A-B` (start `A`, end `B`) yields visited set `{A}`: the end node of the
returned path `[A,B]` is never marked visited by any step, so the replayed
visited set is not a superset of the path's node set. -/
theorem C7_counterexample :
    (computePath cexTwoCities cexTwoLinks .DFS false "A" "B").1 =
      some { path := ["A", "B"], totalDistance := some 1 } ∧
    "B" ∉ foldVisited (computePath cexTwoCities cexTwoLinks .DFS false "A" "B").2 := by
  decide

/-- **C3** (amended).  On a well-formed graph with non-negative edge weights
and a registered start, whenever Dijkstra and one of DFS, BFS or Wave both
return a result on the same graph, start, end and traversal flag, the total
distance reported by Dijkstra is at most the one reported by the other
strategy.  Bidirectional Wave is excluded: it can report a smaller total by
walking directed edges backwards, as the counterexample shows. -/
theorem C3_dijkstra_minimality (cities : List City) (links : List GraphLink)
    (startCity endCity : City) (wf : GraphWF cities links)
    (hnn : ∀ l ∈ links, 0 ≤ l.distance) (hs : startCity ∈ cities) :
    ∀ (strat : Strategy), (strat = .DFS ∨ strat = .BFS ∨ strat = .Wave) →
    ∀ (rev : Bool) (rD rX : PathResult) (trD trX : List AnimationStep),
      computePath cities links .Dijkstra rev startCity endCity =
        (some rD, trD) →
      computePath cities links strat rev startCity endCity = (some rX, trX) →
      ∀ qD qX, rD.totalDistance = some qD → rX.totalDistance = some qX →
        qD ≤ qX := by
  intro strat hstrat rev rD rX trD trX hD hX qD qX hqD hqX
  have hkey : rX.path.head? = some startCity ∧
      rX.path.getLast? = some endCity ∧
      ∃ q, rX.totalDistance = some q ∧
        AdjWalk (buildAdjacencyList cities links rev) rX.path q := by
    rcases hstrat with hst | hst | hst
    · subst hst
      obtain ⟨a, b, -, -, e, -⟩ := performDFS_sound hX
      exact ⟨a, b, e⟩
    · subst hst
      obtain ⟨a, b, -, -, e, -⟩ := performBFS_sound hX
      exact ⟨a, b, e⟩
    · subst hst
      obtain ⟨a, b, -, -, e, -⟩ := performWave_sound wf hs hX
      exact ⟨a, b, e⟩
  obtain ⟨hhd, hlast, q2, hq2, hwalk⟩ := hkey
  rw [hqX] at hq2
  injection hq2 with hq2
  subst hq2
  exact performDijkstra_minimal wf hnn hs hD rX.path qX hwalk hhd hlast qD hqD

/-- Witness for C3 on the scenario graph: both Dijkstra and DFS succeed from
`A` to `C`, and the Dijkstra total is at most the DFS total. -/
theorem C3_witness :
    ∃ rD rX trD trX,
      computePath scenarioCities scenarioLinks .Dijkstra false "A" "C" =
        (some rD, trD) ∧
      computePath scenarioCities scenarioLinks .DFS false "A" "C" =
        (some rX, trX) ∧
      ∀ qD qX, rD.totalDistance = some qD → rX.totalDistance = some qX →
        qD ≤ qX := by
  have hmain :=
    C3_dijkstra_minimality scenarioCities scenarioLinks "A" "C"
      ⟨by decide, by decide⟩ (by decide) (by decide)
  rcases hD : computePath scenarioCities scenarioLinks .Dijkstra false "A" "C"
    with ⟨resD, trD⟩
  have hfstD : (computePath scenarioCities scenarioLinks .Dijkstra false
      "A" "C").1 = resD := congrArg Prod.fst hD
  have hvalD : (computePath scenarioCities scenarioLinks .Dijkstra false
      "A" "C").1 = some { path := ["A", "B", "C"], totalDistance := some 8 } := by
    decide
  rw [hvalD] at hfstD
  subst hfstD
  rcases hX : computePath scenarioCities scenarioLinks .DFS false "A" "C"
    with ⟨resX, trX⟩
  have hfstX : (computePath scenarioCities scenarioLinks .DFS false
      "A" "C").1 = resX := congrArg Prod.fst hX
  have hvalX : (computePath scenarioCities scenarioLinks .DFS false
      "A" "C").1 = some { path := ["A", "B", "C"], totalDistance := some 8 } := by
    decide
  rw [hvalX] at hfstX
  subst hfstX
  exact ⟨_, _, trD, trX, rfl, rfl,
    hmain .DFS (Or.inl rfl) false _ _ trD trX hD hX⟩

/-- **C4.**  BFS marks a node visited at enqueue time (every freshly produced
queue entry's node was unvisited before the expansion and is visited right
after it, and one expansion never enqueues the same node twice), detects the
target at dequeue time (a queue whose front holds the end city returns
immediately), and a successful BFS path is hop-minimal among all
adjacency-valid walks; consequently a successful DFS run on the same graph,
start and end forces BFS to succeed with a hop count no larger than DFS's. -/
theorem C4_bfs_hop_minimality (cities : List City) (links : List GraphLink)
    (rev : Bool) (startCity endCity : City) (wf : GraphWF cities links) :
    (∀ (node : City) (cp : List City) (d : Weight) (nbrs : List (City × Weight))
        (visited : List City) (steps : List AnimationStep),
      (∀ e ∈ (bfsExpand node cp d nbrs visited steps).newEntries,
        e.node ∉ visited ∧ e.node ∈ (bfsExpand node cp d nbrs visited steps).visited) ∧
      ((bfsExpand node cp d nbrs visited steps).newEntries.map BfsEntry.node).Nodup) ∧
    (∀ (fuel : Nat) (e : BfsEntry) (rest : List BfsEntry) (visited : List City)
        (steps : List AnimationStep), e.node = endCity →
      bfsLoop (buildAdjacencyList cities links rev) rev endCity (fuel + 1)
          (e :: rest) visited steps =
        (some { path := e.path ++ [e.node], totalDistance := some e.distance },
          steps)) ∧
    (∀ rB trB, performBFS cities links rev startCity endCity = (some rB, trB) →
      ∀ k, ReachIn (buildAdjacencyList cities links rev) startCity endCity k →
        rB.path.length ≤ k + 1) ∧
    (∀ rB trB, performBFS cities links false startCity endCity = (some rB, trB) →
      startCity ∈ cities →
      ∀ p : List City, p.head? = some startCity → p.getLast? = some endCity →
        (∀ pr ∈ pathPairs p, isDirValidEdge links pr.1 pr.2 = true) →
        rB.path.length ≤ p.length) ∧
    (∀ rD trD, performDFS cities links rev startCity endCity = (some rD, trD) →
      ∃ rB trB, performBFS cities links rev startCity endCity = (some rB, trB) ∧
        rB.path.length ≤ rD.path.length) := by
  refine ⟨?_, ?_, (performBFS_minimal wf).1, ?_, ?_⟩
  · intro node cp d nbrs visited steps
    obtain ⟨-, -, -, j4, -⟩ := bfsExpandGo_spec node cp d nbrs
      { visited := visited, steps := steps, newEntries := [] }
    obtain ⟨-, k2, -, -⟩ := bfsExpandGo_extra node cp d nbrs
      { visited := visited, steps := steps, newEntries := [] }
    constructor
    · intro e he
      rcases j4 e he with h1 | ⟨-, -, hnv, hv, -⟩
      · cases h1
      · exact ⟨hnv, hv⟩
    · exact (k2 (by simp) (fun e he => absurd he (List.not_mem_nil e))).1
  · intro fuel e rest visited steps he
    rw [bfsLoop]
    dsimp only
    rw [if_pos he]
  · intro rB trB hB hsc p hhd hlast hdv
    have hadj := dirValid_chain_adjHas wf p startCity hhd hsc hdv
    have hreach := reachIn_of_chain hhd hadj hlast
    have hle := (@performBFS_minimal cities links false startCity endCity wf).1
      rB trB hB (p.length - 1) hreach
    have hne : p ≠ [] := by
      intro hnil
      rw [hnil] at hhd
      cases hhd
    have hpos : 0 < p.length := List.length_pos.2 hne
    omega
  · intro rD trD hD
    have hguard : ¬(startCity = "" ∨ endCity = "" ∨ startCity = endCity) := by
      intro hg
      rw [performDFS, if_pos hg] at hD
      cases hD
    obtain ⟨hs1, hs2, hs3, -, -, -⟩ := performDFS_sound hD
    have hreach : ReachIn (buildAdjacencyList cities links rev) startCity endCity
        (rD.path.length - 1) := reachIn_of_chain hs1 hs3 hs2
    rcases hB : performBFS cities links rev startCity endCity with ⟨resB, trB⟩
    cases resB with
    | some rB =>
      refine ⟨rB, trB, rfl, ?_⟩
      have hle := (performBFS_minimal wf).1 rB trB hB (rD.path.length - 1) hreach
      have hne : rD.path ≠ [] := by
        intro hnil
        rw [hnil] at hs2
        cases hs2
      have hpos : 0 < rD.path.length := List.length_pos.2 hne
      omega
    | none =>
      exfalso
      have h1 : startCity ≠ "" := fun hh => hguard (Or.inl hh)
      have h2 : endCity ≠ "" := fun hh => hguard (Or.inr (Or.inl hh))
      have h3 : startCity ≠ endCity := fun hh => hguard (Or.inr (Or.inr hh))
      exact (performBFS_minimal wf).2 trB hB h1 h2 h3 _ hreach

/-- **C1** (amended).  On a well-formed graph with non-negative weights and
registered start/end selections, a returned path starts at the start id and
ends at the end id; for DFS, BFS, Dijkstra and Wave (at
`reverseTraversal = false`) every consecutive pair is a live,
directionally valid edge, while for Bidirectional Wave every consecutive
pair is only guaranteed to be a live edge in one of the two endpoint orders
(its backward half traverses directed edges against their direction, as the
counterexample shows). -/
theorem C1_path_validity (cities : List City) (links : List GraphLink)
    (startCity endCity : City) (wf : GraphWF cities links)
    (hnn : ∀ l ∈ links, 0 ≤ l.distance)
    (hs : startCity ∈ cities) (hec : endCity ∈ cities) :
    (∀ (strat : Strategy) (r : PathResult) (tr : List AnimationStep),
      strat ≠ .BidirectionalWave →
      computePath cities links strat false startCity endCity = (some r, tr) →
      r.path.head? = some startCity ∧ r.path.getLast? = some endCity ∧
      ∀ pr ∈ pathPairs r.path, isDirValidEdge links pr.1 pr.2 = true) ∧
    (∀ (rev : Bool) (r : PathResult) (tr : List AnimationStep),
      computePath cities links .BidirectionalWave rev startCity endCity =
        (some r, tr) →
      r.path.head? = some startCity ∧ r.path.getLast? = some endCity ∧
      ∀ pr ∈ pathPairs r.path, isLiveEdge links pr.1 pr.2 = true) := by
  constructor
  · intro strat r tr hnb h
    cases strat with
    | DFS =>
      obtain ⟨h1, h2, h3, -, -, -⟩ := performDFS_sound h
      exact ⟨h1, h2, fun pr hpr => adjHas_isDirValidEdge (h3 pr hpr)⟩
    | BFS =>
      obtain ⟨h1, h2, h3, -, -, -⟩ := performBFS_sound h
      exact ⟨h1, h2, fun pr hpr => adjHas_isDirValidEdge (h3 pr hpr)⟩
    | Dijkstra =>
      obtain ⟨h1, h2, h3, -, -, -⟩ := performDijkstra_sound wf hnn hs hec h
      exact ⟨h1, h2, fun pr hpr => adjHas_isDirValidEdge (h3 pr hpr)⟩
    | Wave =>
      obtain ⟨h1, h2, h3, -, -, -⟩ := performWave_sound wf hs h
      exact ⟨h1, h2, fun pr hpr => adjHas_isDirValidEdge (h3 pr hpr)⟩
    | BidirectionalWave => exact absurd rfl hnb
  · intro rev r tr h
    obtain ⟨h1, h2, h3, -, -⟩ := performBidirectionalWave_sound wf hs hec h
    exact ⟨h1, h2, h3⟩

/-- Witness for C1 on the scenario graph: the DFS result runs from `A` to
`C` over directionally valid edges. -/
theorem C1_witness :
    ∃ r tr,
      computePath scenarioCities scenarioLinks .DFS false "A" "C" = (some r, tr) ∧
      r.path.head? = some "A" ∧ r.path.getLast? = some "C" ∧
      ∀ pr ∈ pathPairs r.path, isDirValidEdge scenarioLinks pr.1 pr.2 = true := by
  obtain ⟨hmain, -⟩ :=
    C1_path_validity scenarioCities scenarioLinks "A" "C"
      ⟨by decide, by decide⟩ (by decide) (by decide) (by decide)
  rcases hD : computePath scenarioCities scenarioLinks .DFS false "A" "C" with
    ⟨resD, trD⟩
  have hfst : (computePath scenarioCities scenarioLinks .DFS false "A" "C").1 =
      resD := congrArg Prod.fst hD
  have hval : (computePath scenarioCities scenarioLinks .DFS false "A" "C").1 =
      some { path := ["A", "B", "C"], totalDistance := some 8 } := by decide
  rw [hval] at hfst
  subst hfst
  obtain ⟨h1, h2, h3⟩ := hmain .DFS _ trD (by decide) hD
  exact ⟨_, trD, rfl, h1, h2, h3⟩

/-- **C7** (amended).  On a well-formed graph with non-negative weights and
registered start/end selections, replaying a full trace marks visited every
node of the result path except possibly the end node, for every strategy;
for BFS, Dijkstra and Bidirectional Wave the end node is marked as well, so
replay covers the entire path.  (DFS never marks the end node, as the
counterexample shows.) -/
theorem C7_replay_superset (cities : List City) (links : List GraphLink)
    (startCity endCity : City) (wf : GraphWF cities links)
    (hnn : ∀ l ∈ links, 0 ≤ l.distance)
    (hs : startCity ∈ cities) (hec : endCity ∈ cities) :
    (∀ (strat : Strategy) (rev : Bool) (r : PathResult)
        (tr : List AnimationStep),
      computePath cities links strat rev startCity endCity = (some r, tr) →
      ∀ x ∈ r.path, x ∈ foldVisited tr ∨ x = endCity) ∧
    (∀ (strat : Strategy),
      (strat = .BFS ∨ strat = .Dijkstra ∨ strat = .BidirectionalWave) →
      ∀ (rev : Bool) (r : PathResult) (tr : List AnimationStep),
      computePath cities links strat rev startCity endCity = (some r, tr) →
      ∀ x ∈ r.path, x ∈ foldVisited tr) := by
  constructor
  · intro strat rev r tr h x hx
    cases strat with
    | DFS =>
      obtain ⟨-, -, -, -, -, h6⟩ := performDFS_sound h
      by_cases hxe : x = endCity
      · exact Or.inr hxe
      · obtain ⟨s, hs1, hs2, hs3⟩ := h6 x hx hxe
        refine Or.inl (covStep_foldVisited ⟨s, hs1, Or.inr ⟨?_, hs3⟩⟩)
        rw [hs2]
        simp
    | BFS =>
      obtain ⟨-, -, -, -, -, h6⟩ := performBFS_sound h
      obtain ⟨s, hs1, hs2, hs3⟩ := h6 x hx
      refine Or.inl (covStep_foldVisited ⟨s, hs1, Or.inr ⟨?_, hs3⟩⟩)
      rw [hs2]
      simp
    | Dijkstra =>
      exact Or.inl ((performDijkstra_sound wf hnn hs hec h).2.2.2.2.2 x hx)
    | Wave =>
      by_cases hxe : x = endCity
      · exact Or.inr hxe
      · exact Or.inl ((performWave_sound wf hs h).2.2.2.2.2 x hx hxe)
    | BidirectionalWave =>
      exact Or.inl ((performBidirectionalWave_sound wf hs hec h).2.2.2.2 x hx)
  · intro strat hstrat rev r tr h x hx
    rcases hstrat with hst | hst | hst
    · subst hst
      obtain ⟨-, -, -, -, -, h6⟩ := performBFS_sound h
      obtain ⟨s, hs1, hs2, hs3⟩ := h6 x hx
      refine covStep_foldVisited ⟨s, hs1, Or.inr ⟨?_, hs3⟩⟩
      rw [hs2]
      simp
    · subst hst
      exact (performDijkstra_sound wf hnn hs hec h).2.2.2.2.2 x hx
    · subst hst
      exact (performBidirectionalWave_sound wf hs hec h).2.2.2.2 x hx

/-- Witness for C7 on the two-node graph: every node of the DFS result path
is replay-visited or is the end id, and every node of the BFS result path,
including the end id, is replay-visited. -/
theorem C7_witness :
    ∃ r tr r2 tr2,
      computePath cexTwoCities cexTwoLinks .DFS false "A" "B" = (some r, tr) ∧
      (∀ x ∈ r.path, x ∈ foldVisited tr ∨ x = "B") ∧
      computePath cexTwoCities cexTwoLinks .BFS false "A" "B" = (some r2, tr2) ∧
      ∀ x ∈ r2.path, x ∈ foldVisited tr2 := by
  obtain ⟨hmain1, hmain2⟩ :=
    C7_replay_superset cexTwoCities cexTwoLinks "A" "B"
      ⟨by decide, by decide⟩ (by decide) (by decide) (by decide)
  rcases hD : computePath cexTwoCities cexTwoLinks .DFS false "A" "B" with
    ⟨resD, trD⟩
  have hfstD : (computePath cexTwoCities cexTwoLinks .DFS false "A" "B").1 =
      resD := congrArg Prod.fst hD
  have hvalD : (computePath cexTwoCities cexTwoLinks .DFS false "A" "B").1 =
      some { path := ["A", "B"], totalDistance := some 1 } := by decide
  rw [hvalD] at hfstD
  subst hfstD
  rcases hB : computePath cexTwoCities cexTwoLinks .BFS false "A" "B" with
    ⟨resB, trB⟩
  have hfstB : (computePath cexTwoCities cexTwoLinks .BFS false "A" "B").1 =
      resB := congrArg Prod.fst hB
  have hvalB : (computePath cexTwoCities cexTwoLinks .BFS false "A" "B").1 =
      some { path := ["A", "B"], totalDistance := some 1 } := by decide
  rw [hvalB] at hfstB
  subst hfstB
  exact ⟨_, trD, _, trB, rfl, hmain1 .DFS false _ trD hD, rfl,
    hmain2 .BFS (Or.inl rfl) false _ trB hB⟩

/-- **C10.**  On a well-formed graph with non-negative weights and registered
start/end selections, every path returned by any of the five strategies is
simple: no node id occurs twice (in particular the Bidirectional Wave
meeting node occurs exactly once in the concatenated path). -/
theorem C10_simple_paths (cities : List City) (links : List GraphLink)
    (startCity endCity : City) (wf : GraphWF cities links)
    (hnn : ∀ l ∈ links, 0 ≤ l.distance)
    (hs : startCity ∈ cities) (hec : endCity ∈ cities) :
    ∀ (strat : Strategy) (rev : Bool) (r : PathResult) (tr : List AnimationStep),
      computePath cities links strat rev startCity endCity = (some r, tr) →
      r.path.Nodup := by
  intro strat rev r tr h
  cases strat with
  | DFS => exact (performDFS_sound h).2.2.2.1
  | BFS => exact (performBFS_sound h).2.2.2.1
  | Dijkstra => exact (performDijkstra_sound wf hnn hs hec h).2.2.2.1
  | Wave => exact (performWave_sound wf hs h).2.2.2.1
  | BidirectionalWave =>
    exact (performBidirectionalWave_sound wf hs hec h).2.2.2.1

/-- Witness for C10 on the scenario graph: the Bidirectional Wave result
path is duplicate-free. -/
theorem C10_witness :
    ∃ r tr,
      computePath scenarioCities scenarioLinks .BidirectionalWave false "A" "C" =
        (some r, tr) ∧ r.path.Nodup := by
  have hmain :=
    C10_simple_paths scenarioCities scenarioLinks "A" "C"
      ⟨by decide, by decide⟩ (by decide) (by decide) (by decide)
  rcases hD : computePath scenarioCities scenarioLinks .BidirectionalWave false
      "A" "C" with ⟨resD, trD⟩
  have hfst : (computePath scenarioCities scenarioLinks .BidirectionalWave false
      "A" "C").1 = resD := congrArg Prod.fst hD
  have hval : (computePath scenarioCities scenarioLinks .BidirectionalWave false
      "A" "C").1 = some { path := ["A", "C"], totalDistance := some 10 } := by
    decide
  rw [hval] at hfst
  subst hfst
  exact ⟨_, trD, rfl, hmain .BidirectionalWave false _ trD hD⟩

/-- **C9.**  On a graph whose edges are all undirected, the adjacency index
ignores the reverse-traversal flag, so for every strategy a result exists
with `reverseTraversal = true` iff one exists with `reverseTraversal =
false` (Dijkstra, which never reorders neighbor lists, returns the very
same result and trace). -/
theorem C9_undirected_flag_equivalence (cities : List City)
    (links : List GraphLink) (startCity endCity : City)
    (wf : GraphWF cities links) (hund : ∀ l ∈ links, l.directed = false)
    (hs : startCity ∈ cities) (hec : endCity ∈ cities) :
    (computePath cities links .Dijkstra true startCity endCity =
      computePath cities links .Dijkstra false startCity endCity) ∧
    ∀ (strat : Strategy) (rev1 rev2 : Bool),
      ((computePath cities links strat rev1 startCity endCity).1.isSome ↔
        (computePath cities links strat rev2 startCity endCity).1.isSome) := by
  have hadj : ∀ rv : Bool, buildAdjacencyList cities links rv =
      buildAdjacencyList cities links false :=
    fun rv => buildAdjacencyList_undirected hund rv
  have hdijk : performDijkstra cities links true startCity endCity =
      performDijkstra cities links false startCity endCity := by
    unfold performDijkstra
    rw [hadj true]
  have hDeq : ∀ rv : Bool, performDijkstra cities links rv startCity endCity =
      performDijkstra cities links false startCity endCity := by
    intro rv
    cases rv
    · rfl
    · exact hdijk
  have key : ∀ (strat : Strategy) (ra rb : Bool) (r : PathResult)
      (tr : List AnimationStep),
      computePath cities links strat ra startCity endCity = (some r, tr) →
      (computePath cities links strat rb startCity endCity).1.isSome = true := by
    intro strat ra rb r tr hsome
    by_cases hg : startCity = "" ∨ endCity = "" ∨ startCity = endCity
    · exfalso
      have hnone : computePath cities links strat ra startCity endCity =
          (none, []) := by
        cases strat
        · rw [computePath, performDFS, if_pos hg]
        · rw [computePath, performBFS, if_pos hg]
        · rw [computePath, performDijkstra, if_pos hg]
        · rw [computePath, performWave, if_pos hg]
        · rw [computePath, performBidirectionalWave, if_pos hg]
      have h2 := hnone.symm.trans hsome
      exact absurd (congrArg Prod.fst h2) (by simp)
    · have hs0 : startCity ≠ "" := fun hh => hg (Or.inl hh)
      have he0 : endCity ≠ "" := fun hh => hg (Or.inr (Or.inl hh))
      have hse : startCity ≠ endCity := fun hh => hg (Or.inr (Or.inr hh))
      cases strat with
      | Dijkstra =>
        have h2 : performDijkstra cities links rb startCity endCity =
            (some r, tr) := by
          rw [hDeq rb, ← hDeq ra]
          exact hsome
        show (performDijkstra cities links rb startCity endCity).1.isSome = true
        rw [h2]
        rfl
      | DFS =>
        obtain ⟨h1, h2, h3, -, -, -⟩ := performDFS_sound hsome
        have hreach : ReachIn (buildAdjacencyList cities links rb) startCity
            endCity (r.path.length - 1) := by
          have h4 := reachIn_of_chain h1 h3 h2
          rw [hadj ra, ← hadj rb] at h4
          exact h4
        rcases hcp2 : computePath cities links .DFS rb startCity endCity with
          ⟨res2, tr2⟩
        cases res2 with
        | some r2 => rfl
        | none =>
          exfalso
          exact performDFS_complete wf hs hs0 he0 hse hcp2 _ hreach
      | BFS =>
        obtain ⟨h1, h2, h3, -, -, -⟩ := performBFS_sound hsome
        have hreach : ReachIn (buildAdjacencyList cities links rb) startCity
            endCity (r.path.length - 1) := by
          have h4 := reachIn_of_chain h1 h3 h2
          rw [hadj ra, ← hadj rb] at h4
          exact h4
        rcases hcp2 : computePath cities links .BFS rb startCity endCity with
          ⟨res2, tr2⟩
        cases res2 with
        | some r2 => rfl
        | none =>
          exfalso
          exact (@performBFS_minimal cities links rb startCity endCity wf).2
            tr2 hcp2 hs0 he0 hse _ hreach
      | Wave =>
        obtain ⟨h1, h2, h3, -, -, -⟩ := performWave_sound wf hs hsome
        have hreach : ReachIn (buildAdjacencyList cities links rb) startCity
            endCity (r.path.length - 1) := by
          have h4 := reachIn_of_chain h1 h3 h2
          rw [hadj ra, ← hadj rb] at h4
          exact h4
        rcases hcp2 : computePath cities links .Wave rb startCity endCity with
          ⟨res2, tr2⟩
        cases res2 with
        | some r2 => rfl
        | none =>
          exfalso
          exact performWave_complete wf hs hs0 he0 hse hcp2 _ hreach
      | BidirectionalWave =>
        obtain ⟨h1, h2, h3, -, -⟩ := performBidirectionalWave_sound wf hs hec
          hsome
        have h3b : ∀ pr ∈ pathPairs r.path,
            adjHas (buildAdjacencyList cities links false) pr.1 pr.2 :=
          fun pr hpr => isLiveEdge_adjHas wf hund (h3 pr hpr)
        have hreach : ReachIn (buildAdjacencyList cities links rb) startCity
            endCity (r.path.length - 1) := by
          have h4 := reachIn_of_chain h1 h3b h2
          rw [← hadj rb] at h4
          exact h4
        rcases hcp2 : computePath cities links .BidirectionalWave rb startCity
            endCity with ⟨res2, tr2⟩
        cases res2 with
        | some r2 => rfl
        | none =>
          exfalso
          exact performBidirectionalWave_complete hs0 he0 hse hcp2 _ hreach
  refine ⟨hdijk, ?_⟩
  intro strat rev1 rev2
  constructor
  · intro h1
    rcases hcp : computePath cities links strat rev1 startCity endCity with
      ⟨res, tr⟩
    rw [hcp] at h1
    cases res with
    | none => exact Bool.noConfusion h1
    | some r => exact key strat rev1 rev2 r tr hcp
  · intro h1
    rcases hcp : computePath cities links strat rev2 startCity endCity with
      ⟨res, tr⟩
    rw [hcp] at h1
    cases res with
    | none => exact Bool.noConfusion h1
    | some r => exact key strat rev2 rev1 r tr hcp

/-- Witness for C9 on the (undirected) scenario graph. -/
theorem C9_witness :
    (computePath scenarioCities scenarioLinks .Dijkstra true "A" "C" =
      computePath scenarioCities scenarioLinks .Dijkstra false "A" "C") ∧
    ((computePath scenarioCities scenarioLinks .DFS true "A" "C").1.isSome ↔
      (computePath scenarioCities scenarioLinks .DFS false "A" "C").1.isSome) := by
  obtain ⟨hd, hiff⟩ :=
    C9_undirected_flag_equivalence scenarioCities scenarioLinks "A" "C"
      ⟨by decide, by decide⟩ (by decide) (by decide) (by decide)
  exact ⟨hd, hiff .DFS true false⟩

/-- Witness for C4: on the scenario graph (start `A`, end `C`) the DFS result
`[A,B,C]` forces a BFS result of at most 3 nodes. -/
theorem C4_witness :
    ∃ rB trB, performBFS scenarioCities scenarioLinks false "A" "C" = (some rB, trB) ∧
      rB.path.length ≤ 3 := by
  obtain ⟨-, -, -, -, hd⟩ :=
    C4_bfs_hop_minimality scenarioCities scenarioLinks false "A" "C"
      ⟨by decide, by decide⟩
  rcases hDp : performDFS scenarioCities scenarioLinks false "A" "C" with ⟨resD, trD⟩
  have hfst : (performDFS scenarioCities scenarioLinks false "A" "C").1 = resD :=
    congrArg Prod.fst hDp
  have hval : (performDFS scenarioCities scenarioLinks false "A" "C").1 =
      some { path := ["A", "B", "C"], totalDistance := some 8 } := by decide
  rw [hval] at hfst
  rw [← hfst] at hDp
  obtain ⟨rB, trB, hB, hle⟩ := hd _ trD hDp
  exact ⟨rB, trB, hB, by simpa using hle⟩

end SAI
